import Mathlib

/-!
# Verification of the maze-ai core (maze generator, environment, solvers)

A shallow embedding of the Python sources under `src/maze-ai/src/` into Lean:

* `src/utils/priority_queue.py` — the lazy-invalidation min-priority queue.
* `src/maze/generator.py` — perfect-maze generation by iterative DFS carving.
* `src/maze/env.py` — the graph view (`neighbors`) and MDP view
  (`transitions`, `reward`, `expected_return`) of a maze.
* `src/solvers/{bfs,dfs,astar,value_iteration,policy_iteration}.py` and
  `src/analytics/metrics.py`.

Conventions used throughout the embedding:

* Python `int` is modelled by `ℤ` (coordinates, dimensions) or `ℕ`
  (counters, bit masks, which are always non-negative in the source);
  Python `float` is modelled by `ℚ` (every float the algorithms
  manipulate is treated as an exact number; the claims under study are
  about the algebra and control flow, not rounding).
* Python mutable state is passed explicitly; `while` loops become
  fuel-indexed structural recursions returning `Option` (`none` = the
  fuel ran out), with theorems showing the fuel chosen by the top-level
  entry points suffices.
* Python exceptions (`IndexError` of `PriorityQueue.pop`, `ValueError`
  of `generate_maze`) become `none`-valued results at the raise site.
* `random.Random(seed).choice(neigh)` is modelled by an arbitrary
  oracle `choose : ℕ → ℕ` consulted once per carving step; the index
  used is `choose k % neigh.length`, which covers every possible
  behaviour of the seeded RNG (it always returns some element).
* Python dicts whose size or entry list is observed are modelled as
  association lists (first-match lookup, in-place value replacement);
  dicts used only through lookup/update are modelled as functions.
-/

namespace MazeAI

/-- A grid coordinate `(row, col)`, as in the Python `Coord = Tuple[int, int]`. -/
abbrev Coord : Type := ℤ × ℤ

/-! ## Priority queue (`src/utils/priority_queue.py`) -/

/-- `_PQItem`: a physical heap entry.  `dataclass(order=True)` with
`item` marked `compare=False` compares entries by `(priority, tie)`. -/
structure PQItem (α : Type) where
  priority : ℚ
  tie : ℕ
  item : α
deriving DecidableEq

/-- The strict `(priority, tie)` lexicographic order on heap entries
(the order `heapq` uses, since `tie` values are distinct in practice). -/
def PQItem.lt {α : Type} (a b : PQItem α) : Prop :=
  a.priority < b.priority ∨ (a.priority = b.priority ∧ a.tie < b.tie)

/-- The non-strict `(priority, tie)` lexicographic order on heap entries. -/
def PQItem.le {α : Type} (a b : PQItem α) : Prop :=
  a.priority < b.priority ∨ (a.priority = b.priority ∧ a.tie ≤ b.tie)

instance {α : Type} : DecidablePred fun p : PQItem α × PQItem α => PQItem.le p.1 p.2 :=
  fun _ => by unfold PQItem.le; infer_instance

instance {α : Type} (a b : PQItem α) : Decidable (PQItem.le a b) := by
  unfold PQItem.le; infer_instance

instance {α : Type} (a b : PQItem α) : Decidable (PQItem.lt a b) := by
  unfold PQItem.lt; infer_instance

/-- First-match lookup in an association list (model of `dict.get`). -/
def alookup {α : Type} [DecidableEq α] (x : α) : List (α × ℚ) → Option ℚ
  | [] => none
  | (k, v) :: rest => if k = x then some v else alookup x rest

/-- In-place insert-or-replace (model of `dict[key] = value`). -/
def aupsert {α : Type} [DecidableEq α] (x : α) (v : ℚ) : List (α × ℚ) → List (α × ℚ)
  | [] => [(x, v)]
  | (k, w) :: rest => if k = x then (k, v) :: rest else (k, w) :: aupsert x v rest

/-- The `PriorityQueue` object state: the physical heap (as the multiset
of entries `heapq` maintains), the tie counter, and the best-known
priority map `_best`. -/
structure PriorityQueue (α : Type) where
  heap : List (PQItem α)
  tie : ℕ
  best : List (α × ℚ)
deriving DecidableEq

/-- `PriorityQueue()`: the freshly constructed empty queue. -/
def PriorityQueue.emptyQ {α : Type} : PriorityQueue α := ⟨[], 0, []⟩

/-- The guard of `push`: `best is None or priority < best`. -/
def pushOk (o : Option ℚ) (p : ℚ) : Prop :=
  match o with
  | none => True
  | some b => p < b

instance (o : Option ℚ) (p : ℚ) : Decidable (pushOk o p) := by
  unfold pushOk; cases o <;> infer_instance

/-- `PriorityQueue.push`: record the priority and physically enqueue an
entry only when no better priority is known for the item. -/
def PriorityQueue.push {α : Type} [DecidableEq α] (q : PriorityQueue α)
    (item : α) (priority : ℚ) : PriorityQueue α :=
  if pushOk (alookup item q.best) priority then
    { heap := q.heap ++ [⟨priority, q.tie, item⟩]
      tie := q.tie + 1
      best := aupsert item priority q.best }
  else q

/-- Remove the minimum entry (w.r.t. `(priority, tie)`) from a heap:
the observable behaviour of `heapq.heappop`. -/
def extractMin {α : Type} : List (PQItem α) → Option (PQItem α × List (PQItem α))
  | [] => none
  | e :: rest =>
    match extractMin rest with
    | none => some (e, [])
    | some (m, rest') => if PQItem.le e m then some (e, rest) else some (m, e :: rest')

/-- An entry is *live* when its priority matches the item's current
best-known priority (the filter applied by `pop`). -/
def entryLive {α : Type} [DecidableEq α] (best : List (α × ℚ)) (e : PQItem α) : Prop :=
  alookup e.item best = some e.priority

instance {α : Type} [DecidableEq α] (best : List (α × ℚ)) (e : PQItem α) :
    Decidable (entryLive best e) := by
  unfold entryLive; infer_instance

/-- The `while self._heap` loop of `pop`: repeatedly remove the minimum
physical entry, discard it if stale, return it if live.  `fuel` bounds
the number of removals; callers pass the physical heap size. -/
def popAux {α : Type} [DecidableEq α] (best : List (α × ℚ)) :
    ℕ → List (PQItem α) → Option (α × ℚ × List (PQItem α))
  | 0, _ => none
  | fuel + 1, heap =>
    match extractMin heap with
    | none => none
    | some (top, rest) =>
      if entryLive best top then some (top.item, top.priority, rest)
      else popAux best fuel rest

/-- `PriorityQueue.pop`: returns `(some (item, priority), q')` on
success and `(none, q')` when the `IndexError` is raised; in the
failure case the `while` loop has drained the heap, so `q'.heap = []`. -/
def PriorityQueue.pop {α : Type} [DecidableEq α] (q : PriorityQueue α) :
    Option (α × ℚ) × PriorityQueue α :=
  match popAux q.best q.heap.length q.heap with
  | some (x, p, rest) => (some (x, p), ⟨rest, q.tie, q.best⟩)
  | none => (none, ⟨[], q.tie, q.best⟩)

/-- `len(pq)`: the Python `__len__` returns `len(self._best)`. -/
def PriorityQueue.len {α : Type} (q : PriorityQueue α) : ℕ := q.best.length

/-- `peek_priority`: `self._best.get(item)`. -/
def PriorityQueue.peekPriority {α : Type} [DecidableEq α]
    (q : PriorityQueue α) (item : α) : Option ℚ :=
  alookup item q.best

/-- An abstract client operation on the queue. -/
inductive PQOp (α : Type) where
  | push (item : α) (priority : ℚ)
  | pop

/-- Apply one client operation to the queue object. -/
def stepOp {α : Type} [DecidableEq α] (q : PriorityQueue α) : PQOp α → PriorityQueue α
  | .push x p => q.push x p
  | .pop => (q.pop).2

/-- Run a sequence of operations from the empty queue (a failing `pop`
leaves the object in the drained state the raise site leaves behind). -/
def runOps {α : Type} [DecidableEq α] (ops : List (PQOp α)) : PriorityQueue α :=
  ops.foldl stepOp PriorityQueue.emptyQ

/-- The number of items that currently have a live physical entry (the
notion of "logical size" used by the `len()` claim). -/
def liveItemCount {α : Type} [DecidableEq α] (q : PriorityQueue α) : ℕ :=
  (q.best.filter fun kv =>
    decide (∃ e ∈ q.heap, e.item = kv.1 ∧ entryLive q.best e)).length

/-! ## Maze model (`src/maze/generator.py`) -/

/-- Wall bit flag: north. -/
def N : ℕ := 1
/-- Wall bit flag: east. -/
def E : ℕ := 2
/-- Wall bit flag: south. -/
def S : ℕ := 4
/-- Wall bit flag: west. -/
def W : ℕ := 8

/-- The `Maze` dataclass.  The Python 2-D list `walls[r][c]` of 4-bit
masks is modelled as a function on coordinates (cells outside the grid
carry the untouched initial mask `15`). -/
structure Maze where
  rows : ℤ
  cols : ℤ
  walls : Coord → ℕ
  start : Coord
  goal : Coord

/-- `has_wall(maze, r, c, direction_bit)`: pure bit test. -/
def has_wall (m : Maze) (r c : ℤ) (direction_bit : ℕ) : Prop :=
  (m.walls (r, c)) &&& direction_bit ≠ 0

instance (m : Maze) (r c : ℤ) (b : ℕ) : Decidable (has_wall m r c b) := by
  unfold has_wall; infer_instance

/-- `DIRS`: `(dr, dc, wall-bit of current, wall-bit of next)`. -/
def DIRS : List (ℤ × ℤ × ℕ × ℕ) :=
  [(-1, 0, N, S), (0, 1, E, W), (1, 0, S, N), (0, -1, W, E)]

/-- The set of grid cells `{(r, c) | 0 ≤ r < rows, 0 ≤ c < cols}`. -/
def cellsF (rows cols : ℤ) : Finset Coord :=
  Finset.Icc 0 (rows - 1) ×ˢ Finset.Icc 0 (cols - 1)

/-- `mask &= ~w`: clearing the single wall bit `w` from a 4-bit mask. -/
def clearBit (mask w : ℕ) : ℕ := mask &&& (15 ^^^ w)

/-- The mutable state of the carving loop in `generate_maze`:
the wall grid, the visited-marker grid (as the set of marked cells),
the explicit stack, and a counter of RNG consultations so far. -/
structure GenState where
  walls : Coord → ℕ
  visited : Finset Coord
  stack : List Coord
  step : ℕ

/-- The `neigh` list: unvisited in-bounds neighbors of `(r, c)`,
collected in `DIRS` order as `(nr, nc, w_curr, w_next)`. -/
def unvisitedNeighbors (rows cols : ℤ) (st : GenState) (r c : ℤ) :
    List (ℤ × ℤ × ℕ × ℕ) :=
  DIRS.filterMap fun d =>
    let nr := r + d.1
    let nc := c + d.2.1
    if 0 ≤ nr ∧ nr < rows ∧ 0 ≤ nc ∧ nc < cols ∧ (nr, nc) ∉ st.visited then
      some (nr, nc, d.2.2.1, d.2.2.2)
    else none

/-- One iteration of the `while stack:` body of `generate_maze`:
inspect the stack top; backtrack if it has no unvisited neighbor,
otherwise pick one with the RNG oracle, carve the wall between the two
cells (both masks), mark it visited and push it. -/
def carveStep (rows cols : ℤ) (choose : ℕ → ℕ) (st : GenState) : GenState :=
  match st.stack with
  | [] => st
  | (r, c) :: rest =>
    let neigh := unvisitedNeighbors rows cols st r c
    if neigh.length = 0 then { st with stack := rest }
    else
      let d := neigh.getD (choose st.step % neigh.length) (0, 0, 0, 0)
      let nr := d.1
      let nc := d.2.1
      let w1 := Function.update st.walls (r, c) (clearBit (st.walls (r, c)) d.2.2.1)
      let w2 := Function.update w1 (nr, nc) (clearBit (w1 (nr, nc)) d.2.2.2)
      { walls := w2
        visited := insert (nr, nc) st.visited
        stack := (nr, nc) :: st.stack
        step := st.step + 1 }

/-- The `while stack:` loop, fuel-indexed (`none` = fuel exhausted;
the entry point passes provably sufficient fuel). -/
def carveLoop (rows cols : ℤ) (choose : ℕ → ℕ) : ℕ → GenState → Option GenState
  | 0, _ => none
  | fuel + 1, st =>
    match st.stack with
    | [] => some st
    | _ :: _ => carveLoop rows cols choose fuel (carveStep rows cols choose st)

/-- Termination measure of the carving loop: it strictly decreases at
every iteration (a carve marks a fresh cell, a backtrack shrinks the
stack). -/
def genMeasure (rows cols : ℤ) (st : GenState) : ℕ :=
  2 * (cellsF rows cols \ st.visited).card + st.stack.length

/-- `generate_maze(rows, cols, seed, start, goal)`; the seeded RNG is
abstracted by the `choose` oracle, and the `ValueError` on dimensions
below 2×2 becomes `none`. -/
def generate_maze (rows cols : ℤ) (choose : ℕ → ℕ) (start : Coord)
    (goal : Option Coord) : Option Maze :=
  if rows < 2 ∨ cols < 2 then none
  else
    match carveLoop rows cols choose (2 * (rows.toNat * cols.toNat) + 2)
        { walls := fun _ => N ||| E ||| S ||| W
          visited := {start}
          stack := [start]
          step := 0 } with
    | some st =>
      some { rows := rows, cols := cols, walls := st.walls, start := start
             goal := goal.getD (rows - 1, cols - 1) }
    | none => none

/-- The open-cell adjacency relation of a wall grid: `q` is a
grid-adjacent cell of `p` with no wall between them (the wall bit on
`p`'s side of the shared edge is absent) and `q` is inside the grid —
exactly the test `env.neighbors` performs. -/
def openAdj (rows cols : ℤ) (w : Coord → ℕ) (p q : Coord) : Prop :=
  ∃ d ∈ DIRS, q = (p.1 + d.1, p.2 + d.2.1) ∧ w p &&& d.2.2.1 = 0 ∧
    0 ≤ q.1 ∧ q.1 < rows ∧ 0 ≤ q.2 ∧ q.2 < cols

/-- The contribution of one cell (with wall mask `m`) to the open-edge
count: its open north edge and its open west edge, when in-grid. -/
def edgeTerm (m : ℕ) (p : Coord) : ℕ :=
  (if m &&& N = 0 ∧ 1 ≤ p.1 then 1 else 0) +
  (if m &&& W = 0 ∧ 1 ≤ p.2 then 1 else 0)

/-- The number of open edges of the wall grid: one per unordered pair
of grid-adjacent cells with the shared wall absent, counted at the
south/east member of the pair via its north/west bits. -/
def openEdgeCount (rows cols : ℤ) (w : Coord → ℕ) : ℕ :=
  Finset.sum (cellsF rows cols) fun p => edgeTerm (w p) p

/-- Wall symmetry: for every pair of grid-adjacent cells the wall bit
for the shared side in one cell's mask agrees with the opposite-side
bit in the neighbor's mask. -/
def wallSymm (rows cols : ℤ) (w : Coord → ℕ) : Prop :=
  ∀ p ∈ cellsF rows cols, ∀ d ∈ DIRS,
    (p.1 + d.1, p.2 + d.2.1) ∈ cellsF rows cols →
    (w p &&& d.2.2.1 ≠ 0 ↔ w (p.1 + d.1, p.2 + d.2.1) &&& d.2.2.2 ≠ 0)

/-- The loop invariant of the carving procedure. -/
structure GenInv (rows cols : ℤ) (start : Coord) (st : GenState) : Prop where
  hstart : start ∈ st.visited
  hsub : st.visited ⊆ cellsF rows cols
  hstack : ∀ p ∈ st.stack, p ∈ st.visited
  hnodup : st.stack.Nodup
  hfull : ∀ p ∈ cellsF rows cols, p ∉ st.visited → st.walls p = 15
  hsymm : wallSymm rows cols st.walls
  hclosed : ∀ p ∈ st.visited, p ∉ st.stack → ∀ d ∈ DIRS,
    (p.1 + d.1, p.2 + d.2.1) ∈ cellsF rows cols →
    (p.1 + d.1, p.2 + d.2.1) ∈ st.visited
  hconn : ∀ p ∈ st.visited, Relation.ReflTransGen (openAdj rows cols st.walls) start p
  hcount : openEdgeCount rows cols st.walls + 1 = st.visited.card

/-! ## Environment (`src/maze/env.py`) -/

/-- The four symbolic actions, `("U", "R", "D", "L")`. -/
inductive Action where
  | U
  | R
  | D
  | L
deriving DecidableEq

/-- The fixed action order `ACTIONS`. -/
def ACTIONS : List Action := [.U, .R, .D, .L]

/-- The `MazeEnv` dataclass with its default reward parameters. -/
structure MazeEnv where
  maze : Maze
  step_reward : ℚ := -1/100
  goal_reward : ℚ := 1
  wall_reward : ℚ := -1/20
  gamma : ℚ := 99/100
  slip_prob : ℚ := 0

/-- `in_bounds`. -/
def MazeEnv.in_bounds (env : MazeEnv) (s : Coord) : Prop :=
  0 ≤ s.1 ∧ s.1 < env.maze.rows ∧ 0 ≤ s.2 ∧ s.2 < env.maze.cols

/-- `is_goal`. -/
def MazeEnv.is_goal (env : MazeEnv) (s : Coord) : Prop := s = env.maze.goal

instance (env : MazeEnv) (s : Coord) : Decidable (env.is_goal s) := by
  unfold MazeEnv.is_goal
  infer_instance

/-- `neighbors`: open in-bounds neighbor states, in canonical
north, east, south, west order. -/
def MazeEnv.neighbors (env : MazeEnv) (s : Coord) : List Coord :=
  (if ¬ has_wall env.maze s.1 s.2 N ∧ 0 ≤ s.1 - 1 then [(s.1 - 1, s.2)] else []) ++
  (if ¬ has_wall env.maze s.1 s.2 E ∧ s.2 + 1 < env.maze.cols then [(s.1, s.2 + 1)] else []) ++
  (if ¬ has_wall env.maze s.1 s.2 S ∧ s.1 + 1 < env.maze.rows then [(s.1 + 1, s.2)] else []) ++
  (if ¬ has_wall env.maze s.1 s.2 W ∧ 0 ≤ s.2 - 1 then [(s.1, s.2 - 1)] else [])

/-- `cost`: uniform unit edge cost. -/
def MazeEnv.cost (_ : MazeEnv) (_ _ : Coord) : ℚ := 1

/-- `states()`: every grid coordinate in row-major order. -/
def MazeEnv.states (env : MazeEnv) : List Coord :=
  (List.range env.maze.rows.toNat).flatMap fun r =>
    (List.range env.maze.cols.toNat).map fun c => ((r : ℤ), (c : ℤ))

/-- `_move`: deterministic move, bouncing in place on a wall or the
grid border. -/
def MazeEnv.move (env : MazeEnv) (s : Coord) : Action → Coord
  | .U => if has_wall env.maze s.1 s.2 N ∨ s.1 - 1 < 0 then s else (s.1 - 1, s.2)
  | .R => if has_wall env.maze s.1 s.2 E ∨ env.maze.cols ≤ s.2 + 1 then s else (s.1, s.2 + 1)
  | .D => if has_wall env.maze s.1 s.2 S ∨ env.maze.rows ≤ s.1 + 1 then s else (s.1 + 1, s.2)
  | .L => if has_wall env.maze s.1 s.2 W ∨ s.2 - 1 < 0 then s else (s.1, s.2 - 1)

/-- `reward`. -/
def MazeEnv.reward (env : MazeEnv) (s : Coord) (a : Action) (s2 : Coord) : ℚ :=
  if env.is_goal s then 0
  else if env.is_goal s2 then env.goal_reward
  else if s2 = s ∧ a ∈ ACTIONS then env.wall_reward
  else env.step_reward

/-- `probs[ns] = probs.get(ns, 0.0) + p` on an insertion-ordered dict. -/
def probAdd (key : Coord) (p : ℚ) : List (Coord × ℚ) → List (Coord × ℚ)
  | [] => [(key, p)]
  | (k, v) :: rest => if k = key then (k, v + p) :: rest else (k, v) :: probAdd key p rest

/-- The fixed orthogonal side-action mapping of `transitions`. -/
def sideActions : Action → Action × Action
  | .U => (.L, .R)
  | .R => (.U, .D)
  | .D => (.L, .R)
  | .L => (.U, .D)

/-- `transitions(s, a)`. -/
def MazeEnv.transitions (env : MazeEnv) (s : Coord) (a : Action) : List (Coord × ℚ) :=
  if env.is_goal s then [(s, 1)]
  else if env.slip_prob ≤ 0 then [(env.move s a, 1)]
  else
    probAdd (env.move s (sideActions a).2) (env.slip_prob / 2)
      (probAdd (env.move s (sideActions a).1) (env.slip_prob / 2)
        (probAdd (env.move s a) (1 - env.slip_prob) []))

/-- `expected_return`: the one-step Bellman backup. -/
def MazeEnv.expected_return (env : MazeEnv) (V : Coord → ℚ) (s : Coord)
    (a : Action) : ℚ :=
  (env.transitions s a).foldl
    (fun total sp => total + sp.2 * (env.reward s a sp.1 + env.gamma * V sp.1)) 0

/-- Dict lookup with the `0.0` default, for stating facts about the
probability dict. -/
def plookup (c : Coord) : List (Coord × ℚ) → ℚ
  | [] => 0
  | (k, v) :: rest => if k = c then v else plookup c rest

/-- The sum of the probabilities of a transition list. -/
def sumProbs (l : List (Coord × ℚ)) : ℚ := (l.map Prod.snd).sum

/-! ## Metrics (`src/analytics/metrics.py`) and solver results -/

/-- `RunMetrics`.  Wall-clock and memory fields (`execution_time_ms`,
`peak_memory_kb`) and the `finalize`-derived ratios are outside the
claims under study and are omitted; `_frontier_total` and
`_frontier_samples` are kept (without the underscore). -/
structure RunMetrics where
  algorithm : String := ""
  maze_rows : ℤ := 0
  maze_cols : ℤ := 0
  random_seed : ℤ := 0
  solved : Bool := false
  solution_path_length : ℕ := 0
  solution_cost : ℚ := 0
  states_expanded : ℕ := 0
  states_generated : ℕ := 0
  unique_states_visited : ℕ := 0
  maximum_frontier_size : ℕ := 0
  heuristic_type : Option String := none
  heuristic_evaluations : ℕ := 0
  repeated_state_updates : ℕ := 0
  frontier_total : ℕ := 0
  frontier_samples : ℕ := 0
  discount_factor : Option ℚ := none
  convergence_threshold : Option ℚ := none
  step_reward : Option ℚ := none
  goal_reward : Option ℚ := none
  wall_penalty : Option ℚ := none
  total_bellman_updates : Option ℕ := none
  final_convergence_error : Option ℚ := none
  value_iteration_steps : Option ℕ := none
  policy_iteration_steps : Option ℕ := none
  policy_evaluation_steps : Option ℕ := none
deriving DecidableEq

/-- `record_frontier`. -/
def RunMetrics.record_frontier (m : RunMetrics) (size : ℕ) : RunMetrics :=
  { m with
    maximum_frontier_size := max m.maximum_frontier_size size
    frontier_total := m.frontier_total + size
    frontier_samples := m.frontier_samples + 1 }

/-- `SolveResult` (the predecessor map is total on keys, `none`
meaning "key absent"; a present key stores `Optional[Coord]`). -/
structure SolveResult where
  path : List Coord
  visited_order : List Coord
  parents : Coord → Option (Option Coord)

/-- The `while cur is not None` loop of `reconstruct_path`, building
the output already reversed.  `dict.get` of an absent key and a stored
`None` both yield `none`, i.e. `Option.join`. -/
def reconstructPathAux (parents : Coord → Option (Option Coord)) :
    ℕ → Option Coord → List Coord → Option (List Coord)
  | 0, _, _ => none
  | _ + 1, none, out => some out
  | fuel + 1, some cur, out =>
    reconstructPathAux parents fuel (parents cur).join (cur :: out)

/-- `reconstruct_path`. -/
def reconstruct_path (parents : Coord → Option (Option Coord)) (start goal : Coord)
    (fuel : ℕ) : Option (List Coord) :=
  if (parents goal).isNone then some []
  else
    match reconstructPathAux parents fuel (some goal) [] with
    | none => none
    | some out =>
      some (match out with
        | [] => []
        | hfirst :: _ => if hfirst = start then out else [])

/-! ## BFS (`src/solvers/bfs.py`) -/

/-- The mutable state of `solve_bfs`: FIFO queue (head = front),
visited set, predecessor dict, expansion trace. -/
structure BfsState where
  q : List Coord
  visited : Finset Coord
  parents : Coord → Option (Option Coord)
  visited_order : List Coord

/-- The `for nb in env.neighbors(s)` loop body of BFS. -/
def bfsExpand (s : Coord) : List Coord → BfsState → RunMetrics →
    BfsState × RunMetrics
  | [], st, m => (st, m)
  | nb :: rest, st, m =>
    let m := { m with states_generated := m.states_generated + 1 }
    if nb ∈ st.visited then bfsExpand s rest st m
    else
      bfsExpand s rest
        { st with
          visited := insert nb st.visited
          parents := Function.update st.parents nb (some (some s))
          q := st.q ++ [nb] } m

/-- The `while q:` loop of `solve_bfs`, fuel-indexed. -/
def bfsLoop (env : MazeEnv) : ℕ → BfsState → RunMetrics →
    Option (SolveResult × RunMetrics × BfsState)
  | 0, _, _ => none
  | fuel + 1, st, m =>
    match st.q with
    | [] =>
      some (⟨[], st.visited_order, st.parents⟩,
        { m with unique_states_visited := st.visited.card, solved := false }, st)
    | s :: rest =>
      let st1 : BfsState := { st with q := rest, visited_order := st.visited_order ++ [s] }
      let m1 := { m with states_expanded := m.states_expanded + 1 }
      if s = env.maze.goal then
        match reconstruct_path st1.parents env.maze.start env.maze.goal
            (st1.visited.card + 1) with
        | none => none
        | some path =>
          some (⟨path, st1.visited_order, st1.parents⟩,
            { m1 with
              unique_states_visited := st1.visited.card
              solution_path_length := path.length - 1
              solution_cost := ((path.length - 1 : ℕ) : ℚ)
              solved := true }, st1)
      else
        let p := bfsExpand s (env.neighbors s) st1 m1
        bfsLoop env fuel p.1 (p.2.record_frontier p.1.q.length)

/-- `solve_bfs`.  The fuel provably suffices for in-grid starts. -/
def solve_bfs (env : MazeEnv) (metrics : RunMetrics) :
    Option (SolveResult × RunMetrics × BfsState) :=
  let start := env.maze.start
  let st0 : BfsState :=
    { q := [start]
      visited := {start}
      parents := Function.update (fun _ => none) start (some none)
      visited_order := [] }
  bfsLoop env ((cellsF env.maze.rows env.maze.cols).card + 2) st0
    (metrics.record_frontier st0.q.length)

/-! ## DFS (`src/solvers/dfs.py`) -/

/-- DFS state: LIFO stack (head = top). -/
structure DfsState where
  stack : List Coord
  visited : Finset Coord
  parents : Coord → Option (Option Coord)
  visited_order : List Coord

/-- The `for nb in reversed(nbs)` loop body of DFS (the caller passes
the reversed list; `stack.append` pushes on top = head). -/
def dfsExpand (s : Coord) : List Coord → DfsState → RunMetrics →
    DfsState × RunMetrics
  | [], st, m => (st, m)
  | nb :: rest, st, m =>
    let m := { m with states_generated := m.states_generated + 1 }
    if nb ∈ st.visited then dfsExpand s rest st m
    else
      dfsExpand s rest
        { st with
          visited := insert nb st.visited
          parents := Function.update st.parents nb (some (some s))
          stack := nb :: st.stack } m

/-- The `while stack:` loop of `solve_dfs`, fuel-indexed. -/
def dfsLoop (env : MazeEnv) : ℕ → DfsState → RunMetrics →
    Option (SolveResult × RunMetrics × DfsState)
  | 0, _, _ => none
  | fuel + 1, st, m =>
    match st.stack with
    | [] =>
      some (⟨[], st.visited_order, st.parents⟩,
        { m with unique_states_visited := st.visited.card, solved := false }, st)
    | s :: rest =>
      let st1 : DfsState := { st with stack := rest, visited_order := st.visited_order ++ [s] }
      let m1 := { m with states_expanded := m.states_expanded + 1 }
      if s = env.maze.goal then
        match reconstruct_path st1.parents env.maze.start env.maze.goal
            (st1.visited.card + 1) with
        | none => none
        | some path =>
          some (⟨path, st1.visited_order, st1.parents⟩,
            { m1 with
              unique_states_visited := st1.visited.card
              solution_path_length := path.length - 1
              solution_cost := ((path.length - 1 : ℕ) : ℚ)
              solved := true }, st1)
      else
        let p := dfsExpand s (env.neighbors s).reverse st1 m1
        dfsLoop env fuel p.1 (p.2.record_frontier p.1.stack.length)

/-- `solve_dfs`. -/
def solve_dfs (env : MazeEnv) (metrics : RunMetrics) :
    Option (SolveResult × RunMetrics × DfsState) :=
  let start := env.maze.start
  let st0 : DfsState :=
    { stack := [start]
      visited := {start}
      parents := Function.update (fun _ => none) start (some none)
      visited_order := [] }
  dfsLoop env ((cellsF env.maze.rows env.maze.cols).card + 2) st0
    (metrics.record_frontier st0.stack.length)

/-! ## A* (`src/solvers/astar.py`) -/

/-- The Manhattan heuristic of `_h` (the `metrics.heuristic_evaluations`
counter bump happens at each call site). -/
def hManhattan (a b : Coord) : ℚ :=
  (((a.1 - b.1).natAbs + (a.2 - b.2).natAbs : ℕ) : ℚ)

/-- A* state: the open priority queue, the `g` dict (insertion-ordered,
one entry per discovered state), predecessors, closed set, trace. -/
structure AstarState where
  openpq : PriorityQueue Coord
  g : List (Coord × ℚ)
  parents : Coord → Option (Option Coord)
  closed : Finset Coord
  visited_order : List Coord

/-- The neighbor loop of one A* expansion. -/
def astarExpand (env : MazeEnv) (heur : Coord → Coord → ℚ) (s : Coord) :
    List Coord → AstarState → RunMetrics → AstarState × RunMetrics
  | [], st, m => (st, m)
  | nb :: rest, st, m =>
    let m := { m with states_generated := m.states_generated + 1 }
    let tentative := (alookup s st.g).getD 0 + env.cost s nb
    let m := if (alookup nb st.g).isSome ∧ tentative < (alookup nb st.g).getD 0 then
        { m with repeated_state_updates := m.repeated_state_updates + 1 }
      else m
    if (alookup nb st.g).isNone ∨ tentative < (alookup nb st.g).getD 0 then
      let m := { m with heuristic_evaluations := m.heuristic_evaluations + 1 }
      astarExpand env heur s rest
        { st with
          g := aupsert nb tentative st.g
          parents := Function.update st.parents nb (some (some s))
          openpq := st.openpq.push nb (tentative + heur nb env.maze.goal) } m
    else astarExpand env heur s rest st m

/-- The `while True:` loop of `solve_astar`, fuel-indexed; the
`except IndexError: break` of the source is the `none` branch of
`pop`, consumed here and turned into the unsolved return. -/
def astarLoop (env : MazeEnv) (heur : Coord → Coord → ℚ) :
    ℕ → AstarState → RunMetrics → Option (SolveResult × RunMetrics × AstarState)
  | 0, _, _ => none
  | fuel + 1, st, m =>
    match st.openpq.pop with
    | (none, pq') =>
      some (⟨[], st.visited_order, st.parents⟩,
        { m with unique_states_visited := st.g.length, solved := false },
        { st with openpq := pq' })
    | (some (s, _), pq') =>
      let st := { st with openpq := pq' }
      if s ∈ st.closed then astarLoop env heur fuel st m
      else
        let st1 : AstarState :=
          { st with closed := insert s st.closed
                    visited_order := st.visited_order ++ [s] }
        let m1 := { m with states_expanded := m.states_expanded + 1 }
        if s = env.maze.goal then
          match reconstruct_path st1.parents env.maze.start env.maze.goal
              (st1.g.length + 1) with
          | none => none
          | some path =>
            some (⟨path, st1.visited_order, st1.parents⟩,
              { m1 with
                unique_states_visited := st1.g.length
                solution_path_length := path.length - 1
                solution_cost := ((path.length - 1 : ℕ) : ℚ)
                solved := true }, st1)
        else
          let p := astarExpand env heur s (env.neighbors s) st1 m1
          astarLoop env heur fuel p.1 (p.2.record_frontier p.1.openpq.len)

/-- `solve_astar`, parameterized by the heuristic function (`_h` with
`"manhattan"` is `hManhattan`; the float `"euclidean"` variant is some
other function of the same type, so the theorems below quantifying
over `heur` cover both). -/
def solve_astar (env : MazeEnv) (metrics : RunMetrics)
    (heurName : String) (heur : Coord → Coord → ℚ) :
    Option (SolveResult × RunMetrics × AstarState) :=
  let start := env.maze.start
  let m0 := { metrics with
    heuristic_type := some heurName
    heuristic_evaluations := metrics.heuristic_evaluations + 1 }
  let st0 : AstarState :=
    { openpq := PriorityQueue.emptyQ.push start (heur start env.maze.goal)
      g := [(start, 0)]
      parents := Function.update (fun _ => none) start (some none)
      closed := ∅
      visited_order := [] }
  astarLoop env heur (5 * ((cellsF env.maze.rows env.maze.cols).card + 2)) st0
    (m0.record_frontier st0.openpq.len)

/-! ## MDP solvers (`src/solvers/value_iteration.py`,
`src/solvers/policy_iteration.py`)

Floats are embedded as exact rationals and `float("-inf")` as `⊥` in
`WithBot ℚ`.  The Python value dictionary `V` and policy dictionary
(both keyed by exactly `env.states()`, defaulting to `"U"` where
`dict.get` is used) are embedded as total functions; the solvers only
ever read them at grid states, where the two views agree. -/

/-- The `for a in env.ACTIONS: best = max(best, ...)` fold of the
value-iteration sweep, starting from `float("-inf")`. -/
def bestActionValue (env : MazeEnv) (V : Coord → ℚ) (s : Coord) : WithBot ℚ :=
  ACTIONS.foldl (fun b a => max b ((env.expected_return V s a : ℚ) : WithBot ℚ)) ⊥

/-- `V[s] = best` (over the four actions `best` is never `-inf`;
the default `0` of `unbot'` is unreachable). -/
def viBest (env : MazeEnv) (V : Coord → ℚ) (s : Coord) : ℚ :=
  (bestActionValue env V s).unbot' 0

/-- The argmax loop of `_derive_policy`: `best_a` starts at `None`
(returned as `"U"` if never improved), `best_q` at `-inf`, and is
replaced on strict improvement in `ACTIONS` order. -/
def argmaxAction (env : MazeEnv) (V : Coord → ℚ) (s : Coord) : Action :=
  (ACTIONS.foldl
    (fun (p : Option Action × WithBot ℚ) a =>
      if p.2 < ((env.expected_return V s a : ℚ) : WithBot ℚ) then
        (some a, ((env.expected_return V s a : ℚ) : WithBot ℚ))
      else p)
    (none, ⊥)).1.getD Action.U

/-- The argmax loop of `_policy_improvement`: `best_a` starts at the
old action, `best_q` at `-inf`. -/
def improveAction (env : MazeEnv) (V : Coord → ℚ) (old : Action) (s : Coord) :
    Action :=
  (ACTIONS.foldl
    (fun (p : Action × WithBot ℚ) a =>
      if p.2 < ((env.expected_return V s a : ℚ) : WithBot ℚ) then
        (a, ((env.expected_return V s a : ℚ) : WithBot ℚ))
      else p)
    (old, ⊥)).1

/-- One `for s in env.states()` sweep of `solve_value_iteration`:
skip terminals, back up `V[s]`, track `delta` and the visited trace. -/
def viSweep (env : MazeEnv) :
    List Coord → (Coord → ℚ) → ℚ → List Coord → (Coord → ℚ) × ℚ × List Coord
  | [], V, delta, vis => (V, delta, vis)
  | s :: rest, V, delta, vis =>
    if env.is_goal s then viSweep env rest V delta vis
    else
      viSweep env rest (Function.update V s (viBest env V s))
        (max delta |V s - viBest env V s|) (vis ++ [s])

/-- The `for it in range(1, max_iters + 1)` loop of
`solve_value_iteration`; returns `(V, delta, it, visited_order)` with
`it` the number of executed sweeps and `delta` the last sweep's delta
(`0` if no sweep ran). -/
def viLoop (env : MazeEnv) (theta : ℚ) :
    ℕ → ℕ → (Coord → ℚ) → ℚ → List Coord → (Coord → ℚ) × ℚ × ℕ × List Coord
  | 0, it, V, delta, vis => (V, delta, it, vis)
  | n + 1, it, V, _, vis =>
    let r := viSweep env env.states V 0 vis
    if r.2.1 < theta then (r.1, r.2.1, it + 1, r.2.2)
    else viLoop env theta n (it + 1) r.1 r.2.1 r.2.2

/-- `_derive_policy` (as a total function; terminals get `"U"`). -/
def derive_policy (env : MazeEnv) (V : Coord → ℚ) : Coord → Action :=
  fun s => if env.is_goal s then Action.U else argmaxAction env V s

/-- The `for _ in range(max_steps)` body of `_follow_policy`, emitting
the states appended after the initial one. -/
def followAux (env : MazeEnv) (policy : Coord → Action) :
    ℕ → Coord → List Coord
  | 0, _ => []
  | n + 1, s =>
    if env.is_goal s then []
    else
      let s2 := ((env.transitions s (policy s)).headD (s, 0)).1
      if s2 = s then [s2]
      else s2 :: followAux env policy n s2

/-- `_follow_policy`. -/
def follow_policy (env : MazeEnv) (policy : Coord → Action) (max_steps : ℕ) :
    List Coord :=
  env.maze.start :: followAux env policy max_steps env.maze.start

/-- `solve_value_iteration`; returns the result together with the
final metrics object. -/
def solve_value_iteration (env : MazeEnv) (metrics : RunMetrics)
    (theta : ℚ) (max_iters : ℕ) : SolveResult × RunMetrics :=
  let m0 := { metrics with
    discount_factor := some env.gamma
    convergence_threshold := some theta
    step_reward := some env.step_reward
    goal_reward := some env.goal_reward
    wall_penalty := some env.wall_reward }
  let r := viLoop env theta max_iters 0 (fun _ => 0) 0 []
  let policy := derive_policy env r.1
  let path := follow_policy env policy (env.maze.rows * env.maze.cols * 4).toNat
  let solved : Bool := decide (0 < path.length ∧ path.getLast? = some env.maze.goal)
  (⟨if solved then path else [], r.2.2.2, fun _ => none⟩,
    { m0 with
      value_iteration_steps := some r.2.2.1
      final_convergence_error := some r.2.1
      solved := solved
      solution_path_length := if solved then path.length - 1 else 0
      solution_cost := if solved then ((path.length - 1 : ℕ) : ℚ) else 0 })

/-- One `for s in env.states()` sweep of `_policy_evaluation`. -/
def peSweep (env : MazeEnv) (policy : Coord → Action) :
    List Coord → (Coord → ℚ) → ℚ → (Coord → ℚ) × ℚ
  | [], V, delta => (V, delta)
  | s :: rest, V, delta =>
    if env.is_goal s then peSweep env policy rest V delta
    else
      peSweep env policy rest
        (Function.update V s (env.expected_return V s (policy s)))
        (max delta |V s - env.expected_return V s (policy s)|)

/-- The bounded iteration of `_policy_evaluation`; returns
`(V, delta, it)`. -/
def peLoop (env : MazeEnv) (policy : Coord → Action) (theta : ℚ) :
    ℕ → ℕ → (Coord → ℚ) → ℚ → (Coord → ℚ) × ℚ × ℕ
  | 0, it, V, delta => (V, delta, it)
  | n + 1, it, V, _ =>
    let r := peSweep env policy env.states V 0
    if r.2 < theta then (r.1, r.2, it + 1)
    else peLoop env policy theta n (it + 1) r.1 r.2

/-- `_policy_evaluation`. -/
def policy_evaluation (env : MazeEnv) (policy : Coord → Action) (theta : ℚ)
    (max_eval_iters : ℕ) : (Coord → ℚ) × ℚ × ℕ :=
  peLoop env policy theta max_eval_iters 0 (fun _ => 0) 0

/-- The state loop of `_policy_improvement`, threading the policy and
the `stable` flag. -/
def piImprove (env : MazeEnv) (V : Coord → ℚ) :
    List Coord → (Coord → Action) → Bool → (Coord → Action) × Bool
  | [], policy, stable => (policy, stable)
  | s :: rest, policy, stable =>
    if env.is_goal s then piImprove env V rest policy stable
    else
      piImprove env V rest
        (Function.update policy s (improveAction env V (policy s) s))
        (stable && decide (improveAction env V (policy s) s = policy s))

/-- `_policy_improvement`. -/
def policy_improvement (env : MazeEnv) (V : Coord → ℚ)
    (policy : Coord → Action) : (Coord → Action) × Bool :=
  piImprove env V env.states policy true

/-- The `for pi_it in range(1, max_policy_iters + 1)` loop of
`solve_policy_iteration`.  The three convergence metrics are written
only in the `if stable: ... break` branch; a run that exhausts the cap
returns the metrics object unchanged. -/
def piLoop (env : MazeEnv) (theta : ℚ) (max_eval_iters : ℕ) :
    ℕ → ℕ → (Coord → Action) → ℚ → ℕ → List Coord → RunMetrics →
    (Coord → Action) × RunMetrics × List Coord
  | 0, _, policy, _, _, vis, m => (policy, m, vis)
  | n + 1, pi_it, policy, _, total_eval, vis, m =>
    let ev := policy_evaluation env policy theta max_eval_iters
    let im := policy_improvement env ev.1 policy
    if im.2 then
      (im.1,
        { m with
          policy_iteration_steps := some (pi_it + 1)
          final_convergence_error := some ev.2.1
          policy_evaluation_steps := some (total_eval + ev.2.2) },
        vis ++ env.states)
    else
      piLoop env theta max_eval_iters n (pi_it + 1) im.1 ev.2.1
        (total_eval + ev.2.2) (vis ++ env.states) m

/-- `solve_policy_iteration`; returns the result together with the
final metrics object. -/
def solve_policy_iteration (env : MazeEnv) (metrics : RunMetrics)
    (theta : ℚ) (max_policy_iters max_eval_iters : ℕ) :
    SolveResult × RunMetrics :=
  let m0 := { metrics with
    discount_factor := some env.gamma
    convergence_threshold := some theta
    step_reward := some env.step_reward
    goal_reward := some env.goal_reward
    wall_penalty := some env.wall_reward }
  let r := piLoop env theta max_eval_iters max_policy_iters 0
    (fun _ => Action.R) 0 0 [] m0
  let path := follow_policy env r.1 (env.maze.rows * env.maze.cols * 4).toNat
  let solved : Bool := decide (0 < path.length ∧ path.getLast? = some env.maze.goal)
  (⟨if solved then path else [], r.2.2, fun _ => none⟩,
    { r.2.1 with
      solved := solved
      solution_path_length := if solved then path.length - 1 else 0
      solution_cost := if solved then ((path.length - 1 : ℕ) : ℚ) else 0 })

/-- The policy held by `solve_policy_iteration` at the start of round
`j` (each round evaluates the current policy, then improves it). -/
def piIter (env : MazeEnv) (theta : ℚ) (max_eval_iters : ℕ) :
    ℕ → (Coord → Action) → Coord → Action
  | 0, policy => policy
  | n + 1, policy =>
    piIter env theta max_eval_iters n
      (policy_improvement env
        (policy_evaluation env policy theta max_eval_iters).1 policy).1

/-- Round `j` of `solve_policy_iteration` (counting from `0`) reports
a stable policy, i.e. its improvement step changes nothing. -/
def piStableAt (env : MazeEnv) (theta : ℚ) (max_eval_iters : ℕ)
    (policy : Coord → Action) (j : ℕ) : Prop :=
  (policy_improvement env
    (policy_evaluation env (piIter env theta max_eval_iters j policy)
      theta max_eval_iters).1
    (piIter env theta max_eval_iters j policy)).2 = true

instance (env : MazeEnv) (theta : ℚ) (max_eval_iters : ℕ)
    (policy : Coord → Action) (j : ℕ) :
    Decidable (piStableAt env theta max_eval_iters policy j) := by
  unfold piStableAt
  infer_instance

/-! ## Shortest-path distance in the open-cell graph -/

instance openAdj_decidable (rows cols : ℤ) (w : Coord → ℕ) (p q : Coord) :
    Decidable (openAdj rows cols w p q) := by
  unfold openAdj
  infer_instance

/-- `ReachN rows cols w n p q`: there is a walk of exactly `n` open
edges from `p` to `q` whose intermediate sources lie in the grid
(walks from an in-grid start automatically satisfy this). -/
def ReachN (rows cols : ℤ) (w : Coord → ℕ) : ℕ → Coord → Coord → Prop
  | 0, p, q => p = q
  | n + 1, p, q => ∃ c ∈ cellsF rows cols,
      ReachN rows cols w n p c ∧ openAdj rows cols w c q

instance ReachN_decidable (rows cols : ℤ) (w : Coord → ℕ) :
    (n : ℕ) → (p q : Coord) → Decidable (ReachN rows cols w n p q)
  | 0, p, q => by unfold ReachN; infer_instance
  | n + 1, p, q => by
    unfold ReachN
    have i := ReachN_decidable rows cols w n
    infer_instance

/-- `hasDist rows cols w start p d`: `d` is the length of a shortest
open-edge walk from `start` to `p`. -/
def hasDist (rows cols : ℤ) (w : Coord → ℕ) (start p : Coord) (d : ℕ) : Prop :=
  ReachN rows cols w d start p ∧ ∀ k, ReachN rows cols w k start p → d ≤ k

/-! ### Priority-queue lemmas -/

theorem PQItem.le_refl {α : Type} (a : PQItem α) : a.le a := Or.inr ⟨rfl, Nat.le_refl _⟩

theorem PQItem.le_trans {α : Type} {a b c : PQItem α} (h₁ : a.le b) (h₂ : b.le c) :
    a.le c := by
  rcases h₁ with h₁ | ⟨h₁, h₁'⟩ <;> rcases h₂ with h₂ | ⟨h₂, h₂'⟩
  · exact Or.inl (h₁.trans h₂)
  · exact Or.inl (h₂ ▸ h₁)
  · exact Or.inl (h₁ ▸ h₂)
  · exact Or.inr ⟨h₁.trans h₂, h₁'.trans h₂'⟩

theorem PQItem.le_total {α : Type} (a b : PQItem α) : a.le b ∨ b.le a := by
  unfold PQItem.le
  rcases lt_trichotomy a.priority b.priority with h | h | h
  · exact Or.inl (Or.inl h)
  · rcases Nat.le_total a.tie b.tie with h' | h'
    · exact Or.inl (Or.inr ⟨h, h'⟩)
    · exact Or.inr (Or.inr ⟨h.symm, h'⟩)
  · exact Or.inr (Or.inl h)

theorem extractMin_eq_none {α : Type} {l : List (PQItem α)} :
    extractMin l = none ↔ l = [] := by
  cases l with
  | nil => simp [extractMin]
  | cons e rest =>
    rcases hrest : extractMin rest with _ | ⟨m, r⟩
    · simp [extractMin, hrest]
    · simp only [extractMin, hrest]
      split <;> simp

theorem extractMin_perm {α : Type} {l : List (PQItem α)} {m : PQItem α}
    {r : List (PQItem α)} (h : extractMin l = some (m, r)) : l.Perm (m :: r) := by
  induction l generalizing m r with
  | nil => simp [extractMin] at h
  | cons e rest ih =>
    rcases hrest : extractMin rest with _ | ⟨m', r'⟩
    · rcases extractMin_eq_none.mp hrest with rfl
      simp only [extractMin, hrest, Option.some.injEq, Prod.mk.injEq] at h
      obtain ⟨rfl, rfl⟩ := h
      exact List.Perm.refl _
    · simp only [extractMin, hrest] at h
      split at h
      · simp only [Option.some.injEq, Prod.mk.injEq] at h
        obtain ⟨rfl, rfl⟩ := h
        exact List.Perm.refl _
      · simp only [Option.some.injEq, Prod.mk.injEq] at h
        obtain ⟨rfl, rfl⟩ := h
        exact ((ih hrest).cons e).trans (List.Perm.swap m' e r')

theorem extractMin_min {α : Type} {l : List (PQItem α)} {m : PQItem α}
    {r : List (PQItem α)} (h : extractMin l = some (m, r)) :
    ∀ x ∈ l, m.le x := by
  induction l generalizing m r with
  | nil => simp [extractMin] at h
  | cons e rest ih =>
    rcases hrest : extractMin rest with _ | ⟨m', r'⟩
    · rcases extractMin_eq_none.mp hrest with rfl
      simp only [extractMin, hrest, Option.some.injEq, Prod.mk.injEq] at h
      obtain ⟨rfl, rfl⟩ := h
      intro x hx
      rcases List.mem_singleton.mp hx with rfl
      exact PQItem.le_refl x
    · simp only [extractMin, hrest] at h
      split at h
      · rename_i hle
        simp only [Option.some.injEq, Prod.mk.injEq] at h
        obtain ⟨rfl, rfl⟩ := h
        intro x hx
        rcases List.mem_cons.mp hx with rfl | hx
        · exact PQItem.le_refl x
        · exact PQItem.le_trans hle (ih hrest x hx)
      · rename_i hle
        simp only [Option.some.injEq, Prod.mk.injEq] at h
        obtain ⟨rfl, rfl⟩ := h
        intro x hx
        rcases List.mem_cons.mp hx with rfl | hx
        · rcases PQItem.le_total m' x with h' | h'
          · exact h'
          · exact absurd h' hle
        · exact ih hrest x hx

theorem extractMin_length {α : Type} {l : List (PQItem α)} {m : PQItem α}
    {r : List (PQItem α)} (h : extractMin l = some (m, r)) :
    r.length + 1 = l.length := by
  have := (extractMin_perm h).length_eq
  simpa using this.symm

theorem popAux_none_iff {α : Type} [DecidableEq α] {best : List (α × ℚ)}
    {fuel : ℕ} {heap : List (PQItem α)} (hfuel : heap.length ≤ fuel) :
    popAux best fuel heap = none ↔ ∀ e ∈ heap, ¬ entryLive best e := by
  induction fuel generalizing heap with
  | zero =>
    rcases List.length_eq_zero.mp (Nat.le_zero.mp hfuel) with rfl
    simp [popAux]
  | succ fuel ih =>
    rcases hext : extractMin heap with _ | ⟨top, rest⟩
    · rcases extractMin_eq_none.mp hext with rfl
      simp [popAux, extractMin]
    · have hperm := extractMin_perm hext
      have hlen := extractMin_length hext
      simp only [popAux, hext]
      split
      · rename_i hlive
        simp only [reduceCtorEq, false_iff, not_forall]
        exact ⟨top, hperm.mem_iff.mpr (List.mem_cons_self _ _), fun h => h hlive⟩
      · rename_i hstale
        have hfr : rest.length ≤ fuel := by omega
        rw [ih hfr]
        constructor
        · intro h e he
          rcases List.mem_cons.mp (hperm.mem_iff.mp he) with rfl | he'
          · exact hstale
          · exact h e he'
        · intro h e he
          exact h e (hperm.mem_iff.mpr (List.mem_cons_of_mem _ he))

theorem popAux_some_min {α : Type} [DecidableEq α] {best : List (α × ℚ)}
    {fuel : ℕ} {heap : List (PQItem α)} {x : α} {p : ℚ} {rest : List (PQItem α)}
    (hfuel : heap.length ≤ fuel)
    (h : popAux best fuel heap = some (x, p, rest)) :
    ∃ e ∈ heap, entryLive best e ∧ e.item = x ∧ e.priority = p ∧
      ∀ e' ∈ heap, entryLive best e' → e.le e' := by
  induction fuel generalizing heap with
  | zero => simp [popAux] at h
  | succ fuel ih =>
    rcases hext : extractMin heap with _ | ⟨top, r⟩
    · simp only [popAux, hext, reduceCtorEq] at h
    · simp only [popAux, hext] at h
      have hperm := extractMin_perm hext
      have hlen := extractMin_length hext
      split at h
      · rename_i hlive
        simp only [Option.some.injEq, Prod.mk.injEq] at h
        obtain ⟨rfl, rfl, rfl⟩ := h
        exact ⟨top, hperm.mem_iff.mpr (List.mem_cons_self _ _), hlive, rfl, rfl,
          fun e' he' _ => extractMin_min hext e' he'⟩
      · rename_i hstale
        have hfr : r.length ≤ fuel := by omega
        rcases ih hfr h with ⟨e, he, hlv, hx, hp, hmin⟩
        refine ⟨e, hperm.mem_iff.mpr (List.mem_cons_of_mem _ he), hlv, hx, hp, ?_⟩
        intro e' he' hlv'
        rcases List.mem_cons.mp (hperm.mem_iff.mp he') with rfl | he''
        · exact absurd hlv' hstale
        · exact hmin e' he'' hlv'

theorem pop_none_iff {α : Type} [DecidableEq α] (q : PriorityQueue α) :
    (q.pop).1 = none ↔ ∀ e ∈ q.heap, ¬ entryLive q.best e := by
  unfold PriorityQueue.pop
  cases h : popAux q.best q.heap.length q.heap with
  | none =>
    simpa using (popAux_none_iff (Nat.le_refl _)).mp h
  | some r =>
    rcases r with ⟨x, p, rest⟩
    simp only
    rcases popAux_some_min (Nat.le_refl _) h with ⟨e, he, hlv, _⟩
    simp only [reduceCtorEq, false_iff, not_forall]
    exact ⟨e, he, fun hcon => hcon hlv⟩

theorem pop_some_min {α : Type} [DecidableEq α] (q : PriorityQueue α) (x : α) (p : ℚ)
    (h : (q.pop).1 = some (x, p)) :
    ∃ e ∈ q.heap, entryLive q.best e ∧ e.item = x ∧ e.priority = p ∧
      ∀ e' ∈ q.heap, entryLive q.best e' → e.le e' := by
  unfold PriorityQueue.pop at h
  cases hp : popAux q.best q.heap.length q.heap with
  | none => rw [hp] at h; simp at h
  | some r =>
    rcases r with ⟨x', p', rest⟩
    rw [hp] at h
    simp only [Option.some.injEq, Prod.mk.injEq] at h
    rcases h with ⟨rfl, rfl⟩
    exact popAux_some_min (Nat.le_refl _) hp

/-- `pop` never touches the `_best` map, in both the success and the
raising case. -/
theorem pop_best_eq {α : Type} [DecidableEq α] (q : PriorityQueue α) :
    ((q.pop).2).best = q.best := by
  unfold PriorityQueue.pop
  cases hp : popAux q.best q.heap.length q.heap with
  | none => rfl
  | some r => rcases r with ⟨x, p, rest⟩; rfl

theorem mem_keys_aupsert {α : Type} [DecidableEq α] {y x : α} {v : ℚ}
    {l : List (α × ℚ)} :
    y ∈ (aupsert x v l).map Prod.fst ↔ y ∈ l.map Prod.fst ∨ y = x := by
  induction l with
  | nil => simp [aupsert]
  | cons kv rest ih =>
    rcases kv with ⟨k, w⟩
    by_cases hk : k = x
    · subst hk
      simp [aupsert]
      tauto
    · simp [aupsert, hk, ih]
      tauto

theorem keysNodup_aupsert {α : Type} [DecidableEq α] {x : α} {v : ℚ}
    {l : List (α × ℚ)} (h : (l.map Prod.fst).Nodup) :
    ((aupsert x v l).map Prod.fst).Nodup := by
  induction l with
  | nil => simp [aupsert]
  | cons kv rest ih =>
    rcases kv with ⟨k, w⟩
    simp only [List.map_cons, List.nodup_cons] at h
    by_cases hk : k = x
    · subst hk
      simpa [aupsert, List.nodup_cons] using h
    · simp only [aupsert, if_neg hk, List.map_cons, List.nodup_cons]
      refine ⟨fun hc => ?_, ih h.2⟩
      rcases mem_keys_aupsert.mp hc with hc | hc
      · exact h.1 hc
      · exact hk hc

theorem keysNodup_push {α : Type} [DecidableEq α] {q : PriorityQueue α}
    (h : (q.best.map Prod.fst).Nodup) (x : α) (p : ℚ) :
    (((q.push x p).best).map Prod.fst).Nodup := by
  unfold PriorityQueue.push
  split
  · exact keysNodup_aupsert h
  · exact h

theorem keysNodup_runOps {α : Type} [DecidableEq α] (ops : List (PQOp α)) :
    (((runOps ops).best).map Prod.fst).Nodup := by
  suffices h : ∀ (q : PriorityQueue α), ((q.best).map Prod.fst).Nodup →
      (((ops.foldl stepOp q).best).map Prod.fst).Nodup by
    exact h PriorityQueue.emptyQ (by simp [PriorityQueue.emptyQ])
  induction ops with
  | nil => intro q h; simpa using h
  | cons op rest ih =>
    intro q h
    simp only [List.foldl_cons]
    refine ih _ ?_
    cases op with
    | push x p => exact keysNodup_push h x p
    | pop => rw [stepOp, pop_best_eq]; exact h

/-! ### Claim theorems about the priority queue -/

/-- **C3.** For every queue state, `pop()` returns the live physical
entry that is minimal in the `(priority, tie)` order — so the returned
item has the minimal best-known priority among items that still have a
live entry, stale (superseded) entries never surface, and ties among
equal priorities go to the earlier-pushed (smaller tie) entry — and it
raises (returns the `EmptyQueue` signal `none`) exactly when no live
entry remains.  In particular, after `push(x,5), push(x,3), push(y,4)`
successive pops yield `(x,3)` then `(y,4)` and then raise, the stale
`(x,5)` entry never surfacing. -/
theorem pq_pop_min_live_spec :
    (∀ (α : Type) [DecidableEq α] (q : PriorityQueue α),
      ((q.pop).1 = none ↔ ∀ e ∈ q.heap, ¬ entryLive q.best e) ∧
      (∀ x p, (q.pop).1 = some (x, p) →
        ∃ e ∈ q.heap, entryLive q.best e ∧ e.item = x ∧ e.priority = p ∧
          ∀ e' ∈ q.heap, entryLive q.best e' → e.le e')) ∧
    ((((runOps [PQOp.push (0 : ℕ) 5, .push 0 3, .push 1 4]).pop).1 = some (0, 3)) ∧
      ((((runOps [PQOp.push (0 : ℕ) 5, .push 0 3, .push 1 4]).pop).2).pop).1
        = some (1, 4) ∧
      ((((((runOps [PQOp.push (0 : ℕ) 5, .push 0 3, .push 1 4]).pop).2).pop).2).pop).1
        = none) := by
  refine ⟨fun α _ q => ⟨pop_none_iff q, fun x p h => pop_some_min q x p h⟩, ?_, ?_, ?_⟩
  · decide
  · decide
  · decide

/-- Witness for C3: applying the general pop specification to a
concrete queue (the spec's own three-push scenario). -/
theorem pq_pop_min_live_spec_witness :
    ∃ e ∈ (runOps [PQOp.push (0 : ℕ) 5, .push 0 3, .push 1 4]).heap,
      entryLive (runOps [PQOp.push (0 : ℕ) 5, .push 0 3, .push 1 4]).best e ∧
      e.item = 0 ∧ e.priority = 3 ∧
      ∀ e' ∈ (runOps [PQOp.push (0 : ℕ) 5, .push 0 3, .push 1 4]).heap,
        entryLive (runOps [PQOp.push (0 : ℕ) 5, .push 0 3, .push 1 4]).best e' →
          e.le e' :=
  (pq_pop_min_live_spec.1 ℕ (runOps [PQOp.push (0 : ℕ) 5, .push 0 3, .push 1 4])).2
    0 3 (by decide)

/-- **C10.** `pop()` retains the popped item's best-known priority, so
for `q ≥ p` the sequence `push(x,p); pop(); push(x,q)` leaves no live
entry for `x`: the re-push is silently dropped (push requires a
strictly lower priority) and the next pop on the otherwise-empty queue
raises the empty-queue condition. -/
theorem pq_pop_retains_best_and_drops_repush :
    ∀ (α : Type) [DecidableEq α] (x : α) (p r : ℚ), p ≤ r →
      ((((PriorityQueue.emptyQ : PriorityQueue α).push x p).pop).1 = some (x, p)) ∧
      (((((PriorityQueue.emptyQ : PriorityQueue α).push x p).pop).2).peekPriority x
        = some p) ∧
      (((((PriorityQueue.emptyQ : PriorityQueue α).push x p).pop).2).push x r
        = ((((PriorityQueue.emptyQ : PriorityQueue α).push x p).pop).2)) ∧
      ((((((PriorityQueue.emptyQ : PriorityQueue α).push x p).pop).2).push x r).pop).1
        = none := by
  intro α _ x p r hpr
  have hnr : ¬ r < p := not_lt.mpr hpr
  have h0 : (PriorityQueue.emptyQ : PriorityQueue α).push x p
      = ⟨[⟨p, 0, x⟩], 1, [(x, p)]⟩ := by
    simp [PriorityQueue.push, PriorityQueue.emptyQ, pushOk, alookup, aupsert]
  have h1 : (⟨[⟨p, 0, x⟩], 1, [(x, p)]⟩ : PriorityQueue α).pop
      = (some (x, p), ⟨[], 1, [(x, p)]⟩) := by
    simp [PriorityQueue.pop, popAux, extractMin, entryLive, alookup]
  have h2 : (⟨[], 1, [(x, p)]⟩ : PriorityQueue α).push x r = ⟨[], 1, [(x, p)]⟩ := by
    simp [PriorityQueue.push, pushOk, alookup, hnr]
  have h3 : (⟨[], 1, [(x, p)]⟩ : PriorityQueue α).pop = (none, ⟨[], 1, [(x, p)]⟩) := by
    simp [PriorityQueue.pop, popAux]
  rw [h0, h1]
  exact ⟨rfl, by simp [PriorityQueue.peekPriority, alookup], by simpa using h2,
    by simp [h2, h3]⟩

/-- Witness for C10 at `x = 0`, `p = 1`, `q = 2`. -/
theorem pq_pop_retains_best_and_drops_repush_witness :
    ((((PriorityQueue.emptyQ : PriorityQueue ℕ).push 0 1).pop).1 = some (0, 1)) ∧
    (((((PriorityQueue.emptyQ : PriorityQueue ℕ).push 0 1).pop).2).peekPriority 0
      = some 1) ∧
    (((((PriorityQueue.emptyQ : PriorityQueue ℕ).push 0 1).pop).2).push 0 2
      = ((((PriorityQueue.emptyQ : PriorityQueue ℕ).push 0 1).pop).2)) ∧
    ((((((PriorityQueue.emptyQ : PriorityQueue ℕ).push 0 1).pop).2).push 0 2).pop).1
      = none :=
  pq_pop_retains_best_and_drops_repush ℕ 0 1 2 (by norm_num)

/-- Counterexample to **C7** as stated: after `push(x,3); pop()` the
popped item still counts toward `len()` — the queue reports logical
size 1 although no item has a live entry. -/
theorem pq_len_live_count_counterexample :
    (runOps [PQOp.push (0 : ℕ) 3, .pop]).len = 1 ∧
      liveItemCount (runOps [PQOp.push (0 : ℕ) 3, .pop]) = 0 := by
  constructor
  · decide
  · decide

/-- **C7 (amended).** `len()` returns the size of the best-known
priority map: the number of distinct items that ever had a priority
recorded (its keys stay pairwise distinct).  It is not the physical
heap entry count, but it does count popped items: `pop()` leaves the
best map — and hence `len()` — unchanged. -/
theorem pq_len_is_best_map_size :
    ∀ (α : Type) [DecidableEq α] (ops : List (PQOp α)),
      (runOps ops).len = ((runOps ops).best).length ∧
      (((runOps ops).best).map Prod.fst).Nodup ∧
      (((runOps ops).pop).2).best = (runOps ops).best ∧
      (((runOps ops).pop).2).len = (runOps ops).len := by
  intro α _ ops
  refine ⟨rfl, keysNodup_runOps ops, pop_best_eq _, ?_⟩
  unfold PriorityQueue.len
  rw [pop_best_eq]

/-- Witness for the amended C7 on the counterexample's operation
sequence. -/
theorem pq_len_is_best_map_size_witness :
    (runOps [PQOp.push (0 : ℕ) 3, .pop]).len
      = ((runOps [PQOp.push (0 : ℕ) 3, .pop]).best).length ∧
    (((runOps [PQOp.push (0 : ℕ) 3, .pop]).best).map Prod.fst).Nodup ∧
    (((runOps [PQOp.push (0 : ℕ) 3, .pop]).pop).2).best
      = (runOps [PQOp.push (0 : ℕ) 3, .pop]).best ∧
    (((runOps [PQOp.push (0 : ℕ) 3, .pop]).pop).2).len
      = (runOps [PQOp.push (0 : ℕ) 3, .pop]).len :=
  pq_len_is_best_map_size ℕ [PQOp.push (0 : ℕ) 3, .pop]

/-! ### Maze generator lemmas -/

theorem mem_cellsF {rows cols : ℤ} {p : Coord} :
    p ∈ cellsF rows cols ↔ 0 ≤ p.1 ∧ p.1 < rows ∧ 0 ≤ p.2 ∧ p.2 < cols := by
  rcases p with ⟨r, c⟩
  simp only [cellsF, Finset.mem_product, Finset.mem_Icc]
  omega

theorem cellsF_card {rows cols : ℤ} :
    (cellsF rows cols).card = rows.toNat * cols.toNat := by
  simp only [cellsF, Finset.card_product, Int.card_Icc]
  congr 1 <;> omega

/-- Clearing a wall bit empties that bit. -/
theorem clearBit_land_self {m u : ℕ} (h : (15 ^^^ u) &&& u = 0) :
    clearBit m u &&& u = 0 := by
  rw [clearBit, Nat.land_assoc, h, Nat.and_zero]

/-- Clearing a wall bit leaves the other wall bits untouched. -/
theorem clearBit_land_other {m u v : ℕ} (h : (15 ^^^ u) &&& v = v) :
    clearBit m u &&& v = m &&& v := by
  rw [clearBit, Nat.land_assoc, h]

theorem mem_unvisitedNeighbors {rows cols : ℤ} {st : GenState} {r c : ℤ}
    {e : ℤ × ℤ × ℕ × ℕ} :
    e ∈ unvisitedNeighbors rows cols st r c ↔
      ∃ d ∈ DIRS, e = (r + d.1, c + d.2.1, d.2.2.1, d.2.2.2) ∧
        0 ≤ r + d.1 ∧ r + d.1 < rows ∧ 0 ≤ c + d.2.1 ∧ c + d.2.1 < cols ∧
        (r + d.1, c + d.2.1) ∉ st.visited := by
  simp only [unvisitedNeighbors, List.mem_filterMap]
  constructor
  · rintro ⟨d, hd, hfd⟩
    by_cases hcond : 0 ≤ r + d.1 ∧ r + d.1 < rows ∧ 0 ≤ c + d.2.1 ∧
        c + d.2.1 < cols ∧ (r + d.1, c + d.2.1) ∉ st.visited
    · rw [if_pos hcond] at hfd
      exact ⟨d, hd, (Option.some.inj hfd).symm, hcond⟩
    · rw [if_neg hcond] at hfd
      exact absurd hfd (by simp)
  · rintro ⟨d, hd, rfl, hcond⟩
    exact ⟨d, hd, by rw [if_pos hcond]⟩

/-- The tuple picked by the RNG oracle is a member of `neigh`. -/
theorem getD_mem_of_length_pos {β : Type} {l : List β} (hl : l ≠ []) (i : ℕ)
    (d : β) : l.getD (i % l.length) d ∈ l := by
  have hlen : 0 < l.length := List.length_pos.mpr hl
  have hi : i % l.length < l.length := Nat.mod_lt _ hlen
  rw [List.getD_eq_getElem l d hi]
  exact List.getElem_mem hi

theorem carveStep_measure_lt {rows cols : ℤ} {choose : ℕ → ℕ} {st : GenState}
    (hne : st.stack ≠ []) :
    genMeasure rows cols (carveStep rows cols choose st) < genMeasure rows cols st := by
  rcases hst : st.stack with _ | ⟨⟨r, c⟩, rest⟩
  · exact absurd hst hne
  · by_cases hlen : (unvisitedNeighbors rows cols st r c).length = 0
    · simp only [carveStep, hst, if_pos hlen, genMeasure]
      simp [hst]
    · have hnil : unvisitedNeighbors rows cols st r c ≠ [] := by
        intro hc; rw [hc] at hlen; exact hlen rfl
      have hmem := getD_mem_of_length_pos hnil (choose st.step) (0, 0, 0, 0)
      rcases mem_unvisitedNeighbors.mp hmem with ⟨d0, hd0, he, h1, h2, h3, h4, h5⟩
      simp only [carveStep, hst, if_neg hlen, genMeasure]
      rw [← hst]
      simp only [hst, List.length_cons, he]
      have hbcell : ((r + d0.1, c + d0.2.1) : Coord) ∈ cellsF rows cols :=
        mem_cellsF.mpr ⟨h1, h2, h3, h4⟩
      have hbdiff : ((r + d0.1, c + d0.2.1) : Coord) ∈ cellsF rows cols \ st.visited :=
        Finset.mem_sdiff.mpr ⟨hbcell, h5⟩
      have hins : cellsF rows cols \ insert (r + d0.1, c + d0.2.1) st.visited
          = (cellsF rows cols \ st.visited).erase (r + d0.1, c + d0.2.1) := by
        ext x
        simp only [Finset.mem_sdiff, Finset.mem_insert, Finset.mem_erase]
        tauto
      rw [hins, Finset.card_erase_of_mem hbdiff]
      have hpos : 0 < (cellsF rows cols \ st.visited).card :=
        Finset.card_pos.mpr ⟨_, hbdiff⟩
      omega

theorem carveLoop_isSome {rows cols : ℤ} {choose : ℕ → ℕ} :
    ∀ (fuel : ℕ) (st : GenState), genMeasure rows cols st < fuel →
      ∃ stF, carveLoop rows cols choose fuel st = some stF := by
  intro fuel
  induction fuel with
  | zero => intro st hm; omega
  | succ fuel ih =>
    intro st hm
    rcases hst : st.stack with _ | ⟨p, rest⟩
    · exact ⟨st, by simp [carveLoop, hst]⟩
    · have hne : st.stack ≠ [] := by rw [hst]; simp
      have hlt := @carveStep_measure_lt rows cols choose st hne
      rcases ih (carveStep rows cols choose st) (by omega) with ⟨stF, hF⟩
      exact ⟨stF, by simp only [carveLoop, hst]; exact hF⟩


/-- A wall query untouched by a carve (neither cleared bit can affect
the queried bit) is unchanged. -/
theorem carve_land_keep {w : Coord → ℕ} {a b : Coord} {u1 u2 u : ℕ}
    (h1 : (15 ^^^ u1) &&& u = u) (h2 : (15 ^^^ u2) &&& u = u) (x : Coord) :
    (if x = b then clearBit (w b) u2 else if x = a then clearBit (w a) u1 else w x) &&& u
      = w x &&& u := by
  by_cases hxb : x = b
  · rw [if_pos hxb, clearBit_land_other h2, hxb]
  · rw [if_neg hxb]
    by_cases hxa : x = a
    · rw [if_pos hxa, clearBit_land_other h1, hxa]
    · rw [if_neg hxa]

/-- A wall query away from the carved-into cell `b` is unchanged when
the bit cleared at `a` cannot affect the queried bit. -/
theorem carve_land_ne_b {w : Coord → ℕ} {a b : Coord} {u1 u2 u : ℕ} {x : Coord}
    (hxb : x ≠ b) (h1 : (15 ^^^ u1) &&& u = u) :
    (if x = b then clearBit (w b) u2 else if x = a then clearBit (w a) u1 else w x) &&& u
      = w x &&& u := by
  rw [if_neg hxb]
  by_cases hxa : x = a
  · rw [if_pos hxa, clearBit_land_other h1, hxa]
  · rw [if_neg hxa]

/-- A wall query away from the carved-from cell `a` is unchanged when
the bit cleared at `b` cannot affect the queried bit. -/
theorem carve_land_ne_a {w : Coord → ℕ} {a b : Coord} {u1 u2 u : ℕ} {x : Coord}
    (hxa : x ≠ a) (h2 : (15 ^^^ u2) &&& u = u) :
    (if x = b then clearBit (w b) u2 else if x = a then clearBit (w a) u1 else w x) &&& u
      = w x &&& u := by
  by_cases hxb : x = b
  · rw [if_pos hxb, clearBit_land_other h2, hxb]
  · rw [if_neg hxb, if_neg hxa]

/-- Carving one wall (clearing the facing bits in both cells of a
grid-adjacent pair) preserves wall symmetry. -/
theorem wallSymm_carve {rows cols : ℤ} {w : Coord → ℕ} {a : Coord}
    {d0 : ℤ × ℤ × ℕ × ℕ} (hd0 : d0 ∈ DIRS) (hs : wallSymm rows cols w) :
    wallSymm rows cols (fun x =>
    if x = (a.1 + d0.1, a.2 + d0.2.1) then
      clearBit (w (a.1 + d0.1, a.2 + d0.2.1)) d0.2.2.2
    else if x = a then clearBit (w a) d0.2.2.1 else w x) := by
  rcases a with ⟨a1, a2⟩
  simp only [DIRS, N, E, S, W, List.mem_cons, List.not_mem_nil, or_false] at hd0
  intro p hp d' hd' hq
  rcases p with ⟨p1, p2⟩
  simp only [DIRS, N, E, S, W, List.mem_cons, List.not_mem_nil, or_false] at hd'
  rcases hd0 with rfl | rfl | rfl | rfl
  · rcases hd' with rfl | rfl | rfl | rfl <;> dsimp only at hq ⊢
    · by_cases hpa : ((p1, p2) : Coord) = (a1, a2)
      · obtain ⟨rfl, rfl⟩ : p1 = a1 ∧ p2 = a2 :=
          ⟨congrArg Prod.fst hpa, congrArg Prod.snd hpa⟩
        have e1 : ((p1, p2) : Coord) ≠ (p1 + -1, p2 + 0) := by
          simp only [ne_eq, Prod.mk.injEq, not_and]
          intro h1c
          omega
        rw [if_neg e1, if_pos rfl, if_pos rfl,
          clearBit_land_self (by decide), clearBit_land_self (by decide)]
      · have hqb : ((p1 + -1, p2 + 0) : Coord)
            ≠ (a1 + -1, a2 + 0) := by
          intro hcon
          apply hpa
          have h1c : p1 + -1 = a1 + -1 := congrArg Prod.fst hcon
          have h2c : p2 + 0 = a2 + 0 := congrArg Prod.snd hcon
          have e2 : p1 = a1 := by omega
          have e3 : p2 = a2 := by omega
          rw [e2, e3]
        rw [carve_land_ne_a hpa (by decide), carve_land_ne_b hqb (by decide)]
        exact hs (p1, p2) hp (-1, 0, 1, 4) (by decide) hq
    · rw [carve_land_keep (by decide) (by decide),
        carve_land_keep (by decide) (by decide)]
      exact hs (p1, p2) hp (0, 1, 2, 8) (by decide) hq
    · by_cases hpb : ((p1, p2) : Coord) = (a1 + -1, a2 + 0)
      · have h1c : p1 = a1 + -1 := congrArg Prod.fst hpb
        have h2c : p2 = a2 + 0 := congrArg Prod.snd hpb
        have hqa : ((p1 + 1, p2 + 0) : Coord) = (a1, a2) := by
          rw [h1c, h2c]
          simp only [Prod.mk.injEq]
          constructor <;> omega
        have e1 : ((a1, a2) : Coord) ≠ (a1 + -1, a2 + 0) := by
          simp only [ne_eq, Prod.mk.injEq, not_and]
          intro h3c
          omega
        rw [if_pos hpb, hqa, if_neg e1, if_pos rfl,
          clearBit_land_self (by decide), clearBit_land_self (by decide)]
      · have hqa : ((p1 + 1, p2 + 0) : Coord) ≠ (a1, a2) := by
          intro hcon
          apply hpb
          have h1c : p1 + 1 = a1 := congrArg Prod.fst hcon
          have h2c : p2 + 0 = a2 := congrArg Prod.snd hcon
          have e2 : p1 = a1 + -1 := by omega
          have e3 : p2 = a2 + 0 := by omega
          rw [e2, e3]
        rw [carve_land_ne_b hpb (by decide), carve_land_ne_a hqa (by decide)]
        exact hs (p1, p2) hp (1, 0, 4, 1) (by decide) hq
    · rw [carve_land_keep (by decide) (by decide),
        carve_land_keep (by decide) (by decide)]
      exact hs (p1, p2) hp (0, -1, 8, 2) (by decide) hq
  · rcases hd' with rfl | rfl | rfl | rfl <;> dsimp only at hq ⊢
    · rw [carve_land_keep (by decide) (by decide),
        carve_land_keep (by decide) (by decide)]
      exact hs (p1, p2) hp (-1, 0, 1, 4) (by decide) hq
    · by_cases hpa : ((p1, p2) : Coord) = (a1, a2)
      · obtain ⟨rfl, rfl⟩ : p1 = a1 ∧ p2 = a2 :=
          ⟨congrArg Prod.fst hpa, congrArg Prod.snd hpa⟩
        have e1 : ((p1, p2) : Coord) ≠ (p1 + 0, p2 + 1) := by
          simp only [ne_eq, Prod.mk.injEq, not_and]
          intro h1c
          omega
        rw [if_neg e1, if_pos rfl, if_pos rfl,
          clearBit_land_self (by decide), clearBit_land_self (by decide)]
      · have hqb : ((p1 + 0, p2 + 1) : Coord)
            ≠ (a1 + 0, a2 + 1) := by
          intro hcon
          apply hpa
          have h1c : p1 + 0 = a1 + 0 := congrArg Prod.fst hcon
          have h2c : p2 + 1 = a2 + 1 := congrArg Prod.snd hcon
          have e2 : p1 = a1 := by omega
          have e3 : p2 = a2 := by omega
          rw [e2, e3]
        rw [carve_land_ne_a hpa (by decide), carve_land_ne_b hqb (by decide)]
        exact hs (p1, p2) hp (0, 1, 2, 8) (by decide) hq
    · rw [carve_land_keep (by decide) (by decide),
        carve_land_keep (by decide) (by decide)]
      exact hs (p1, p2) hp (1, 0, 4, 1) (by decide) hq
    · by_cases hpb : ((p1, p2) : Coord) = (a1 + 0, a2 + 1)
      · have h1c : p1 = a1 + 0 := congrArg Prod.fst hpb
        have h2c : p2 = a2 + 1 := congrArg Prod.snd hpb
        have hqa : ((p1 + 0, p2 + -1) : Coord) = (a1, a2) := by
          rw [h1c, h2c]
          simp only [Prod.mk.injEq]
          constructor <;> omega
        have e1 : ((a1, a2) : Coord) ≠ (a1 + 0, a2 + 1) := by
          simp only [ne_eq, Prod.mk.injEq, not_and]
          intro h3c
          omega
        rw [if_pos hpb, hqa, if_neg e1, if_pos rfl,
          clearBit_land_self (by decide), clearBit_land_self (by decide)]
      · have hqa : ((p1 + 0, p2 + -1) : Coord) ≠ (a1, a2) := by
          intro hcon
          apply hpb
          have h1c : p1 + 0 = a1 := congrArg Prod.fst hcon
          have h2c : p2 + -1 = a2 := congrArg Prod.snd hcon
          have e2 : p1 = a1 + 0 := by omega
          have e3 : p2 = a2 + 1 := by omega
          rw [e2, e3]
        rw [carve_land_ne_b hpb (by decide), carve_land_ne_a hqa (by decide)]
        exact hs (p1, p2) hp (0, -1, 8, 2) (by decide) hq
  · rcases hd' with rfl | rfl | rfl | rfl <;> dsimp only at hq ⊢
    · by_cases hpb : ((p1, p2) : Coord) = (a1 + 1, a2 + 0)
      · have h1c : p1 = a1 + 1 := congrArg Prod.fst hpb
        have h2c : p2 = a2 + 0 := congrArg Prod.snd hpb
        have hqa : ((p1 + -1, p2 + 0) : Coord) = (a1, a2) := by
          rw [h1c, h2c]
          simp only [Prod.mk.injEq]
          constructor <;> omega
        have e1 : ((a1, a2) : Coord) ≠ (a1 + 1, a2 + 0) := by
          simp only [ne_eq, Prod.mk.injEq, not_and]
          intro h3c
          omega
        rw [if_pos hpb, hqa, if_neg e1, if_pos rfl,
          clearBit_land_self (by decide), clearBit_land_self (by decide)]
      · have hqa : ((p1 + -1, p2 + 0) : Coord) ≠ (a1, a2) := by
          intro hcon
          apply hpb
          have h1c : p1 + -1 = a1 := congrArg Prod.fst hcon
          have h2c : p2 + 0 = a2 := congrArg Prod.snd hcon
          have e2 : p1 = a1 + 1 := by omega
          have e3 : p2 = a2 + 0 := by omega
          rw [e2, e3]
        rw [carve_land_ne_b hpb (by decide), carve_land_ne_a hqa (by decide)]
        exact hs (p1, p2) hp (-1, 0, 1, 4) (by decide) hq
    · rw [carve_land_keep (by decide) (by decide),
        carve_land_keep (by decide) (by decide)]
      exact hs (p1, p2) hp (0, 1, 2, 8) (by decide) hq
    · by_cases hpa : ((p1, p2) : Coord) = (a1, a2)
      · obtain ⟨rfl, rfl⟩ : p1 = a1 ∧ p2 = a2 :=
          ⟨congrArg Prod.fst hpa, congrArg Prod.snd hpa⟩
        have e1 : ((p1, p2) : Coord) ≠ (p1 + 1, p2 + 0) := by
          simp only [ne_eq, Prod.mk.injEq, not_and]
          intro h1c
          omega
        rw [if_neg e1, if_pos rfl, if_pos rfl,
          clearBit_land_self (by decide), clearBit_land_self (by decide)]
      · have hqb : ((p1 + 1, p2 + 0) : Coord)
            ≠ (a1 + 1, a2 + 0) := by
          intro hcon
          apply hpa
          have h1c : p1 + 1 = a1 + 1 := congrArg Prod.fst hcon
          have h2c : p2 + 0 = a2 + 0 := congrArg Prod.snd hcon
          have e2 : p1 = a1 := by omega
          have e3 : p2 = a2 := by omega
          rw [e2, e3]
        rw [carve_land_ne_a hpa (by decide), carve_land_ne_b hqb (by decide)]
        exact hs (p1, p2) hp (1, 0, 4, 1) (by decide) hq
    · rw [carve_land_keep (by decide) (by decide),
        carve_land_keep (by decide) (by decide)]
      exact hs (p1, p2) hp (0, -1, 8, 2) (by decide) hq
  · rcases hd' with rfl | rfl | rfl | rfl <;> dsimp only at hq ⊢
    · rw [carve_land_keep (by decide) (by decide),
        carve_land_keep (by decide) (by decide)]
      exact hs (p1, p2) hp (-1, 0, 1, 4) (by decide) hq
    · by_cases hpb : ((p1, p2) : Coord) = (a1 + 0, a2 + -1)
      · have h1c : p1 = a1 + 0 := congrArg Prod.fst hpb
        have h2c : p2 = a2 + -1 := congrArg Prod.snd hpb
        have hqa : ((p1 + 0, p2 + 1) : Coord) = (a1, a2) := by
          rw [h1c, h2c]
          simp only [Prod.mk.injEq]
          constructor <;> omega
        have e1 : ((a1, a2) : Coord) ≠ (a1 + 0, a2 + -1) := by
          simp only [ne_eq, Prod.mk.injEq, not_and]
          intro h3c
          omega
        rw [if_pos hpb, hqa, if_neg e1, if_pos rfl,
          clearBit_land_self (by decide), clearBit_land_self (by decide)]
      · have hqa : ((p1 + 0, p2 + 1) : Coord) ≠ (a1, a2) := by
          intro hcon
          apply hpb
          have h1c : p1 + 0 = a1 := congrArg Prod.fst hcon
          have h2c : p2 + 1 = a2 := congrArg Prod.snd hcon
          have e2 : p1 = a1 + 0 := by omega
          have e3 : p2 = a2 + -1 := by omega
          rw [e2, e3]
        rw [carve_land_ne_b hpb (by decide), carve_land_ne_a hqa (by decide)]
        exact hs (p1, p2) hp (0, 1, 2, 8) (by decide) hq
    · rw [carve_land_keep (by decide) (by decide),
        carve_land_keep (by decide) (by decide)]
      exact hs (p1, p2) hp (1, 0, 4, 1) (by decide) hq
    · by_cases hpa : ((p1, p2) : Coord) = (a1, a2)
      · obtain ⟨rfl, rfl⟩ : p1 = a1 ∧ p2 = a2 :=
          ⟨congrArg Prod.fst hpa, congrArg Prod.snd hpa⟩
        have e1 : ((p1, p2) : Coord) ≠ (p1 + 0, p2 + -1) := by
          simp only [ne_eq, Prod.mk.injEq, not_and]
          intro h1c
          omega
        rw [if_neg e1, if_pos rfl, if_pos rfl,
          clearBit_land_self (by decide), clearBit_land_self (by decide)]
      · have hqb : ((p1 + 0, p2 + -1) : Coord)
            ≠ (a1 + 0, a2 + -1) := by
          intro hcon
          apply hpa
          have h1c : p1 + 0 = a1 + 0 := congrArg Prod.fst hcon
          have h2c : p2 + -1 = a2 + -1 := congrArg Prod.snd hcon
          have e2 : p1 = a1 := by omega
          have e3 : p2 = a2 := by omega
          rw [e2, e3]
        rw [carve_land_ne_a hpa (by decide), carve_land_ne_b hqb (by decide)]
        exact hs (p1, p2) hp (0, -1, 8, 2) (by decide) hq


/-- Two-point localisation: a wall grid differing from `w` only at two
cells changes the open-edge count only through those two cells' terms. -/
theorem openEdgeCount_two_point {rows cols : ℤ} {w v : Coord → ℕ} {a b : Coord}
    (hab : a ≠ b) (ha : a ∈ cellsF rows cols) (hb : b ∈ cellsF rows cols)
    (hoff : ∀ x : Coord, x ≠ a → x ≠ b → v x = w x) :
    openEdgeCount rows cols v + (edgeTerm (w a) a + edgeTerm (w b) b)
      = openEdgeCount rows cols w + (edgeTerm (v a) a + edgeTerm (v b) b) := by
  have hsub : ({a, b} : Finset Coord) ⊆ cellsF rows cols := by
    intro x hx
    rcases Finset.mem_insert.mp hx with rfl | hx
    · exact ha
    · rcases Finset.mem_singleton.mp hx with rfl
      exact hb
  have hv : openEdgeCount rows cols v
      = (∑ p ∈ cellsF rows cols \ {a, b}, edgeTerm (v p) p)
        + (edgeTerm (v a) a + edgeTerm (v b) b) := by
    unfold openEdgeCount
    rw [← Finset.sum_sdiff hsub, Finset.sum_pair hab]
  have hw : openEdgeCount rows cols w
      = (∑ p ∈ cellsF rows cols \ {a, b}, edgeTerm (w p) p)
        + (edgeTerm (w a) a + edgeTerm (w b) b) := by
    unfold openEdgeCount
    rw [← Finset.sum_sdiff hsub, Finset.sum_pair hab]
  have hmid : (∑ p ∈ cellsF rows cols \ {a, b}, edgeTerm (v p) p)
      = ∑ p ∈ cellsF rows cols \ {a, b}, edgeTerm (w p) p := by
    refine Finset.sum_congr rfl fun x hx => ?_
    rcases Finset.mem_sdiff.mp hx with ⟨-, hxt⟩
    rw [hoff x (fun hc => hxt (by rw [hc]; exact Finset.mem_insert_self _ _))
      (fun hc => hxt (by rw [hc]; exact Finset.mem_insert_of_mem (Finset.mem_singleton_self _)))]
  rw [hv, hw, hmid]
  omega

/-- Each carve opens exactly one new edge: the open-edge count grows by
one (the carved-into cell still had its full mask). -/
theorem openEdgeCount_carve {rows cols : ℤ} {w : Coord → ℕ} {a : Coord}
    {d0 : ℤ × ℤ × ℕ × ℕ} (hd0 : d0 ∈ DIRS)
    (ha : a ∈ cellsF rows cols) (hb : (a.1 + d0.1, a.2 + d0.2.1) ∈ cellsF rows cols)
    (hfullb : w (a.1 + d0.1, a.2 + d0.2.1) = 15) (hsymm : wallSymm rows cols w) :
    openEdgeCount rows cols (fun x =>
      if x = (a.1 + d0.1, a.2 + d0.2.1) then
        clearBit (w (a.1 + d0.1, a.2 + d0.2.1)) d0.2.2.2
      else if x = a then clearBit (w a) d0.2.2.1 else w x)
      = openEdgeCount rows cols w + 1 := by
  rcases a with ⟨a1, a2⟩
  have hsy := hsymm (a1, a2) ha d0 hd0 hb
  simp only [DIRS, N, E, S, W, List.mem_cons, List.not_mem_nil, or_false] at hd0
  rcases hd0 with rfl | rfl | rfl | rfl <;> dsimp only at hb hfullb hsy ⊢
  · have hab : ((a1, a2) : Coord) ≠ (a1 + -1, a2 + 0) := by
      simp only [ne_eq, Prod.mk.injEq, not_and]
      intro h1c
      omega
    have ham := mem_cellsF.mp ha
    have hbm := mem_cellsF.mp hb
    dsimp only at ham hbm
    have hoff : ∀ x : Coord, x ≠ ((a1, a2) : Coord) → x ≠ ((a1 + -1, a2 + 0) : Coord) →
        (if x = ((a1 + -1, a2 + 0) : Coord) then clearBit (w (a1 + -1, a2 + 0)) 4
          else if x = ((a1, a2) : Coord) then clearBit (w (a1, a2)) 1 else w x) = w x :=
      fun x hxa hxb => by rw [if_neg hxb, if_neg hxa]
    have hkey := openEdgeCount_two_point hab ha hb hoff
    have hva : (if ((a1, a2) : Coord) = ((a1 + -1, a2 + 0) : Coord) then
          clearBit (w (a1 + -1, a2 + 0)) 4
        else if ((a1, a2) : Coord) = ((a1, a2) : Coord) then
          clearBit (w (a1, a2)) 1 else w (a1, a2)) = clearBit (w (a1, a2)) 1 := by
      rw [if_neg hab, if_pos rfl]
    have hvb : (if ((a1 + -1, a2 + 0) : Coord) = ((a1 + -1, a2 + 0) : Coord) then
          clearBit (w (a1 + -1, a2 + 0)) 4
        else if ((a1 + -1, a2 + 0) : Coord) = ((a1, a2) : Coord) then
          clearBit (w (a1, a2)) 1 else w (a1 + -1, a2 + 0)) = clearBit 15 4 := by
      rw [if_pos rfl, hfullb]
    have h1a : (1 : ℤ) ≤ a1 := by omega
    have hwa : w (a1, a2) &&& N ≠ 0 := by
      show w (a1, a2) &&& 1 ≠ 0
      rw [hsy, hfullb]
      decide
    have hEa : edgeTerm (clearBit (w (a1, a2)) 1) (a1, a2)
        = edgeTerm (w (a1, a2)) (a1, a2) + 1 := by
      have hc1 : clearBit (w (a1, a2)) 1 &&& N = 0 := clearBit_land_self (by decide)
      have hc2 : clearBit (w (a1, a2)) 1 &&& W = w (a1, a2) &&& W :=
        clearBit_land_other (by decide)
      unfold edgeTerm
      rw [if_pos (show clearBit (w (a1, a2)) 1 &&& N = 0 ∧ 1 ≤ ((a1, a2) : Coord).1 from
            ⟨hc1, h1a⟩),
        if_neg (show ¬(w (a1, a2) &&& N = 0 ∧ 1 ≤ ((a1, a2) : Coord).1) from
            fun hc => hwa hc.1),
        if_congr (show (clearBit (w (a1, a2)) 1 &&& W = 0 ∧ 1 ≤ ((a1, a2) : Coord).2)
          ↔ (w (a1, a2) &&& W = 0 ∧ 1 ≤ ((a1, a2) : Coord).2) by rw [hc2]) rfl rfl]
      ring
    have hEb : edgeTerm (clearBit 15 4) (a1 + -1, a2 + 0)
        = edgeTerm (w (a1 + -1, a2 + 0)) (a1 + -1, a2 + 0) := by
      rw [hfullb]
      unfold edgeTerm
      rw [if_neg (show ¬(clearBit 15 4 &&& N = 0 ∧ 1 ≤ ((a1 + -1, a2 + 0) : Coord).1) from
            fun hc => absurd hc.1 (by decide)),
        if_neg (show ¬(clearBit 15 4 &&& W = 0 ∧ 1 ≤ ((a1 + -1, a2 + 0) : Coord).2) from
            fun hc => absurd hc.1 (by decide)),
        if_neg (show ¬((15 : ℕ) &&& N = 0 ∧ 1 ≤ ((a1 + -1, a2 + 0) : Coord).1) from
            fun hc => absurd hc.1 (by decide)),
        if_neg (show ¬((15 : ℕ) &&& W = 0 ∧ 1 ≤ ((a1 + -1, a2 + 0) : Coord).2) from
            fun hc => absurd hc.1 (by decide))]
    rw [hva, hvb] at hkey
    omega
  · have hab : ((a1, a2) : Coord) ≠ (a1 + 0, a2 + 1) := by
      simp only [ne_eq, Prod.mk.injEq, not_and]
      intro h1c
      omega
    have ham := mem_cellsF.mp ha
    have hbm := mem_cellsF.mp hb
    dsimp only at ham hbm
    have hoff : ∀ x : Coord, x ≠ ((a1, a2) : Coord) → x ≠ ((a1 + 0, a2 + 1) : Coord) →
        (if x = ((a1 + 0, a2 + 1) : Coord) then clearBit (w (a1 + 0, a2 + 1)) 8
          else if x = ((a1, a2) : Coord) then clearBit (w (a1, a2)) 2 else w x) = w x :=
      fun x hxa hxb => by rw [if_neg hxb, if_neg hxa]
    have hkey := openEdgeCount_two_point hab ha hb hoff
    have hva : (if ((a1, a2) : Coord) = ((a1 + 0, a2 + 1) : Coord) then
          clearBit (w (a1 + 0, a2 + 1)) 8
        else if ((a1, a2) : Coord) = ((a1, a2) : Coord) then
          clearBit (w (a1, a2)) 2 else w (a1, a2)) = clearBit (w (a1, a2)) 2 := by
      rw [if_neg hab, if_pos rfl]
    have hvb : (if ((a1 + 0, a2 + 1) : Coord) = ((a1 + 0, a2 + 1) : Coord) then
          clearBit (w (a1 + 0, a2 + 1)) 8
        else if ((a1 + 0, a2 + 1) : Coord) = ((a1, a2) : Coord) then
          clearBit (w (a1, a2)) 2 else w (a1 + 0, a2 + 1)) = clearBit 15 8 := by
      rw [if_pos rfl, hfullb]
    have hEa : edgeTerm (clearBit (w (a1, a2)) 2) (a1, a2)
        = edgeTerm (w (a1, a2)) (a1, a2) := by
      have hc1 : clearBit (w (a1, a2)) 2 &&& N = w (a1, a2) &&& N :=
        clearBit_land_other (by decide)
      have hc2 : clearBit (w (a1, a2)) 2 &&& W = w (a1, a2) &&& W :=
        clearBit_land_other (by decide)
      have hi1 : (clearBit (w (a1, a2)) 2 &&& N = 0 ∧ 1 ≤ ((a1, a2) : Coord).1)
          ↔ (w (a1, a2) &&& N = 0 ∧ 1 ≤ ((a1, a2) : Coord).1) := by rw [hc1]
      have hi2 : (clearBit (w (a1, a2)) 2 &&& W = 0 ∧ 1 ≤ ((a1, a2) : Coord).2)
          ↔ (w (a1, a2) &&& W = 0 ∧ 1 ≤ ((a1, a2) : Coord).2) := by rw [hc2]
      unfold edgeTerm
      rw [if_congr hi1 rfl rfl, if_congr hi2 rfl rfl]
    have h2b : (1 : ℤ) ≤ a2 + 1 := by omega
    have hEb : edgeTerm (clearBit 15 8) (a1 + 0, a2 + 1)
        = edgeTerm (w (a1 + 0, a2 + 1)) (a1 + 0, a2 + 1) + 1 := by
      rw [hfullb]
      unfold edgeTerm
      rw [if_neg (show ¬(clearBit 15 8 &&& N = 0 ∧ 1 ≤ ((a1 + 0, a2 + 1) : Coord).1) from
            fun hc => absurd hc.1 (by decide)),
        if_pos (show clearBit 15 8 &&& W = 0 ∧ 1 ≤ ((a1 + 0, a2 + 1) : Coord).2 from
            ⟨by decide, h2b⟩),
        if_neg (show ¬((15 : ℕ) &&& N = 0 ∧ 1 ≤ ((a1 + 0, a2 + 1) : Coord).1) from
            fun hc => absurd hc.1 (by decide)),
        if_neg (show ¬((15 : ℕ) &&& W = 0 ∧ 1 ≤ ((a1 + 0, a2 + 1) : Coord).2) from
            fun hc => absurd hc.1 (by decide))]
    rw [hva, hvb] at hkey
    omega
  · have hab : ((a1, a2) : Coord) ≠ (a1 + 1, a2 + 0) := by
      simp only [ne_eq, Prod.mk.injEq, not_and]
      intro h1c
      omega
    have ham := mem_cellsF.mp ha
    have hbm := mem_cellsF.mp hb
    dsimp only at ham hbm
    have hoff : ∀ x : Coord, x ≠ ((a1, a2) : Coord) → x ≠ ((a1 + 1, a2 + 0) : Coord) →
        (if x = ((a1 + 1, a2 + 0) : Coord) then clearBit (w (a1 + 1, a2 + 0)) 1
          else if x = ((a1, a2) : Coord) then clearBit (w (a1, a2)) 4 else w x) = w x :=
      fun x hxa hxb => by rw [if_neg hxb, if_neg hxa]
    have hkey := openEdgeCount_two_point hab ha hb hoff
    have hva : (if ((a1, a2) : Coord) = ((a1 + 1, a2 + 0) : Coord) then
          clearBit (w (a1 + 1, a2 + 0)) 1
        else if ((a1, a2) : Coord) = ((a1, a2) : Coord) then
          clearBit (w (a1, a2)) 4 else w (a1, a2)) = clearBit (w (a1, a2)) 4 := by
      rw [if_neg hab, if_pos rfl]
    have hvb : (if ((a1 + 1, a2 + 0) : Coord) = ((a1 + 1, a2 + 0) : Coord) then
          clearBit (w (a1 + 1, a2 + 0)) 1
        else if ((a1 + 1, a2 + 0) : Coord) = ((a1, a2) : Coord) then
          clearBit (w (a1, a2)) 4 else w (a1 + 1, a2 + 0)) = clearBit 15 1 := by
      rw [if_pos rfl, hfullb]
    have hEa : edgeTerm (clearBit (w (a1, a2)) 4) (a1, a2)
        = edgeTerm (w (a1, a2)) (a1, a2) := by
      have hc1 : clearBit (w (a1, a2)) 4 &&& N = w (a1, a2) &&& N :=
        clearBit_land_other (by decide)
      have hc2 : clearBit (w (a1, a2)) 4 &&& W = w (a1, a2) &&& W :=
        clearBit_land_other (by decide)
      have hi1 : (clearBit (w (a1, a2)) 4 &&& N = 0 ∧ 1 ≤ ((a1, a2) : Coord).1)
          ↔ (w (a1, a2) &&& N = 0 ∧ 1 ≤ ((a1, a2) : Coord).1) := by rw [hc1]
      have hi2 : (clearBit (w (a1, a2)) 4 &&& W = 0 ∧ 1 ≤ ((a1, a2) : Coord).2)
          ↔ (w (a1, a2) &&& W = 0 ∧ 1 ≤ ((a1, a2) : Coord).2) := by rw [hc2]
      unfold edgeTerm
      rw [if_congr hi1 rfl rfl, if_congr hi2 rfl rfl]
    have h1b : (1 : ℤ) ≤ a1 + 1 := by omega
    have hEb : edgeTerm (clearBit 15 1) (a1 + 1, a2 + 0)
        = edgeTerm (w (a1 + 1, a2 + 0)) (a1 + 1, a2 + 0) + 1 := by
      rw [hfullb]
      unfold edgeTerm
      rw [if_pos (show clearBit 15 1 &&& N = 0 ∧ 1 ≤ ((a1 + 1, a2 + 0) : Coord).1 from
            ⟨by decide, h1b⟩),
        if_neg (show ¬(clearBit 15 1 &&& W = 0 ∧ 1 ≤ ((a1 + 1, a2 + 0) : Coord).2) from
            fun hc => absurd hc.1 (by decide)),
        if_neg (show ¬((15 : ℕ) &&& N = 0 ∧ 1 ≤ ((a1 + 1, a2 + 0) : Coord).1) from
            fun hc => absurd hc.1 (by decide)),
        if_neg (show ¬((15 : ℕ) &&& W = 0 ∧ 1 ≤ ((a1 + 1, a2 + 0) : Coord).2) from
            fun hc => absurd hc.1 (by decide))]
    rw [hva, hvb] at hkey
    omega
  · have hab : ((a1, a2) : Coord) ≠ (a1 + 0, a2 + -1) := by
      simp only [ne_eq, Prod.mk.injEq, not_and]
      intro h1c
      omega
    have ham := mem_cellsF.mp ha
    have hbm := mem_cellsF.mp hb
    dsimp only at ham hbm
    have hoff : ∀ x : Coord, x ≠ ((a1, a2) : Coord) → x ≠ ((a1 + 0, a2 + -1) : Coord) →
        (if x = ((a1 + 0, a2 + -1) : Coord) then clearBit (w (a1 + 0, a2 + -1)) 2
          else if x = ((a1, a2) : Coord) then clearBit (w (a1, a2)) 8 else w x) = w x :=
      fun x hxa hxb => by rw [if_neg hxb, if_neg hxa]
    have hkey := openEdgeCount_two_point hab ha hb hoff
    have hva : (if ((a1, a2) : Coord) = ((a1 + 0, a2 + -1) : Coord) then
          clearBit (w (a1 + 0, a2 + -1)) 2
        else if ((a1, a2) : Coord) = ((a1, a2) : Coord) then
          clearBit (w (a1, a2)) 8 else w (a1, a2)) = clearBit (w (a1, a2)) 8 := by
      rw [if_neg hab, if_pos rfl]
    have hvb : (if ((a1 + 0, a2 + -1) : Coord) = ((a1 + 0, a2 + -1) : Coord) then
          clearBit (w (a1 + 0, a2 + -1)) 2
        else if ((a1 + 0, a2 + -1) : Coord) = ((a1, a2) : Coord) then
          clearBit (w (a1, a2)) 8 else w (a1 + 0, a2 + -1)) = clearBit 15 2 := by
      rw [if_pos rfl, hfullb]
    have h2a : (1 : ℤ) ≤ a2 := by omega
    have hwa : w (a1, a2) &&& W ≠ 0 := by
      show w (a1, a2) &&& 8 ≠ 0
      rw [hsy, hfullb]
      decide
    have hEa : edgeTerm (clearBit (w (a1, a2)) 8) (a1, a2)
        = edgeTerm (w (a1, a2)) (a1, a2) + 1 := by
      have hc1 : clearBit (w (a1, a2)) 8 &&& N = w (a1, a2) &&& N :=
        clearBit_land_other (by decide)
      have hc2 : clearBit (w (a1, a2)) 8 &&& W = 0 := clearBit_land_self (by decide)
      unfold edgeTerm
      rw [if_pos (show clearBit (w (a1, a2)) 8 &&& W = 0 ∧ 1 ≤ ((a1, a2) : Coord).2 from
            ⟨hc2, h2a⟩),
        if_neg (show ¬(w (a1, a2) &&& W = 0 ∧ 1 ≤ ((a1, a2) : Coord).2) from
            fun hc => hwa hc.1),
        if_congr (show (clearBit (w (a1, a2)) 8 &&& N = 0 ∧ 1 ≤ ((a1, a2) : Coord).1)
          ↔ (w (a1, a2) &&& N = 0 ∧ 1 ≤ ((a1, a2) : Coord).1) by rw [hc1]) rfl rfl]
    have hEb : edgeTerm (clearBit 15 2) (a1 + 0, a2 + -1)
        = edgeTerm (w (a1 + 0, a2 + -1)) (a1 + 0, a2 + -1) := by
      rw [hfullb]
      unfold edgeTerm
      rw [if_neg (show ¬(clearBit 15 2 &&& N = 0 ∧ 1 ≤ ((a1 + 0, a2 + -1) : Coord).1) from
            fun hc => absurd hc.1 (by decide)),
        if_neg (show ¬(clearBit 15 2 &&& W = 0 ∧ 1 ≤ ((a1 + 0, a2 + -1) : Coord).2) from
            fun hc => absurd hc.1 (by decide)),
        if_neg (show ¬((15 : ℕ) &&& N = 0 ∧ 1 ≤ ((a1 + 0, a2 + -1) : Coord).1) from
            fun hc => absurd hc.1 (by decide)),
        if_neg (show ¬((15 : ℕ) &&& W = 0 ∧ 1 ≤ ((a1 + 0, a2 + -1) : Coord).2) from
            fun hc => absurd hc.1 (by decide))]
    rw [hva, hvb] at hkey
    omega

/-- Taking a conjunction with a further mask cannot set a cleared bit. -/
theorem clearBit_preserves_zero {m v u : ℕ} (h : m &&& u = 0) :
    clearBit m v &&& u = 0 := by
  rw [clearBit, Nat.land_assoc, Nat.land_comm _ u, ← Nat.land_assoc, h, Nat.zero_and]

/-- Every direction's current-cell bit is a single wall bit. -/
theorem DIRS_bit_self : ∀ d ∈ DIRS, (15 ^^^ d.2.2.1) &&& d.2.2.1 = 0 := by decide

/-- The carving invariant is preserved by one loop iteration. -/
theorem GenInv_carveStep {rows cols : ℤ} {start : Coord} {choose : ℕ → ℕ}
    {st : GenState} (inv : GenInv rows cols start st) :
    GenInv rows cols start (carveStep rows cols choose st) := by
  rcases hst : st.stack with _ | ⟨⟨r, c⟩, rest⟩
  · have h0 : carveStep rows cols choose st = st := by
      simp only [carveStep, hst]
    rw [h0]
    exact inv
  · by_cases hlen : (unvisitedNeighbors rows cols st r c).length = 0
    · -- backtrack: pop the stack, everything else unchanged
      have h0 : carveStep rows cols choose st = { st with stack := rest } := by
        simp only [carveStep, hst, if_pos hlen]
      rw [h0]
      refine ⟨inv.hstart, inv.hsub, ?_, ?_, inv.hfull, inv.hsymm, ?_, inv.hconn,
        inv.hcount⟩
      · intro p hp
        exact inv.hstack p (by rw [hst]; exact List.mem_cons_of_mem _ hp)
      · have hnd := inv.hnodup
        rw [hst] at hnd
        exact hnd.of_cons
      · intro p hpv hpns d hd hqcell
        by_cases hpr : p = ((r, c) : Coord)
        · subst hpr
          by_cases hqv : ((r + d.1 : ℤ), (c + d.2.1 : ℤ)) ∈ st.visited
          · exact hqv
          · exfalso
            have hbounds := mem_cellsF.mp hqcell
            dsimp only at hbounds
            have hmem2 : ((r + d.1, c + d.2.1, d.2.2.1, d.2.2.2) : ℤ × ℤ × ℕ × ℕ)
                ∈ unvisitedNeighbors rows cols st r c :=
              mem_unvisitedNeighbors.mpr ⟨d, hd, rfl,
                hbounds.1, hbounds.2.1, hbounds.2.2.1, hbounds.2.2.2, hqv⟩
            rw [List.length_eq_zero.mp hlen] at hmem2
            exact absurd hmem2 (List.not_mem_nil _)
        · apply inv.hclosed p hpv _ d hd hqcell
          rw [hst]
          intro hmem
          rcases List.mem_cons.mp hmem with h | h
          · exact hpr h
          · exact hpns h
    · -- carve: open the wall towards the chosen fresh neighbor
      have hnil : unvisitedNeighbors rows cols st r c ≠ [] := fun hc => by
        rw [hc] at hlen
        exact hlen rfl
      have hmem := getD_mem_of_length_pos hnil (choose st.step) (0, 0, 0, 0)
      rcases mem_unvisitedNeighbors.mp hmem with ⟨d0, hd0, he, h1, h2, h3, h4, h5⟩
      have hamem : ((r, c) : Coord) ∈ st.visited :=
        inv.hstack _ (by rw [hst]; exact List.mem_cons_self _ _)
      have hacell : ((r, c) : Coord) ∈ cellsF rows cols := inv.hsub hamem
      have hbcell : ((r + d0.1, c + d0.2.1) : Coord) ∈ cellsF rows cols :=
        mem_cellsF.mpr ⟨h1, h2, h3, h4⟩
      have hab : ((r, c) : Coord) ≠ (r + d0.1, c + d0.2.1) := by
        intro hcon
        exact h5 (hcon ▸ hamem)
      have hvis : (carveStep rows cols choose st).visited
          = insert ((r + d0.1, c + d0.2.1) : Coord) st.visited := by
        simp only [carveStep, hst, if_neg hlen, he]
      have hstk : (carveStep rows cols choose st).stack
          = ((r + d0.1, c + d0.2.1) : Coord) :: st.stack := by
        simp only [carveStep, hst, if_neg hlen, he]
      have hwalls : (carveStep rows cols choose st).walls = fun x =>
          if x = ((r + d0.1, c + d0.2.1) : Coord) then
            clearBit (st.walls (r + d0.1, c + d0.2.1)) d0.2.2.2
          else if x = ((r, c) : Coord) then clearBit (st.walls (r, c)) d0.2.2.1
          else st.walls x := by
        simp only [carveStep, hst, if_neg hlen]
        rw [he]
        dsimp only
        funext x
        simp only [Function.update_apply]
        rw [if_neg (show ((r + d0.1, c + d0.2.1) : Coord) ≠ (r, c) from Ne.symm hab)]
      have hmono : ∀ x y : Coord, openAdj rows cols st.walls x y →
          openAdj rows cols (carveStep rows cols choose st).walls x y := by
        rintro x y ⟨d, hd, hy, hbit, hb1, hb2, hb3, hb4⟩
        refine ⟨d, hd, hy, ?_, hb1, hb2, hb3, hb4⟩
        rw [hwalls]
        dsimp only
        by_cases hxb : x = ((r + d0.1, c + d0.2.1) : Coord)
        · rw [if_pos hxb]
          rw [hxb] at hbit
          exact clearBit_preserves_zero hbit
        · rw [if_neg hxb]
          by_cases hxa : x = ((r, c) : Coord)
          · rw [if_pos hxa]
            rw [hxa] at hbit
            exact clearBit_preserves_zero hbit
          · rw [if_neg hxa]
            exact hbit
      have hnewedge : openAdj rows cols (carveStep rows cols choose st).walls
          (r, c) (r + d0.1, c + d0.2.1) := by
        refine ⟨d0, hd0, rfl, ?_, h1, h2, h3, h4⟩
        rw [hwalls]
        dsimp only
        rw [if_neg hab, if_pos rfl]
        rw [clearBit, Nat.land_assoc, DIRS_bit_self d0 hd0, Nat.and_zero]
      constructor
      · rw [hvis]
        exact Finset.mem_insert_of_mem inv.hstart
      · rw [hvis]
        intro p hp
        rcases Finset.mem_insert.mp hp with rfl | hp
        · exact hbcell
        · exact inv.hsub hp
      · rw [hstk, hvis]
        intro p hp
        rcases List.mem_cons.mp hp with rfl | hp
        · exact Finset.mem_insert_self _ _
        · exact Finset.mem_insert_of_mem (inv.hstack p hp)
      · rw [hstk]
        exact List.nodup_cons.mpr ⟨fun hc => h5 (inv.hstack _ hc), inv.hnodup⟩
      · rw [hvis, hwalls]
        intro p hpcell hpnin
        have hpb : p ≠ ((r + d0.1, c + d0.2.1) : Coord) :=
          fun hc => hpnin (hc ▸ Finset.mem_insert_self _ _)
        have hpv : p ∉ st.visited := fun hc => hpnin (Finset.mem_insert_of_mem hc)
        have hpa : p ≠ ((r, c) : Coord) := fun hc => hpv (hc ▸ hamem)
        dsimp only
        rw [if_neg hpb, if_neg hpa]
        exact inv.hfull p hpcell hpv
      · rw [hwalls]
        exact wallSymm_carve (a := ((r, c) : Coord)) hd0 inv.hsymm
      · rw [hvis, hstk]
        intro p hpv hpns d hd hqcell
        have hpb : p ≠ ((r + d0.1, c + d0.2.1) : Coord) :=
          fun hc => hpns (hc ▸ List.mem_cons_self _ _)
        have hpv' : p ∈ st.visited := by
          rcases Finset.mem_insert.mp hpv with rfl | h
          · exact absurd rfl hpb
          · exact h
        have hpns' : p ∉ st.stack := fun hc => hpns (List.mem_cons_of_mem _ hc)
        exact Finset.mem_insert_of_mem (inv.hclosed p hpv' hpns' d hd hqcell)
      · rw [hvis]
        intro p hpv
        rcases Finset.mem_insert.mp hpv with rfl | hp
        · exact Relation.ReflTransGen.tail
            ((inv.hconn _ hamem).mono (fun x y h => hmono x y h)) hnewedge
        · exact (inv.hconn p hp).mono (fun x y h => hmono x y h)
      · rw [hvis, hwalls]
        have hcnt := openEdgeCount_carve hd0 hacell hbcell
          (inv.hfull _ hbcell h5) inv.hsymm
        rw [hcnt, Finset.card_insert_of_not_mem h5]
        have := inv.hcount
        omega

/-- A nonempty neighbor-closed subset of the cell grid is the whole grid. -/
theorem visited_closure {rows cols : ℤ} {s0 : Coord} {V : Finset Coord}
    (hs0 : s0 ∈ V) (hs0c : s0 ∈ cellsF rows cols)
    (hcl : ∀ p ∈ V, ∀ d ∈ DIRS, (p.1 + d.1, p.2 + d.2.1) ∈ cellsF rows cols →
      (p.1 + d.1, p.2 + d.2.1) ∈ V) :
    ∀ q ∈ cellsF rows cols, q ∈ V := by
  obtain ⟨sb1, sb2, sb3, sb4⟩ := mem_cellsF.mp hs0c
  -- step lemmas in the four directions
  have stepS : ∀ x1 x2 : ℤ, ((x1, x2) : Coord) ∈ V →
      ((x1 + 1, x2 + 0) : Coord) ∈ cellsF rows cols →
      ((x1 + 1, x2 + 0) : Coord) ∈ V :=
    fun x1 x2 hx hc => hcl (x1, x2) hx (1, 0, S, N) (by simp [DIRS]) hc
  have stepN : ∀ x1 x2 : ℤ, ((x1, x2) : Coord) ∈ V →
      ((x1 + -1, x2 + 0) : Coord) ∈ cellsF rows cols →
      ((x1 + -1, x2 + 0) : Coord) ∈ V :=
    fun x1 x2 hx hc => hcl (x1, x2) hx (-1, 0, N, S) (by simp [DIRS]) hc
  have stepE : ∀ x1 x2 : ℤ, ((x1, x2) : Coord) ∈ V →
      ((x1 + 0, x2 + 1) : Coord) ∈ cellsF rows cols →
      ((x1 + 0, x2 + 1) : Coord) ∈ V :=
    fun x1 x2 hx hc => hcl (x1, x2) hx (0, 1, E, W) (by simp [DIRS]) hc
  have stepW : ∀ x1 x2 : ℤ, ((x1, x2) : Coord) ∈ V →
      ((x1 + 0, x2 + -1) : Coord) ∈ cellsF rows cols →
      ((x1 + 0, x2 + -1) : Coord) ∈ V :=
    fun x1 x2 hx hc => hcl (x1, x2) hx (0, -1, W, E) (by simp [DIRS]) hc
  -- walk along a column (fixed second coordinate)
  have hcol : ∀ k : ℕ, ∀ r : ℤ, (r = s0.1 + k ∨ r = s0.1 - k) →
      ((r, s0.2) : Coord) ∈ cellsF rows cols → ((r, s0.2) : Coord) ∈ V := by
    intro k
    induction k with
    | zero =>
      intro r hr _
      have : r = s0.1 := by omega
      subst this
      simpa using hs0
    | succ k ih =>
      intro r hr hrc
      obtain ⟨rb1, rb2, rb3, rb4⟩ := mem_cellsF.mp hrc
      dsimp only at rb1 rb2 rb3 rb4
      rcases hr with hr | hr
      · have hprev : ((s0.1 + k, s0.2) : Coord) ∈ cellsF rows cols :=
          mem_cellsF.mpr ⟨by omega, by omega, by omega, by omega⟩
        have hpv := ih (s0.1 + k) (Or.inl rfl) hprev
        have := stepS (s0.1 + k) s0.2 hpv
          (by refine mem_cellsF.mpr ⟨by omega, by omega, by omega, by omega⟩)
        have hcast : ((s0.1 + k + 1, s0.2 + 0) : Coord) = (r, s0.2) := by
          simp only [Prod.mk.injEq]
          exact ⟨by omega, by omega⟩
        rw [hcast] at this
        exact this
      · have hprev : ((s0.1 - k, s0.2) : Coord) ∈ cellsF rows cols :=
          mem_cellsF.mpr ⟨by omega, by omega, by omega, by omega⟩
        have hpv := ih (s0.1 - k) (Or.inr rfl) hprev
        have := stepN (s0.1 - k) s0.2 hpv
          (by refine mem_cellsF.mpr ⟨by omega, by omega, by omega, by omega⟩)
        have hcast : ((s0.1 - k + -1, s0.2 + 0) : Coord) = (r, s0.2) := by
          simp only [Prod.mk.injEq]
          exact ⟨by omega, by omega⟩
        rw [hcast] at this
        exact this
  -- walk along a row from any reached column cell
  have hrow : ∀ (r : ℤ), ((r, s0.2) : Coord) ∈ V → 0 ≤ r → r < rows →
      ∀ k : ℕ, ∀ c : ℤ, (c = s0.2 + k ∨ c = s0.2 - k) →
      ((r, c) : Coord) ∈ cellsF rows cols → ((r, c) : Coord) ∈ V := by
    intro r hrv hr0 hrr k
    induction k with
    | zero =>
      intro c hc _
      have : c = s0.2 := by omega
      subst this
      exact hrv
    | succ k ih =>
      intro c hc hcc
      obtain ⟨cb1, cb2, cb3, cb4⟩ := mem_cellsF.mp hcc
      dsimp only at cb1 cb2 cb3 cb4
      rcases hc with hc | hc
      · have hprev : ((r, s0.2 + k) : Coord) ∈ cellsF rows cols :=
          mem_cellsF.mpr ⟨by omega, by omega, by omega, by omega⟩
        have hpv := ih (s0.2 + k) (Or.inl rfl) hprev
        have := stepE r (s0.2 + k) hpv
          (by refine mem_cellsF.mpr ⟨by omega, by omega, by omega, by omega⟩)
        have hcast : ((r + 0, s0.2 + k + 1) : Coord) = (r, c) := by
          simp only [Prod.mk.injEq]
          exact ⟨by omega, by omega⟩
        rw [hcast] at this
        exact this
      · have hprev : ((r, s0.2 - k) : Coord) ∈ cellsF rows cols :=
          mem_cellsF.mpr ⟨by omega, by omega, by omega, by omega⟩
        have hpv := ih (s0.2 - k) (Or.inr rfl) hprev
        have := stepW r (s0.2 - k) hpv
          (by refine mem_cellsF.mpr ⟨by omega, by omega, by omega, by omega⟩)
        have hcast : ((r + 0, s0.2 - k + -1) : Coord) = (r, c) := by
          simp only [Prod.mk.injEq]
          exact ⟨by omega, by omega⟩
        rw [hcast] at this
        exact this
  intro q hq
  obtain ⟨qb1, qb2, qb3, qb4⟩ := mem_cellsF.mp hq
  have hmid : ((q.1, s0.2) : Coord) ∈ V := by
    refine hcol (q.1 - s0.1).natAbs q.1 ?_ (mem_cellsF.mpr ⟨qb1, qb2, sb3, sb4⟩)
    rcases Int.natAbs_eq (q.1 - s0.1) with h | h
    · exact Or.inl (by omega)
    · exact Or.inr (by omega)
  have : ((q.1, q.2) : Coord) ∈ V := by
    refine hrow q.1 hmid qb1 qb2 (q.2 - s0.2).natAbs q.2 ?_
      (mem_cellsF.mpr ⟨qb1, qb2, qb3, qb4⟩)
    rcases Int.natAbs_eq (q.2 - s0.2) with h | h
    · exact Or.inl (by omega)
    · exact Or.inr (by omega)
  simpa using this

/-- The carving invariant holds in the initial state. -/
theorem GenInv_init {rows cols : ℤ} {start : Coord}
    (hstart : start ∈ cellsF rows cols) :
    GenInv rows cols start
      { walls := fun _ => N ||| E ||| S ||| W
        visited := {start}
        stack := [start]
        step := 0 } := by
  have hmask : (N ||| E ||| S ||| W : ℕ) = 15 := by decide
  refine ⟨Finset.mem_singleton_self _, ?_, ?_, List.nodup_singleton _, ?_, ?_, ?_, ?_, ?_⟩
  · intro p hp
    rcases Finset.mem_singleton.mp hp with rfl
    exact hstart
  · intro p hp
    rcases List.mem_singleton.mp hp with rfl
    exact Finset.mem_singleton_self _
  · intro p _ _
    exact hmask
  · intro p _ d hd _
    have hbits : ∀ d ∈ DIRS, ((15 : ℕ) &&& d.2.2.1 ≠ 0) ∧ ((15 : ℕ) &&& d.2.2.2 ≠ 0) := by
      decide
    rw [hmask]
    exact iff_of_true ((hbits d hd).1) ((hbits d hd).2)
  · intro p hp hps
    exact absurd (List.mem_singleton.mpr
      (Finset.mem_singleton.mp hp)) hps
  · intro p hp
    rcases Finset.mem_singleton.mp hp with rfl
    exact Relation.ReflTransGen.refl
  · have hterm : ∀ p ∈ cellsF rows cols, edgeTerm ((fun _ => N ||| E ||| S ||| W) p) p = 0 := by
      intro p _
      rw [show ((fun _ => N ||| E ||| S ||| W) p : ℕ) = 15 from hmask]
      unfold edgeTerm
      rw [if_neg (fun hc => absurd hc.1 (by decide)),
        if_neg (fun hc => absurd hc.1 (by decide))]
    unfold openEdgeCount
    rw [Finset.sum_congr rfl hterm, Finset.sum_const_zero, Finset.card_singleton]

/-- The carving loop preserves the invariant and terminates with an
empty stack. -/
theorem carveLoop_inv {rows cols : ℤ} {start : Coord} {choose : ℕ → ℕ} :
    ∀ (fuel : ℕ) (st stF : GenState),
      carveLoop rows cols choose fuel st = some stF →
      GenInv rows cols start st →
      GenInv rows cols start stF ∧ stF.stack = [] := by
  intro fuel
  induction fuel with
  | zero =>
    intro st stF h
    simp [carveLoop] at h
  | succ fuel ih =>
    intro st stF h hinv
    rcases hst : st.stack with _ | ⟨p, rest⟩
    · simp only [carveLoop, hst, Option.some.injEq] at h
      rw [← h]
      exact ⟨hinv, hst⟩
    · simp only [carveLoop, hst] at h
      exact ih _ _ h (GenInv_carveStep hinv)

/-- Full specification of `generate_maze` on valid dimensions: it
returns a maze whose open-edge graph connects the start cell to every
cell, with exactly one fewer open edge than cells, symmetric walls,
and the cells outside the visited grid untouched. -/
theorem generate_maze_spec {rows cols : ℤ} (choose : ℕ → ℕ) (start : Coord)
    (goal : Option Coord) (h2r : 2 ≤ rows) (h2c : 2 ≤ cols)
    (hstart : start ∈ cellsF rows cols) :
    ∃ m : Maze, generate_maze rows cols choose start goal = some m ∧
      m.rows = rows ∧ m.cols = cols ∧ m.start = start ∧
      m.goal = goal.getD (rows - 1, cols - 1) ∧
      wallSymm rows cols m.walls ∧
      (∀ p ∈ cellsF rows cols,
        Relation.ReflTransGen (openAdj rows cols m.walls) start p) ∧
      openEdgeCount rows cols m.walls + 1 = rows.toNat * cols.toNat := by
  have hno : ¬ (rows < 2 ∨ cols < 2) := by omega
  have hinv0 := @GenInv_init rows cols start hstart
  have hmeas : genMeasure rows cols
      { walls := fun _ => N ||| E ||| S ||| W
        visited := ({start} : Finset Coord)
        stack := [start]
        step := 0 } < 2 * (rows.toNat * cols.toNat) + 2 := by
    unfold genMeasure
    have hsub : ({start} : Finset Coord) ⊆ cellsF rows cols := by
      intro p hp
      rcases Finset.mem_singleton.mp hp with rfl
      exact hstart
    have hcard : (cellsF rows cols \ {start}).card
        = (cellsF rows cols).card - 1 := by
      rw [Finset.card_sdiff hsub, Finset.card_singleton]
    rw [hcard, cellsF_card]
    simp only [List.length_singleton]
    have hpos : 1 ≤ rows.toNat * cols.toNat := by
      have h1 : (1 : ℕ) ≤ rows.toNat := by omega
      have h2 : (1 : ℕ) ≤ cols.toNat := by omega
      exact Nat.one_le_iff_ne_zero.mpr (by positivity)
    omega
  obtain ⟨stF, hF⟩ := @carveLoop_isSome rows cols choose _ _ hmeas
  obtain ⟨hinvF, hstkF⟩ := carveLoop_inv _ _ _ hF hinv0
  have hall : ∀ q ∈ cellsF rows cols, q ∈ stF.visited := by
    refine visited_closure hinvF.hstart (hinvF.hsub hinvF.hstart) ?_
    intro p hp d hd hq
    exact hinvF.hclosed p hp (by rw [hstkF]; exact List.not_mem_nil _) d hd hq
  have hveq : stF.visited = cellsF rows cols :=
    Finset.Subset.antisymm hinvF.hsub (fun q hq => hall q hq)
  refine ⟨{ rows := rows, cols := cols, walls := stF.walls, start := start
            goal := goal.getD (rows - 1, cols - 1) }, ?_, rfl, rfl, rfl, rfl,
    hinvF.hsymm, ?_, ?_⟩
  · unfold generate_maze
    rw [if_neg hno, hF]
  · intro p hp
    exact hinvF.hconn p (hall p hp)
  · have := hinvF.hcount
    rw [hveq, cellsF_card] at this
    exact this

/-- Over symmetric walls, open adjacency from an in-grid cell can be
walked backwards. -/
theorem openAdj_symm {rows cols : ℤ} {w : Coord → ℕ} (hs : wallSymm rows cols w)
    {x y : Coord} (hx : x ∈ cellsF rows cols)
    (h : openAdj rows cols w x y) : openAdj rows cols w y x := by
  rcases h with ⟨d, hd, hy, hbit, hb1, hb2, hb3, hb4⟩
  have hycell : y ∈ cellsF rows cols := mem_cellsF.mpr ⟨hb1, hb2, hb3, hb4⟩
  have hyc : (x.1 + d.1, x.2 + d.2.1) ∈ cellsF rows cols := hy ▸ hycell
  have hiff := hs x hx d hd hyc
  have hbit' : w (x.1 + d.1, x.2 + d.2.1) &&& d.2.2.2 = 0 := by
    by_contra hcon
    exact absurd hbit (fun hc => (hiff.mpr hcon) hc)
  obtain ⟨xb1, xb2, xb3, xb4⟩ := mem_cellsF.mp hx
  simp only [DIRS, N, E, S, W, List.mem_cons, List.not_mem_nil, or_false] at hd
  subst hy
  rcases hd with rfl | rfl | rfl | rfl
  · refine ⟨(1, 0, 4, 1), by simp [DIRS, N, E, S, W], ?_, ?_, xb1, xb2, xb3, xb4⟩
    · rw [Prod.ext_iff]
      dsimp only
      exact ⟨by omega, by omega⟩
    · exact hbit'
  · refine ⟨(0, -1, 8, 2), by simp [DIRS, N, E, S, W], ?_, ?_, xb1, xb2, xb3, xb4⟩
    · rw [Prod.ext_iff]
      dsimp only
      exact ⟨by omega, by omega⟩
    · exact hbit'
  · refine ⟨(-1, 0, 1, 4), by simp [DIRS, N, E, S, W], ?_, ?_, xb1, xb2, xb3, xb4⟩
    · rw [Prod.ext_iff]
      dsimp only
      exact ⟨by omega, by omega⟩
    · exact hbit'
  · refine ⟨(0, 1, 2, 8), by simp [DIRS, N, E, S, W], ?_, ?_, xb1, xb2, xb3, xb4⟩
    · rw [Prod.ext_iff]
      dsimp only
      exact ⟨by omega, by omega⟩
    · exact hbit'

/-- Every node reached from an in-grid start stays in the grid. -/
theorem reach_mem_cells {rows cols : ℤ} {w : Coord → ℕ} {s p : Coord}
    (hs : s ∈ cellsF rows cols)
    (h : Relation.ReflTransGen (openAdj rows cols w) s p) :
    p ∈ cellsF rows cols := by
  induction h with
  | refl => exact hs
  | tail _ hbc _ =>
    rcases hbc with ⟨d, _, hy, _, hb1, hb2, hb3, hb4⟩
    exact mem_cellsF.mpr ⟨hb1, hb2, hb3, hb4⟩

/-- Over symmetric walls, reachability from an in-grid start reverses. -/
theorem reach_reverse {rows cols : ℤ} {w : Coord → ℕ} (hsym : wallSymm rows cols w)
    {s p : Coord} (hs : s ∈ cellsF rows cols)
    (h : Relation.ReflTransGen (openAdj rows cols w) s p) :
    Relation.ReflTransGen (openAdj rows cols w) p s := by
  induction h with
  | refl => exact Relation.ReflTransGen.refl
  | tail hab hbc ih =>
    rename_i b c
    have hbcell := reach_mem_cells hs hab
    exact Relation.ReflTransGen.head (openAdj_symm hsym hbcell hbc) ih

/-- **C1.** For every `rows ≥ 2`, `cols ≥ 2` and every seed (modelled
by an arbitrary RNG oracle), `generate_maze` succeeds and the returned
maze's open-cell adjacency graph — edges being the absence of a wall
between grid-adjacent cells — is connected over all cells and has
exactly `rows*cols - 1` open edges: it is a spanning tree, so exactly
one simple path connects any two cells. -/
theorem generate_maze_spanning_tree :
    ∀ (rows cols : ℤ) (choose : ℕ → ℕ), 2 ≤ rows → 2 ≤ cols →
      ∃ m : Maze, generate_maze rows cols choose (0, 0) none = some m ∧
        (∀ p ∈ cellsF rows cols, ∀ q ∈ cellsF rows cols,
          Relation.ReflTransGen (openAdj rows cols m.walls) p q) ∧
        openEdgeCount rows cols m.walls = rows.toNat * cols.toNat - 1 := by
  intro rows cols choose h2r h2c
  have hstart : ((0, 0) : Coord) ∈ cellsF rows cols :=
    mem_cellsF.mpr ⟨le_refl _, by omega, le_refl _, by omega⟩
  obtain ⟨m, hm, -, -, -, -, hsym, hconn, hcount⟩ :=
    generate_maze_spec choose (0, 0) none h2r h2c hstart
  refine ⟨m, hm, ?_, by omega⟩
  intro p hp q hq
  exact (reach_reverse hsym hstart (hconn p hp)).trans (hconn q hq)

/-- Witness for C1 on a concrete 2×2 instance. -/
theorem generate_maze_spanning_tree_witness :
    ∃ m : Maze, generate_maze 2 2 (fun _ => 0) (0, 0) none = some m ∧
      (∀ p ∈ cellsF 2 2, ∀ q ∈ cellsF 2 2,
        Relation.ReflTransGen (openAdj 2 2 m.walls) p q) ∧
      openEdgeCount 2 2 m.walls = (2 : ℤ).toNat * (2 : ℤ).toNat - 1 :=
  generate_maze_spanning_tree 2 2 (fun _ => 0) (by norm_num) (by norm_num)

instance (rows cols : ℤ) (w : Coord → ℕ) : Decidable (wallSymm rows cols w) := by
  unfold wallSymm
  infer_instance

/-- **C9.** In every maze returned by `generate_maze`, the wall bit for
the shared side in one cell's mask agrees with the opposite-side bit in
the grid-adjacent neighbor's mask (no one-way walls); moreover a single
iteration of the carving loop preserves this symmetry, so it holds at
every intermediate step (each carve clears the facing bits of both
cells together). -/
theorem generate_maze_wall_symmetric :
    (∀ (rows cols : ℤ) (choose : ℕ → ℕ) (start : Coord) (goal : Option Coord)
      (m : Maze), 2 ≤ rows → 2 ≤ cols → start ∈ cellsF rows cols →
      generate_maze rows cols choose start goal = some m →
      ∀ p ∈ cellsF rows cols, ∀ d ∈ DIRS,
        (p.1 + d.1, p.2 + d.2.1) ∈ cellsF rows cols →
        (has_wall m p.1 p.2 d.2.2.1 ↔
          has_wall m (p.1 + d.1) (p.2 + d.2.1) d.2.2.2)) ∧
    (∀ (rows cols : ℤ) (choose : ℕ → ℕ) (st : GenState),
      wallSymm rows cols st.walls →
      wallSymm rows cols (carveStep rows cols choose st).walls) := by
  constructor
  · intro rows cols choose start goal m h2r h2c hstart hgen p hp d hd hq
    obtain ⟨m', hm', -, -, -, -, hsym, -, -⟩ :=
      generate_maze_spec choose start goal h2r h2c hstart
    rw [hgen] at hm'
    obtain rfl := Option.some.inj hm'
    exact hsym p hp d hd hq
  · intro rows cols choose st hsym
    rcases hst : st.stack with _ | ⟨⟨r, c⟩, rest⟩
    · have h0 : carveStep rows cols choose st = st := by
        simp only [carveStep, hst]
      rw [h0]
      exact hsym
    · by_cases hlen : (unvisitedNeighbors rows cols st r c).length = 0
      · have h0 : carveStep rows cols choose st = { st with stack := rest } := by
          simp only [carveStep, hst, if_pos hlen]
        rw [h0]
        exact hsym
      · have hnil : unvisitedNeighbors rows cols st r c ≠ [] := fun hc => by
          rw [hc] at hlen
          exact hlen rfl
        have hmem := getD_mem_of_length_pos hnil (choose st.step) (0, 0, 0, 0)
        rcases mem_unvisitedNeighbors.mp hmem with ⟨d0, hd0, he, h1, h2, h3, h4, h5⟩
        have hab : ((r, c) : Coord) ≠ (r + d0.1, c + d0.2.1) := by
          have hdelta : ∀ d ∈ DIRS, ¬ (d.1 = 0 ∧ d.2.1 = 0) := by decide
          intro hcon
          have hc1 : r = r + d0.1 := congrArg Prod.fst hcon
          have hc2 : c = c + d0.2.1 := congrArg Prod.snd hcon
          exact hdelta d0 hd0 ⟨by omega, by omega⟩
        have hwalls : (carveStep rows cols choose st).walls = fun x =>
            if x = ((r + d0.1, c + d0.2.1) : Coord) then
              clearBit (st.walls (r + d0.1, c + d0.2.1)) d0.2.2.2
            else if x = ((r, c) : Coord) then clearBit (st.walls (r, c)) d0.2.2.1
            else st.walls x := by
          simp only [carveStep, hst, if_neg hlen]
          rw [he]
          dsimp only
          funext x
          simp only [Function.update_apply]
          rw [if_neg (show ((r + d0.1, c + d0.2.1) : Coord) ≠ (r, c) from Ne.symm hab)]
        rw [hwalls]
        exact wallSymm_carve (a := ((r, c) : Coord)) hd0 hsym

/-- Witness for C9: the carve-step preservation applied at a concrete
state, and the generated-maze symmetry at a concrete 2×2 maze. -/
theorem generate_maze_wall_symmetric_witness :
    wallSymm 2 2 (carveStep 2 2 (fun _ => 0)
      { walls := fun _ => 15
        visited := {((0, 0) : Coord)}
        stack := [((0, 0) : Coord)]
        step := 0 }).walls :=
  generate_maze_wall_symmetric.2 2 2 (fun _ => 0) _ (by decide)

/-! ### Transition-function lemmas (C5) -/

theorem sumProbs_nil : sumProbs [] = 0 := rfl

theorem sumProbs_cons (k : Coord) (v : ℚ) (l : List (Coord × ℚ)) :
    sumProbs ((k, v) :: l) = v + sumProbs l := by
  simp [sumProbs]

theorem sumProbs_probAdd (key : Coord) (p : ℚ) (l : List (Coord × ℚ)) :
    sumProbs (probAdd key p l) = sumProbs l + p := by
  induction l with
  | nil => simp [probAdd, sumProbs]
  | cons kv rest ih =>
    rcases kv with ⟨k, v⟩
    by_cases hk : k = key
    · rw [probAdd, if_pos hk, sumProbs_cons, sumProbs_cons]
      ring
    · rw [probAdd, if_neg hk, sumProbs_cons, sumProbs_cons, ih]
      ring

theorem plookup_probAdd (key c : Coord) (p : ℚ) (l : List (Coord × ℚ)) :
    plookup c (probAdd key p l) = plookup c l + (if c = key then p else 0) := by
  induction l with
  | nil =>
    by_cases hc : key = c
    · subst hc
      simp [probAdd, plookup]
    · have hc2 : ¬ c = key := fun hcc => hc hcc.symm
      simp [probAdd, plookup, hc, hc2]
  | cons kv rest ih =>
    rcases kv with ⟨k, v⟩
    by_cases hk : k = key
    · subst hk
      by_cases hc : k = c
      · rw [probAdd, if_pos rfl, plookup, if_pos hc, plookup, if_pos hc,
          if_pos (by rw [hc])]
      · rw [probAdd, if_pos rfl, plookup, if_neg hc, plookup, if_neg hc,
          if_neg (fun hcc => hc hcc.symm)]
        ring
    · by_cases hc : k = c
      · rw [probAdd, if_neg hk, plookup, if_pos hc, plookup, if_pos hc]
        have : ¬ c = key := fun hcc => hk (hc.trans hcc)
        rw [if_neg this]
        ring
      · rw [probAdd, if_neg hk, plookup, if_neg hc, plookup, if_neg hc, ih]

theorem length_probAdd (key : Coord) (p : ℚ) (l : List (Coord × ℚ)) :
    (probAdd key p l).length ≤ l.length + 1 := by
  induction l with
  | nil => simp [probAdd]
  | cons kv rest ih =>
    rcases kv with ⟨k, v⟩
    by_cases hk : k = key
    · rw [probAdd, if_pos hk]
      simp
    · rw [probAdd, if_neg hk]
      simp only [List.length_cons]
      omega

theorem mem_keys_probAdd {y key : Coord} {p : ℚ} {l : List (Coord × ℚ)} :
    y ∈ (probAdd key p l).map Prod.fst ↔ y ∈ l.map Prod.fst ∨ y = key := by
  induction l with
  | nil => simp [probAdd]
  | cons kv rest ih =>
    rcases kv with ⟨k, v⟩
    by_cases hk : k = key
    · subst hk
      simp [probAdd]
      tauto
    · simp [probAdd, hk, ih]
      tauto

theorem keysNodup_probAdd {key : Coord} {p : ℚ} {l : List (Coord × ℚ)}
    (h : (l.map Prod.fst).Nodup) : ((probAdd key p l).map Prod.fst).Nodup := by
  induction l with
  | nil => simp [probAdd]
  | cons kv rest ih =>
    rcases kv with ⟨k, v⟩
    simp only [List.map_cons, List.nodup_cons] at h
    by_cases hk : k = key
    · subst hk
      simpa [probAdd, List.nodup_cons] using h
    · simp only [probAdd, if_neg hk, List.map_cons, List.nodup_cons]
      refine ⟨fun hc => ?_, ih h.2⟩
      rcases mem_keys_probAdd.mp hc with hc | hc
      · exact h.1 hc
      · exact hk hc

/-- **C5.** For every state and action, `transitions(s, a)` returns
outcome pairs whose probabilities sum to 1: exactly `[(s, 1)]` when `s`
is the goal (terminal), exactly `[(move(s,a), 1)]` when
`slip_probability ≤ 0`, and otherwise at most three outcomes with
pairwise-distinct cells, each entry's probability being the sum of the
contributions landing on that cell — `1 - slip` for the intended action
and `slip/2` for each of the two fixed orthogonal side actions. -/
theorem env_transitions_spec :
    ∀ (env : MazeEnv) (s : Coord) (a : Action),
      sumProbs (env.transitions s a) = 1 ∧
      (env.is_goal s → env.transitions s a = [(s, 1)]) ∧
      (¬ env.is_goal s → env.slip_prob ≤ 0 →
        env.transitions s a = [(env.move s a, 1)]) ∧
      (env.transitions s a).length ≤ 3 ∧
      ((env.transitions s a).map Prod.fst).Nodup ∧
      (¬ env.is_goal s → 0 < env.slip_prob → ∀ c : Coord,
        plookup c (env.transitions s a)
          = (if c = env.move s a then 1 - env.slip_prob else 0)
            + (if c = env.move s (sideActions a).1 then env.slip_prob / 2 else 0)
            + (if c = env.move s (sideActions a).2 then env.slip_prob / 2 else 0)) := by
  intro env s a
  by_cases hg : env.is_goal s
  · rw [MazeEnv.transitions, if_pos hg]
    exact ⟨by rw [sumProbs_cons, sumProbs_nil]; ring, fun _ => rfl,
      fun h _ => absurd hg h, by simp, by simp,
      fun h _ => absurd hg h⟩
  · by_cases hsl : env.slip_prob ≤ 0
    · rw [MazeEnv.transitions, if_neg hg, if_pos hsl]
      exact ⟨by rw [sumProbs_cons, sumProbs_nil]; ring, fun h => absurd h hg,
        fun _ _ => rfl, by simp, by simp,
        fun _ hpos => absurd hsl (not_le.mpr hpos)⟩
    · rw [MazeEnv.transitions, if_neg hg, if_neg hsl]
      refine ⟨?_, fun h => absurd h hg, fun _ h => absurd h hsl, ?_, ?_, ?_⟩
      · rw [sumProbs_probAdd, sumProbs_probAdd, sumProbs_probAdd, sumProbs_nil]
        ring
      · calc (probAdd (env.move s (sideActions a).2) (env.slip_prob / 2)
              (probAdd (env.move s (sideActions a).1) (env.slip_prob / 2)
                (probAdd (env.move s a) (1 - env.slip_prob) []))).length
            ≤ (probAdd (env.move s (sideActions a).1) (env.slip_prob / 2)
                (probAdd (env.move s a) (1 - env.slip_prob) [])).length + 1 :=
              length_probAdd _ _ _
          _ ≤ ((probAdd (env.move s a) (1 - env.slip_prob) []).length + 1) + 1 :=
              by have := length_probAdd (env.move s (sideActions a).1)
                   (env.slip_prob / 2)
                   (probAdd (env.move s a) (1 - env.slip_prob) [])
                 omega
          _ ≤ 3 := by simp [probAdd]
      · exact keysNodup_probAdd (keysNodup_probAdd (keysNodup_probAdd (by simp)))
      · intro _ _ c
        rw [plookup_probAdd, plookup_probAdd, plookup_probAdd]
        show plookup c [] + _ + _ + _ = _
        rw [plookup]
        ring

/-- Witness for C5 on a concrete stochastic environment (all-walls 2×2
maze, slip probability 1/10): every move from the corner bounces, so
the three outcomes merge into the single entry `((0,0), 1)`. -/
theorem env_transitions_spec_witness :
    sumProbs (({ maze := ⟨2, 2, fun _ => 15, (0, 0), (1, 1)⟩, slip_prob := 1/10 }
        : MazeEnv).transitions (0, 0) Action.U) = 1 ∧
    plookup (0, 0) (({ maze := ⟨2, 2, fun _ => 15, (0, 0), (1, 1)⟩, slip_prob := 1/10 }
        : MazeEnv).transitions (0, 0) Action.U) = 1 := by
  have h := env_transitions_spec
    ({ maze := ⟨2, 2, fun _ => 15, (0, 0), (1, 1)⟩, slip_prob := 1/10 } : MazeEnv)
    (0, 0) Action.U
  refine ⟨h.1, ?_⟩
  have h6 := h.2.2.2.2.2 (by decide) (by norm_num) (0, 0)
  rw [h6]
  have hmU : ({ maze := ⟨2, 2, fun _ => 15, (0, 0), (1, 1)⟩, slip_prob := 1/10 }
      : MazeEnv).move (0, 0) Action.U = (0, 0) := by decide
  have hmL : ({ maze := ⟨2, 2, fun _ => 15, (0, 0), (1, 1)⟩, slip_prob := 1/10 }
      : MazeEnv).move (0, 0) Action.L = (0, 0) := by decide
  have hmR : ({ maze := ⟨2, 2, fun _ => 15, (0, 0), (1, 1)⟩, slip_prob := 1/10 }
      : MazeEnv).move (0, 0) Action.R = (0, 0) := by decide
  simp only [sideActions]
  rw [if_pos hmU.symm, if_pos hmL.symm, if_pos hmR.symm]
  norm_num

/-! ### Solver fail-open lemmas -/

/-- A successful `popAux` strictly shrinks the physical heap and
returns a subset of it. -/
theorem popAux_shrink {α : Type} [DecidableEq α] {best : List (α × ℚ)}
    {fuel : ℕ} {heap : List (PQItem α)} {x : α} {p : ℚ} {rest : List (PQItem α)}
    (h : popAux best fuel heap = some (x, p, rest)) :
    rest.length < heap.length ∧ ∀ e ∈ rest, e ∈ heap := by
  induction fuel generalizing heap with
  | zero => simp [popAux] at h
  | succ fuel ih =>
    rcases hext : extractMin heap with _ | ⟨top, r⟩
    · simp only [popAux, hext, reduceCtorEq] at h
    · simp only [popAux, hext] at h
      have hperm := extractMin_perm hext
      have hlen := extractMin_length hext
      split at h
      · simp only [Option.some.injEq, Prod.mk.injEq] at h
        obtain ⟨rfl, rfl, rfl⟩ := h
        exact ⟨by omega, fun e he => hperm.mem_iff.mpr (List.mem_cons_of_mem _ he)⟩
      · rcases ih h with ⟨hl, hm⟩
        exact ⟨by omega, fun e he =>
          hperm.mem_iff.mpr (List.mem_cons_of_mem _ (hm e he))⟩

/-- A successful `pop` strictly shrinks the physical heap, keeps a
subset of it, and the returned item is the payload of a heap entry. -/
theorem pop_shrink {α : Type} [DecidableEq α] {q q' : PriorityQueue α} {x : α}
    {p : ℚ} (h : q.pop = (some (x, p), q')) :
    q'.heap.length < q.heap.length ∧ (∀ e ∈ q'.heap, e ∈ q.heap) ∧
      ∃ e ∈ q.heap, e.item = x := by
  unfold PriorityQueue.pop at h
  rcases hpa : popAux q.best q.heap.length q.heap with _ | ⟨x', p', rest⟩
  · simp only [hpa] at h
    simp at h
  · simp only [hpa] at h
    simp only [Prod.mk.injEq, Option.some.injEq] at h
    obtain ⟨⟨rfl, rfl⟩, rfl⟩ := h
    rcases popAux_shrink hpa with ⟨hl, hm⟩
    rcases popAux_some_min (Nat.le_refl _) hpa with ⟨e, he, _, hx, _⟩
    exact ⟨hl, hm, e, he, hx⟩

/-- `env.neighbors s` of an in-grid cell lists exactly in-grid cells
that are open-adjacent to `s`. -/
theorem mem_neighbors_spec {env : MazeEnv} {s nb : Coord}
    (hs : s ∈ cellsF env.maze.rows env.maze.cols)
    (h : nb ∈ env.neighbors s) :
    nb ∈ cellsF env.maze.rows env.maze.cols ∧
      openAdj env.maze.rows env.maze.cols env.maze.walls s nb := by
  rcases mem_cellsF.mp hs with ⟨hr0, hr1, hc0, hc1⟩
  simp only [MazeEnv.neighbors, List.mem_append] at h
  rcases h with ((h | h) | h) | h
  · by_cases hcnd : ¬ has_wall env.maze s.1 s.2 N ∧ 0 ≤ s.1 - 1
    · rw [if_pos hcnd] at h
      rcases List.mem_singleton.mp h with rfl
      have hw : env.maze.walls s &&& N = 0 := by
        have h2 := hcnd.1
        unfold has_wall at h2
        exact not_ne_iff.mp h2
      exact ⟨mem_cellsF.mpr (by dsimp only; omega),
        ⟨(-1, 0, N, S), by decide,
          by rw [Prod.ext_iff]; dsimp only; omega, hw, by dsimp only; omega⟩⟩
    · rw [if_neg hcnd] at h
      exact absurd h (List.not_mem_nil _)
  · by_cases hcnd : ¬ has_wall env.maze s.1 s.2 E ∧ s.2 + 1 < env.maze.cols
    · rw [if_pos hcnd] at h
      rcases List.mem_singleton.mp h with rfl
      have hw : env.maze.walls s &&& E = 0 := by
        have h2 := hcnd.1
        unfold has_wall at h2
        exact not_ne_iff.mp h2
      exact ⟨mem_cellsF.mpr (by dsimp only; omega),
        ⟨(0, 1, E, W), by decide,
          by rw [Prod.ext_iff]; dsimp only; omega, hw, by dsimp only; omega⟩⟩
    · rw [if_neg hcnd] at h
      exact absurd h (List.not_mem_nil _)
  · by_cases hcnd : ¬ has_wall env.maze s.1 s.2 S ∧ s.1 + 1 < env.maze.rows
    · rw [if_pos hcnd] at h
      rcases List.mem_singleton.mp h with rfl
      have hw : env.maze.walls s &&& S = 0 := by
        have h2 := hcnd.1
        unfold has_wall at h2
        exact not_ne_iff.mp h2
      exact ⟨mem_cellsF.mpr (by dsimp only; omega),
        ⟨(1, 0, S, N), by decide,
          by rw [Prod.ext_iff]; dsimp only; omega, hw, by dsimp only; omega⟩⟩
    · rw [if_neg hcnd] at h
      exact absurd h (List.not_mem_nil _)
  · by_cases hcnd : ¬ has_wall env.maze s.1 s.2 W ∧ 0 ≤ s.2 - 1
    · rw [if_pos hcnd] at h
      rcases List.mem_singleton.mp h with rfl
      have hw : env.maze.walls s &&& W = 0 := by
        have h2 := hcnd.1
        unfold has_wall at h2
        exact not_ne_iff.mp h2
      exact ⟨mem_cellsF.mpr (by dsimp only; omega),
        ⟨(0, -1, W, E), by decide,
          by rw [Prod.ext_iff]; dsimp only; omega, hw, by dsimp only; omega⟩⟩
    · rw [if_neg hcnd] at h
      exact absurd h (List.not_mem_nil _)

/-- A cell has at most four neighbors. -/
theorem neighbors_length_le (env : MazeEnv) (s : Coord) :
    (env.neighbors s).length ≤ 4 := by
  unfold MazeEnv.neighbors
  split_ifs <;>
    simp only [List.length_append, List.length_cons, List.length_nil] <;> omega

/-- The BFS neighbor loop preserves the search invariant and the
quantity `|q| + |cells \ visited|`. -/
theorem bfsExpand_fail_open {env : MazeEnv} {s : Coord} :
    ∀ (lst : List Coord) (st : BfsState) (m : RunMetrics),
      (∀ nb ∈ lst, nb ∈ cellsF env.maze.rows env.maze.cols ∧
        openAdj env.maze.rows env.maze.cols env.maze.walls s nb) →
      Relation.ReflTransGen (openAdj env.maze.rows env.maze.cols env.maze.walls)
        env.maze.start s →
      (∀ p ∈ st.q, p ∈ st.visited) →
      (∀ p ∈ st.visited, p ∈ cellsF env.maze.rows env.maze.cols) →
      (∀ p ∈ st.visited,
        Relation.ReflTransGen (openAdj env.maze.rows env.maze.cols env.maze.walls)
          env.maze.start p) →
      (∀ p ∈ (bfsExpand s lst st m).1.q, p ∈ (bfsExpand s lst st m).1.visited) ∧
      (∀ p ∈ (bfsExpand s lst st m).1.visited,
        p ∈ cellsF env.maze.rows env.maze.cols) ∧
      (∀ p ∈ (bfsExpand s lst st m).1.visited,
        Relation.ReflTransGen (openAdj env.maze.rows env.maze.cols env.maze.walls)
          env.maze.start p) ∧
      (bfsExpand s lst st m).1.q.length +
          (cellsF env.maze.rows env.maze.cols \ (bfsExpand s lst st m).1.visited).card
        = st.q.length +
          (cellsF env.maze.rows env.maze.cols \ st.visited).card := by
  intro lst
  induction lst with
  | nil =>
    intro st m _ _ hq hvc hvr
    exact ⟨hq, hvc, hvr, rfl⟩
  | cons nb rest ih =>
    intro st m hnb hreach hq hvc hvr
    by_cases hmem : nb ∈ st.visited
    · simp only [bfsExpand]
      rw [if_pos hmem]
      exact ih _ _ (fun x hx => hnb x (List.mem_cons_of_mem _ hx)) hreach hq hvc hvr
    · simp only [bfsExpand]
      rw [if_neg hmem]
      have hnb1 := hnb nb (List.mem_cons_self _ _)
      obtain ⟨ha, hb, hc, hd⟩ := ih
        { st with
          visited := insert nb st.visited
          parents := Function.update st.parents nb (some (some s))
          q := st.q ++ [nb] }
        { m with states_generated := m.states_generated + 1 }
        (fun x hx => hnb x (List.mem_cons_of_mem _ hx)) hreach
        (by
          intro p hp
          dsimp only at hp ⊢
          rcases List.mem_append.mp hp with hp | hp
          · exact Finset.mem_insert_of_mem (hq p hp)
          · rcases List.mem_singleton.mp hp with rfl
            exact Finset.mem_insert_self _ _)
        (by
          intro p hp
          dsimp only at hp
          rcases Finset.mem_insert.mp hp with rfl | hp
          · exact hnb1.1
          · exact hvc p hp)
        (by
          intro p hp
          dsimp only at hp
          rcases Finset.mem_insert.mp hp with rfl | hp
          · exact hreach.tail hnb1.2
          · exact hvr p hp)
      refine ⟨ha, hb, hc, ?_⟩
      rw [hd]
      have hnbc : nb ∈ cellsF env.maze.rows env.maze.cols \ st.visited :=
        Finset.mem_sdiff.mpr ⟨hnb1.1, hmem⟩
      have hcard : (cellsF env.maze.rows env.maze.cols \ insert nb st.visited).card + 1
          = (cellsF env.maze.rows env.maze.cols \ st.visited).card := by
        rw [Finset.sdiff_insert, Finset.card_erase_add_one hnbc]
      dsimp only
      simp only [List.length_append, List.length_cons, List.length_nil]
      omega

/-- If the goal is unreachable from the start, the BFS loop (given
fuel above its decreasing measure) terminates normally with an
unsolved, empty-path result. -/
theorem bfsLoop_fail_open {env : MazeEnv}
    (hgoal : ¬ Relation.ReflTransGen
      (openAdj env.maze.rows env.maze.cols env.maze.walls)
      env.maze.start env.maze.goal) :
    ∀ (fuel : ℕ) (st : BfsState) (m : RunMetrics),
      (∀ p ∈ st.q, p ∈ st.visited) →
      (∀ p ∈ st.visited, p ∈ cellsF env.maze.rows env.maze.cols) →
      (∀ p ∈ st.visited,
        Relation.ReflTransGen (openAdj env.maze.rows env.maze.cols env.maze.walls)
          env.maze.start p) →
      st.q.length + (cellsF env.maze.rows env.maze.cols \ st.visited).card < fuel →
      ∃ res m' st', bfsLoop env fuel st m = some (res, m', st') ∧
        res.path = [] ∧ m'.solved = false := by
  intro fuel
  induction fuel with
  | zero =>
    intro st m _ _ _ hlt
    exact absurd hlt (Nat.not_lt_zero _)
  | succ fuel ih =>
    intro st m hq hvc hvr hlt
    rcases hqe : st.q with _ | ⟨s, rest⟩
    · refine ⟨⟨[], st.visited_order, st.parents⟩,
        { m with unique_states_visited := st.visited.card, solved := false }, st,
        ?_, rfl, rfl⟩
      simp only [bfsLoop, hqe]
    · have hsv : s ∈ st.visited := hq s (by rw [hqe]; exact List.mem_cons_self _ _)
      have hsr := hvr s hsv
      have hsg : ¬ s = env.maze.goal := fun he => hgoal (he ▸ hsr)
      have hsc := hvc s hsv
      simp only [bfsLoop, hqe]
      rw [if_neg hsg]
      obtain ⟨hq2, hvc2, hvr2, hm2⟩ := @bfsExpand_fail_open env s
        (env.neighbors s)
        { st with q := rest, visited_order := st.visited_order ++ [s] }
        { m with states_expanded := m.states_expanded + 1 }
        (fun nb h => mem_neighbors_spec hsc h) hsr
        (fun p hp => hq p (by rw [hqe]; exact List.mem_cons_of_mem _ hp)) hvc hvr
      refine ih _ _ hq2 hvc2 hvr2 ?_
      have hlen : st.q.length = rest.length + 1 := by rw [hqe]; rfl
      rw [hm2]
      dsimp only
      omega

/-- The DFS neighbor loop preserves the search invariant and the
quantity `|stack| + |cells \ visited|`. -/
theorem dfsExpand_fail_open {env : MazeEnv} {s : Coord} :
    ∀ (lst : List Coord) (st : DfsState) (m : RunMetrics),
      (∀ nb ∈ lst, nb ∈ cellsF env.maze.rows env.maze.cols ∧
        openAdj env.maze.rows env.maze.cols env.maze.walls s nb) →
      Relation.ReflTransGen (openAdj env.maze.rows env.maze.cols env.maze.walls)
        env.maze.start s →
      (∀ p ∈ st.stack, p ∈ st.visited) →
      (∀ p ∈ st.visited, p ∈ cellsF env.maze.rows env.maze.cols) →
      (∀ p ∈ st.visited,
        Relation.ReflTransGen (openAdj env.maze.rows env.maze.cols env.maze.walls)
          env.maze.start p) →
      (∀ p ∈ (dfsExpand s lst st m).1.stack, p ∈ (dfsExpand s lst st m).1.visited) ∧
      (∀ p ∈ (dfsExpand s lst st m).1.visited,
        p ∈ cellsF env.maze.rows env.maze.cols) ∧
      (∀ p ∈ (dfsExpand s lst st m).1.visited,
        Relation.ReflTransGen (openAdj env.maze.rows env.maze.cols env.maze.walls)
          env.maze.start p) ∧
      (dfsExpand s lst st m).1.stack.length +
          (cellsF env.maze.rows env.maze.cols \ (dfsExpand s lst st m).1.visited).card
        = st.stack.length +
          (cellsF env.maze.rows env.maze.cols \ st.visited).card := by
  intro lst
  induction lst with
  | nil =>
    intro st m _ _ hq hvc hvr
    exact ⟨hq, hvc, hvr, rfl⟩
  | cons nb rest ih =>
    intro st m hnb hreach hq hvc hvr
    by_cases hmem : nb ∈ st.visited
    · simp only [dfsExpand]
      rw [if_pos hmem]
      exact ih _ _ (fun x hx => hnb x (List.mem_cons_of_mem _ hx)) hreach hq hvc hvr
    · simp only [dfsExpand]
      rw [if_neg hmem]
      have hnb1 := hnb nb (List.mem_cons_self _ _)
      obtain ⟨ha, hb, hc, hd⟩ := ih
        { st with
          visited := insert nb st.visited
          parents := Function.update st.parents nb (some (some s))
          stack := nb :: st.stack }
        { m with states_generated := m.states_generated + 1 }
        (fun x hx => hnb x (List.mem_cons_of_mem _ hx)) hreach
        (by
          intro p hp
          dsimp only at hp ⊢
          rcases List.mem_cons.mp hp with rfl | hp
          · exact Finset.mem_insert_self _ _
          · exact Finset.mem_insert_of_mem (hq p hp))
        (by
          intro p hp
          dsimp only at hp
          rcases Finset.mem_insert.mp hp with rfl | hp
          · exact hnb1.1
          · exact hvc p hp)
        (by
          intro p hp
          dsimp only at hp
          rcases Finset.mem_insert.mp hp with rfl | hp
          · exact hreach.tail hnb1.2
          · exact hvr p hp)
      refine ⟨ha, hb, hc, ?_⟩
      rw [hd]
      have hnbc : nb ∈ cellsF env.maze.rows env.maze.cols \ st.visited :=
        Finset.mem_sdiff.mpr ⟨hnb1.1, hmem⟩
      have hcard : (cellsF env.maze.rows env.maze.cols \ insert nb st.visited).card + 1
          = (cellsF env.maze.rows env.maze.cols \ st.visited).card := by
        rw [Finset.sdiff_insert, Finset.card_erase_add_one hnbc]
      dsimp only
      simp only [List.length_cons]
      omega

/-- If the goal is unreachable from the start, the DFS loop (given
fuel above its decreasing measure) terminates normally with an
unsolved, empty-path result. -/
theorem dfsLoop_fail_open {env : MazeEnv}
    (hgoal : ¬ Relation.ReflTransGen
      (openAdj env.maze.rows env.maze.cols env.maze.walls)
      env.maze.start env.maze.goal) :
    ∀ (fuel : ℕ) (st : DfsState) (m : RunMetrics),
      (∀ p ∈ st.stack, p ∈ st.visited) →
      (∀ p ∈ st.visited, p ∈ cellsF env.maze.rows env.maze.cols) →
      (∀ p ∈ st.visited,
        Relation.ReflTransGen (openAdj env.maze.rows env.maze.cols env.maze.walls)
          env.maze.start p) →
      st.stack.length + (cellsF env.maze.rows env.maze.cols \ st.visited).card < fuel →
      ∃ res m' st', dfsLoop env fuel st m = some (res, m', st') ∧
        res.path = [] ∧ m'.solved = false := by
  intro fuel
  induction fuel with
  | zero =>
    intro st m _ _ _ hlt
    exact absurd hlt (Nat.not_lt_zero _)
  | succ fuel ih =>
    intro st m hq hvc hvr hlt
    rcases hqe : st.stack with _ | ⟨s, rest⟩
    · refine ⟨⟨[], st.visited_order, st.parents⟩,
        { m with unique_states_visited := st.visited.card, solved := false }, st,
        ?_, rfl, rfl⟩
      simp only [dfsLoop, hqe]
    · have hsv : s ∈ st.visited := hq s (by rw [hqe]; exact List.mem_cons_self _ _)
      have hsr := hvr s hsv
      have hsg : ¬ s = env.maze.goal := fun he => hgoal (he ▸ hsr)
      have hsc := hvc s hsv
      simp only [dfsLoop, hqe]
      rw [if_neg hsg]
      obtain ⟨hq2, hvc2, hvr2, hm2⟩ := @dfsExpand_fail_open env s
        (env.neighbors s).reverse
        { st with stack := rest, visited_order := st.visited_order ++ [s] }
        { m with states_expanded := m.states_expanded + 1 }
        (fun nb h => mem_neighbors_spec hsc (List.mem_reverse.mp h)) hsr
        (fun p hp => hq p (by rw [hqe]; exact List.mem_cons_of_mem _ hp)) hvc hvr
      refine ih _ _ hq2 hvc2 hvr2 ?_
      have hlen : st.stack.length = rest.length + 1 := by rw [hqe]; rfl
      rw [hm2]
      dsimp only
      omega

/-- `push` grows the heap by at most one entry, and every entry of the
new heap is an old entry or carries the pushed item. -/
theorem push_heap_spec {α : Type} [DecidableEq α] (q : PriorityQueue α)
    (x : α) (p : ℚ) :
    (q.push x p).heap.length ≤ q.heap.length + 1 ∧
      ∀ e ∈ (q.push x p).heap, e ∈ q.heap ∨ e.item = x := by
  unfold PriorityQueue.push
  split
  · refine ⟨by simp, ?_⟩
    intro e he
    rcases List.mem_append.mp he with h | h
    · exact Or.inl h
    · rcases List.mem_singleton.mp h with rfl
      exact Or.inr rfl
  · exact ⟨by omega, fun e he => Or.inl he⟩

/-- The A* neighbor loop preserves the heap invariant, grows the heap
by at most one entry per neighbor, and never touches the closed set. -/
theorem astarExpand_fail_open {env : MazeEnv} {heur : Coord → Coord → ℚ}
    {s : Coord} :
    ∀ (lst : List Coord) (st : AstarState) (m : RunMetrics),
      (∀ nb ∈ lst, nb ∈ cellsF env.maze.rows env.maze.cols ∧
        openAdj env.maze.rows env.maze.cols env.maze.walls s nb) →
      Relation.ReflTransGen (openAdj env.maze.rows env.maze.cols env.maze.walls)
        env.maze.start s →
      (∀ e ∈ st.openpq.heap, e.item ∈ cellsF env.maze.rows env.maze.cols ∧
        Relation.ReflTransGen (openAdj env.maze.rows env.maze.cols env.maze.walls)
          env.maze.start e.item) →
      (∀ e ∈ (astarExpand env heur s lst st m).1.openpq.heap,
        e.item ∈ cellsF env.maze.rows env.maze.cols ∧
        Relation.ReflTransGen (openAdj env.maze.rows env.maze.cols env.maze.walls)
          env.maze.start e.item) ∧
      (astarExpand env heur s lst st m).1.openpq.heap.length ≤
        st.openpq.heap.length + lst.length ∧
      (astarExpand env heur s lst st m).1.closed = st.closed := by
  intro lst
  induction lst with
  | nil =>
    intro st m _ _ hinv
    exact ⟨hinv, by simp [astarExpand], rfl⟩
  | cons nb rest ih =>
    intro st m hnb hreach hinv
    have hnb1 := hnb nb (List.mem_cons_self _ _)
    by_cases hcond : (alookup nb st.g).isNone = true ∨
        (alookup s st.g).getD 0 + env.cost s nb < (alookup nb st.g).getD 0
    · simp only [astarExpand]
      rw [if_pos hcond]
      obtain ⟨ha, hb, hc⟩ := ih
        { st with
          g := aupsert nb ((alookup s st.g).getD 0 + env.cost s nb) st.g
          parents := Function.update st.parents nb (some (some s))
          openpq := st.openpq.push nb
            ((alookup s st.g).getD 0 + env.cost s nb + heur nb env.maze.goal) }
        _
        (fun x hx => hnb x (List.mem_cons_of_mem _ hx)) hreach
        (by
          intro e he
          dsimp only at he
          rcases (push_heap_spec st.openpq nb _).2 e he with h | h
          · exact hinv e h
          · rw [h]
            exact ⟨hnb1.1, hreach.tail hnb1.2⟩)
      refine ⟨ha, ?_, hc⟩
      refine le_trans hb ?_
      dsimp only
      have := (push_heap_spec st.openpq nb
        ((alookup s st.g).getD 0 + env.cost s nb + heur nb env.maze.goal)).1
      simp only [List.length_cons]
      omega
    · simp only [astarExpand]
      rw [if_neg hcond]
      obtain ⟨ha, hb, hc⟩ := ih st _
        (fun x hx => hnb x (List.mem_cons_of_mem _ hx)) hreach hinv
      refine ⟨ha, ?_, hc⟩
      refine le_trans hb ?_
      simp only [List.length_cons]
      omega

/-- If the goal is unreachable from the start, the A* loop (given fuel
above its decreasing measure) terminates normally — the priority
queue's empty-pop signal is consumed internally — with an unsolved,
empty-path result. -/
theorem astarLoop_fail_open {env : MazeEnv} {heur : Coord → Coord → ℚ}
    (hgoal : ¬ Relation.ReflTransGen
      (openAdj env.maze.rows env.maze.cols env.maze.walls)
      env.maze.start env.maze.goal) :
    ∀ (fuel : ℕ) (st : AstarState) (m : RunMetrics),
      (∀ e ∈ st.openpq.heap, e.item ∈ cellsF env.maze.rows env.maze.cols ∧
        Relation.ReflTransGen (openAdj env.maze.rows env.maze.cols env.maze.walls)
          env.maze.start e.item) →
      st.openpq.heap.length +
          5 * (cellsF env.maze.rows env.maze.cols \ st.closed).card < fuel →
      ∃ res m' st', astarLoop env heur fuel st m = some (res, m', st') ∧
        res.path = [] ∧ m'.solved = false := by
  intro fuel
  induction fuel with
  | zero =>
    intro st m _ hlt
    exact absurd hlt (Nat.not_lt_zero _)
  | succ fuel ih =>
    intro st m hinv hlt
    rcases hpop : st.openpq.pop with ⟨_ | ⟨s, pr⟩, pq'⟩
    · refine ⟨⟨[], st.visited_order, st.parents⟩,
        { m with unique_states_visited := st.g.length, solved := false },
        { st with openpq := pq' }, ?_, rfl, rfl⟩
      simp only [astarLoop, hpop]
    · obtain ⟨hlen, hsub, e0, he0, hitem⟩ := pop_shrink hpop
      have hs : s ∈ cellsF env.maze.rows env.maze.cols ∧
          Relation.ReflTransGen (openAdj env.maze.rows env.maze.cols env.maze.walls)
            env.maze.start s := hitem ▸ hinv e0 he0
      by_cases hcl : s ∈ st.closed
      · simp only [astarLoop, hpop]
        rw [if_pos (show s ∈ ({ st with openpq := pq' } : AstarState).closed from hcl)]
        refine ih { st with openpq := pq' } m (fun e he => hinv e (hsub e he)) ?_
        dsimp only
        omega
      · have hsg : ¬ s = env.maze.goal := fun he => hgoal (he ▸ hs.2)
        simp only [astarLoop, hpop]
        rw [if_neg (show ¬ s ∈ ({ st with openpq := pq' } : AstarState).closed from hcl),
          if_neg hsg]
        obtain ⟨hinv2, hlen2, hcl2⟩ := @astarExpand_fail_open env heur s
          (env.neighbors s)
          { st with openpq := pq'
                    closed := insert s st.closed
                    visited_order := st.visited_order ++ [s] }
          { m with states_expanded := m.states_expanded + 1 }
          (fun nb h => mem_neighbors_spec hs.1 h) hs.2
          (fun e he => hinv e (hsub e he))
        refine ih _ _ hinv2 ?_
        have hcard : (cellsF env.maze.rows env.maze.cols \
              insert s st.closed).card + 1
            = (cellsF env.maze.rows env.maze.cols \ st.closed).card := by
          rw [Finset.sdiff_insert, Finset.card_erase_add_one
            (Finset.mem_sdiff.mpr ⟨hs.1, hcl⟩)]
        have h4 := neighbors_length_le env s
        rw [hcl2]
        dsimp only at hlen2 ⊢
        omega

/-- **C4.** For every environment (with in-grid start) and metrics
accumulator, each of `solve_bfs`, `solve_dfs` and `solve_astar`
terminates without raising when the frontier empties before the goal
is reached (here: when the goal is not open-adjacency reachable from
the start, so the frontier must empty first), returning an unsolved
result with an empty path; in particular A* consumes the priority
queue's `EmptyQueue` condition internally as its loop-termination
signal and never surfaces it to the caller. -/
theorem solvers_fail_open :
    ∀ (env : MazeEnv) (metrics : RunMetrics) (hn : String)
      (heur : Coord → Coord → ℚ),
      env.maze.start ∈ cellsF env.maze.rows env.maze.cols →
      ¬ Relation.ReflTransGen (openAdj env.maze.rows env.maze.cols env.maze.walls)
        env.maze.start env.maze.goal →
      (∃ res m' st', solve_bfs env metrics = some (res, m', st') ∧
        res.path = [] ∧ m'.solved = false) ∧
      (∃ res m' st', solve_dfs env metrics = some (res, m', st') ∧
        res.path = [] ∧ m'.solved = false) ∧
      (∃ res m' st', solve_astar env metrics hn heur = some (res, m', st') ∧
        res.path = [] ∧ m'.solved = false) := by
  intro env metrics hn heur hstart hgoal
  have h1 : (cellsF env.maze.rows env.maze.cols \ {env.maze.start}).card
      = (cellsF env.maze.rows env.maze.cols).card - 1 := by
    rw [Finset.card_sdiff (Finset.singleton_subset_iff.mpr hstart),
      Finset.card_singleton]
  have h2 : 0 < (cellsF env.maze.rows env.maze.cols).card :=
    Finset.card_pos.mpr ⟨_, hstart⟩
  refine ⟨?_, ?_, ?_⟩
  · simp only [solve_bfs]
    refine bfsLoop_fail_open hgoal _ _ _ ?_ ?_ ?_ ?_
    · intro p hp
      replace hp : p ∈ [env.maze.start] := hp
      rcases List.mem_singleton.mp hp with rfl
      exact Finset.mem_singleton_self _
    · intro p hp
      replace hp : p ∈ ({env.maze.start} : Finset Coord) := hp
      rcases Finset.mem_singleton.mp hp with rfl
      exact hstart
    · intro p hp
      replace hp : p ∈ ({env.maze.start} : Finset Coord) := hp
      rcases Finset.mem_singleton.mp hp with rfl
      exact Relation.ReflTransGen.refl
    · show ([env.maze.start] : List Coord).length +
        (cellsF env.maze.rows env.maze.cols \ {env.maze.start}).card <
        (cellsF env.maze.rows env.maze.cols).card + 2
      simp only [List.length_cons, List.length_nil]
      omega
  · simp only [solve_dfs]
    refine dfsLoop_fail_open hgoal _ _ _ ?_ ?_ ?_ ?_
    · intro p hp
      replace hp : p ∈ [env.maze.start] := hp
      rcases List.mem_singleton.mp hp with rfl
      exact Finset.mem_singleton_self _
    · intro p hp
      replace hp : p ∈ ({env.maze.start} : Finset Coord) := hp
      rcases Finset.mem_singleton.mp hp with rfl
      exact hstart
    · intro p hp
      replace hp : p ∈ ({env.maze.start} : Finset Coord) := hp
      rcases Finset.mem_singleton.mp hp with rfl
      exact Relation.ReflTransGen.refl
    · show ([env.maze.start] : List Coord).length +
        (cellsF env.maze.rows env.maze.cols \ {env.maze.start}).card <
        (cellsF env.maze.rows env.maze.cols).card + 2
      simp only [List.length_cons, List.length_nil]
      omega
  · simp only [solve_astar]
    refine astarLoop_fail_open hgoal _ _ _ ?_ ?_
    · intro e he
      replace he : e ∈ (PriorityQueue.emptyQ.push env.maze.start
        (heur env.maze.start env.maze.goal)).heap := he
      rcases (push_heap_spec PriorityQueue.emptyQ env.maze.start _).2 e he with h | h
      · exact absurd h (List.not_mem_nil _)
      · rw [h]
        exact ⟨hstart, Relation.ReflTransGen.refl⟩
    · have hh : (PriorityQueue.emptyQ.push env.maze.start
          (heur env.maze.start env.maze.goal)).heap.length ≤ 1 :=
        (push_heap_spec PriorityQueue.emptyQ env.maze.start _).1
      show (PriorityQueue.emptyQ.push env.maze.start
          (heur env.maze.start env.maze.goal)).heap.length +
          5 * (cellsF env.maze.rows env.maze.cols \ ∅).card <
          5 * ((cellsF env.maze.rows env.maze.cols).card + 2)
      rw [Finset.sdiff_empty]
      omega

/-- Witness for C4: on the all-walls 2×2 maze with start `(0,0)` and
goal `(1,1)` the goal is unreachable, and all three solvers return an
unsolved result with an empty path. -/
theorem solvers_fail_open_witness :
    (∃ res m' st',
        solve_bfs { maze := ⟨2, 2, fun _ => 15, (0, 0), (1, 1)⟩ } {}
          = some (res, m', st') ∧ res.path = [] ∧ m'.solved = false) ∧
    (∃ res m' st',
        solve_dfs { maze := ⟨2, 2, fun _ => 15, (0, 0), (1, 1)⟩ } {}
          = some (res, m', st') ∧ res.path = [] ∧ m'.solved = false) ∧
    (∃ res m' st',
        solve_astar { maze := ⟨2, 2, fun _ => 15, (0, 0), (1, 1)⟩ } {}
          "manhattan" hManhattan = some (res, m', st') ∧
        res.path = [] ∧ m'.solved = false) := by
  refine solvers_fail_open _ {} "manhattan" hManhattan (by decide) ?_
  intro h
  have hadj : ∀ p q : Coord, ¬ openAdj 2 2 (fun _ => 15) p q := by
    intro p q hpq
    obtain ⟨d, hd, -, hw, -⟩ := hpq
    simp only [DIRS, List.mem_cons, List.not_mem_nil, or_false] at hd
    rcases hd with rfl | rfl | rfl | rfl <;> simp [N, E, S, W] at hw
  rcases Relation.ReflTransGen.cases_head h with heq | ⟨c, hc, -⟩
  · exact (by decide : ¬ ((0, 0) : Coord) = ((1, 1) : Coord)) heq
  · exact hadj _ _ hc

/-! ### Metrics accounting of the search solvers -/

/-- Whatever BFS run terminates, the metrics report the size of the
final visited set. -/
theorem bfsLoop_unique (env : MazeEnv) :
    ∀ (fuel : ℕ) (st : BfsState) (m : RunMetrics) (res : SolveResult)
      (m' : RunMetrics) (st' : BfsState),
      bfsLoop env fuel st m = some (res, m', st') →
      m'.unique_states_visited = st'.visited.card := by
  intro fuel
  induction fuel with
  | zero => intro st m res m' st' h; simp [bfsLoop] at h
  | succ fuel ih =>
    intro st m res m' st' h
    rcases hqe : st.q with _ | ⟨s, rest⟩
    · simp only [bfsLoop, hqe, Option.some.injEq, Prod.mk.injEq] at h
      obtain ⟨-, rfl, rfl⟩ := h
      rfl
    · simp only [bfsLoop, hqe] at h
      by_cases hsg : s = env.maze.goal
      · rw [if_pos hsg] at h
        split at h
        · exact absurd h (by simp)
        · simp only [Option.some.injEq, Prod.mk.injEq] at h
          obtain ⟨-, rfl, rfl⟩ := h
          rfl
      · rw [if_neg hsg] at h
        exact ih _ _ _ _ _ h

/-- Whatever DFS run terminates, the metrics report the size of the
final visited set. -/
theorem dfsLoop_unique (env : MazeEnv) :
    ∀ (fuel : ℕ) (st : DfsState) (m : RunMetrics) (res : SolveResult)
      (m' : RunMetrics) (st' : DfsState),
      dfsLoop env fuel st m = some (res, m', st') →
      m'.unique_states_visited = st'.visited.card := by
  intro fuel
  induction fuel with
  | zero => intro st m res m' st' h; simp [dfsLoop] at h
  | succ fuel ih =>
    intro st m res m' st' h
    rcases hqe : st.stack with _ | ⟨s, rest⟩
    · simp only [dfsLoop, hqe, Option.some.injEq, Prod.mk.injEq] at h
      obtain ⟨-, rfl, rfl⟩ := h
      rfl
    · simp only [dfsLoop, hqe] at h
      by_cases hsg : s = env.maze.goal
      · rw [if_pos hsg] at h
        split at h
        · exact absurd h (by simp)
        · simp only [Option.some.injEq, Prod.mk.injEq] at h
          obtain ⟨-, rfl, rfl⟩ := h
          rfl
      · rw [if_neg hsg] at h
        exact ih _ _ _ _ _ h

/-- Whatever A* run terminates, the metrics report the size of the
final `g`-score dictionary — not the closed set. -/
theorem astarLoop_unique (env : MazeEnv) (heur : Coord → Coord → ℚ) :
    ∀ (fuel : ℕ) (st : AstarState) (m : RunMetrics) (res : SolveResult)
      (m' : RunMetrics) (st' : AstarState),
      astarLoop env heur fuel st m = some (res, m', st') →
      m'.unique_states_visited = st'.g.length := by
  intro fuel
  induction fuel with
  | zero => intro st m res m' st' h; simp [astarLoop] at h
  | succ fuel ih =>
    intro st m res m' st' h
    rcases hpop : st.openpq.pop with ⟨_ | ⟨s, pr⟩, pq'⟩
    · simp only [astarLoop, hpop, Option.some.injEq, Prod.mk.injEq] at h
      obtain ⟨-, rfl, rfl⟩ := h
      rfl
    · simp only [astarLoop, hpop] at h
      by_cases hcl : s ∈ st.closed
      · rw [if_pos (show s ∈ ({ st with openpq := pq' } : AstarState).closed
          from hcl)] at h
        exact ih _ _ _ _ _ h
      · rw [if_neg (show ¬ s ∈ ({ st with openpq := pq' } : AstarState).closed
          from hcl)] at h
        by_cases hsg : s = env.maze.goal
        · rw [if_pos hsg] at h
          split at h
          · exact absurd h (by simp)
          · simp only [Option.some.injEq, Prod.mk.injEq] at h
            obtain ⟨-, rfl, rfl⟩ := h
            rfl
        · rw [if_neg hsg] at h
          exact ih _ _ _ _ _ h

/-- Counterexample to C6 for A*: on this 2×2 maze (open edges
`(0,0)–(0,1)` and `(0,0)–(1,0)`, start `(0,0)`, goal `(0,1)`) the run
pops two states into the closed set but has discovered three `g`
entries, and reports `unique_states_visited = 3 ≠ 2`. -/
theorem astar_unique_not_closed_counterexample :
    (solve_astar
        { maze := ⟨2, 2,
            (fun p => if p = ((0 : ℤ), (0 : ℤ)) then 9
              else if p = ((0 : ℤ), (1 : ℤ)) then 7
              else if p = ((1 : ℤ), (0 : ℤ)) then 14 else 15),
            (0, 0), (0, 1)⟩ }
        {} "manhattan" hManhattan).map
      (fun r => (r.2.1.unique_states_visited, r.2.2.closed.card,
        r.2.2.g.length, r.2.1.solved)) = some (3, 2, 3, true) := by
  with_unfolding_all rfl

/-- **C6** (amended).  At termination of every run, BFS and DFS set
`unique_states_visited` to the size of their visited set; A* instead
sets it to the size of its `g`-score dictionary (every state ever
discovered), which can strictly exceed the size of its closed set. -/
theorem unique_states_visited_semantics :
    ∀ (env : MazeEnv) (metrics : RunMetrics) (hn : String)
      (heur : Coord → Coord → ℚ) (res : SolveResult) (m' : RunMetrics),
      (∀ st' : BfsState, solve_bfs env metrics = some (res, m', st') →
        m'.unique_states_visited = st'.visited.card) ∧
      (∀ st' : DfsState, solve_dfs env metrics = some (res, m', st') →
        m'.unique_states_visited = st'.visited.card) ∧
      (∀ st' : AstarState, solve_astar env metrics hn heur = some (res, m', st') →
        m'.unique_states_visited = st'.g.length) := by
  intro env metrics hn heur res m'
  refine ⟨?_, ?_, ?_⟩
  · intro st' h
    simp only [solve_bfs] at h
    exact bfsLoop_unique env _ _ _ _ _ _ h
  · intro st' h
    simp only [solve_dfs] at h
    exact dfsLoop_unique env _ _ _ _ _ _ h
  · intro st' h
    simp only [solve_astar] at h
    exact astarLoop_unique env heur _ _ _ _ _ _ h

/-- Witness for C6 on the trivial 1×1 maze: each solver returns, and
the theorem's equations are discharged on the computed runs. -/
theorem unique_states_visited_semantics_witness :
    (∃ (res : SolveResult) (m' : RunMetrics) (st' : BfsState),
      solve_bfs { maze := ⟨1, 1, fun _ => 15, (0, 0), (0, 0)⟩ } {}
        = some (res, m', st') ∧ m'.unique_states_visited = st'.visited.card) ∧
    (∃ (res : SolveResult) (m' : RunMetrics) (st' : AstarState),
      solve_astar { maze := ⟨1, 1, fun _ => 15, (0, 0), (0, 0)⟩ } {}
        "manhattan" hManhattan = some (res, m', st') ∧
      m'.unique_states_visited = st'.g.length) := by
  constructor
  · obtain ⟨⟨res, m', st'⟩, h⟩ :
        ∃ r, solve_bfs { maze := ⟨1, 1, fun _ => 15, (0, 0), (0, 0)⟩ } {}
          = some r := ⟨_, by with_unfolding_all rfl⟩
    exact ⟨res, m', st', h,
      (unique_states_visited_semantics
        { maze := ⟨1, 1, fun _ => 15, (0, 0), (0, 0)⟩ } {} "manhattan" hManhattan
        res m').1 st' h⟩
  · obtain ⟨⟨res, m', st'⟩, h⟩ :
        ∃ r, solve_astar { maze := ⟨1, 1, fun _ => 15, (0, 0), (0, 0)⟩ } {}
          "manhattan" hManhattan = some r := ⟨_, by with_unfolding_all rfl⟩
    exact ⟨res, m', st', h,
      (unique_states_visited_semantics
        { maze := ⟨1, 1, fun _ => 15, (0, 0), (0, 0)⟩ } {} "manhattan" hManhattan
        res m').2.2 st' h⟩

/-! ### MDP metrics recording -/

/-- The policy-iteration loop never touches the five parameter fields
recorded at entry. -/
theorem piLoop_params (env : MazeEnv) (theta : ℚ) (max_eval_iters : ℕ) :
    ∀ (n pi_it : ℕ) (policy : Coord → Action) (fd : ℚ) (te : ℕ)
      (vis : List Coord) (m : RunMetrics),
      (piLoop env theta max_eval_iters n pi_it policy fd te vis m).2.1.discount_factor
          = m.discount_factor ∧
      (piLoop env theta max_eval_iters n pi_it policy fd te vis m).2.1.convergence_threshold
          = m.convergence_threshold ∧
      (piLoop env theta max_eval_iters n pi_it policy fd te vis m).2.1.step_reward
          = m.step_reward ∧
      (piLoop env theta max_eval_iters n pi_it policy fd te vis m).2.1.goal_reward
          = m.goal_reward ∧
      (piLoop env theta max_eval_iters n pi_it policy fd te vis m).2.1.wall_penalty
          = m.wall_penalty := by
  intro n
  induction n with
  | zero =>
    intro pi_it policy fd te vis m
    exact ⟨rfl, rfl, rfl, rfl, rfl⟩
  | succ n ih =>
    intro pi_it policy fd te vis m
    simp only [piLoop]
    by_cases him : (policy_improvement env
        (policy_evaluation env policy theta max_eval_iters).1 policy).2 = true
    · rw [if_pos him]
      exact ⟨rfl, rfl, rfl, rfl, rfl⟩
    · rw [if_neg him]
      exact ih _ _ _ _ _ _

/-- The policy-iteration loop writes `final_convergence_error` (and
`policy_iteration_steps`) exactly when some round within the cap is
stable: if every round below the cap is unstable the metrics object is
returned untouched, and if round `j` is the first stable one the field
receives that round's evaluation delta. -/
theorem piLoop_error (env : MazeEnv) (theta : ℚ) (max_eval_iters : ℕ) :
    ∀ (n pi_it : ℕ) (policy : Coord → Action) (fd : ℚ) (te : ℕ)
      (vis : List Coord) (m : RunMetrics),
      ((∀ j, j < n → ¬ piStableAt env theta max_eval_iters policy j) →
        (piLoop env theta max_eval_iters n pi_it policy fd te vis m).2.1 = m) ∧
      (∀ j, j < n →
        (∀ i, i < j → ¬ piStableAt env theta max_eval_iters policy i) →
        piStableAt env theta max_eval_iters policy j →
        (piLoop env theta max_eval_iters
            n pi_it policy fd te vis m).2.1.final_convergence_error
          = some (policy_evaluation env
              (piIter env theta max_eval_iters j policy) theta
              max_eval_iters).2.1 ∧
        (piLoop env theta max_eval_iters
            n pi_it policy fd te vis m).2.1.policy_iteration_steps
          = some (pi_it + j + 1)) := by
  intro n
  induction n with
  | zero =>
    intro pi_it policy fd te vis m
    exact ⟨fun _ => rfl, fun j hj => absurd hj (Nat.not_lt_zero _)⟩
  | succ n ih =>
    intro pi_it policy fd te vis m
    simp only [piLoop]
    by_cases him : (policy_improvement env
        (policy_evaluation env policy theta max_eval_iters).1 policy).2 = true
    · rw [if_pos him]
      constructor
      · intro hnone
        exact absurd him (hnone 0 (Nat.succ_pos n))
      · intro j hj hmin hstable
        have hj0 : j = 0 := by
          by_contra hne
          exact hmin 0 (Nat.pos_of_ne_zero hne) him
        subst hj0
        exact ⟨rfl, rfl⟩
    · rw [if_neg him]
      obtain ⟨ih1, ih2⟩ := ih (pi_it + 1)
        (policy_improvement env
          (policy_evaluation env policy theta max_eval_iters).1 policy).1
        (policy_evaluation env policy theta max_eval_iters).2.1
        (te + (policy_evaluation env policy theta max_eval_iters).2.2)
        (vis ++ env.states) m
      constructor
      · intro hnone
        exact ih1 (fun j hj => hnone (j + 1) (by omega))
      · intro j hj hmin hstable
        rcases j with _ | j2
        · exact absurd hstable him
        · obtain ⟨he1, he2⟩ := ih2 j2 (by omega)
            (fun i hi => hmin (i + 1) (by omega)) hstable
          refine ⟨he1, ?_⟩
          rw [he2]
          congr 1
          omega

/-- Counterexample to C8 for policy iteration: on the all-walls 2×2
maze with `max_policy_iters = 1` and `max_eval_iters = 1`, the initial
all-`R` policy is improved (to `U`) and the iteration cap is hit
before stability, so `final_convergence_error` is left at its entry
value `none` — although the evaluation sweep of that run observed the
delta `1/20`. -/
theorem pi_final_error_counterexample :
    (solve_policy_iteration { maze := ⟨2, 2, fun _ => 15, (0, 0), (1, 1)⟩ } {}
        (1/1000000) 1 1).2.final_convergence_error = none ∧
    (policy_evaluation { maze := ⟨2, 2, fun _ => 15, (0, 0), (1, 1)⟩ }
        (fun _ => Action.R) (1/1000000) 1).2.1 = 1/20 :=
  ⟨by with_unfolding_all rfl, by with_unfolding_all rfl⟩

/-- **C8** (amended).  Both MDP solvers record `discount_factor`,
`convergence_threshold` and the three reward parameters into the
metrics at entry.  Value iteration always reports
`final_convergence_error` as the last delta of its sweep loop
(including runs that exhaust `max_iters`).  Policy iteration writes
`final_convergence_error` only when some improvement round within
`max_policy_iters` reports a stable policy — then the field holds that
round's evaluation delta and `policy_iteration_steps` its 1-based
index; a run whose every round below the cap is unstable leaves the
field at its entry value. -/
theorem mdp_metrics_recording :
    ∀ (env : MazeEnv) (metrics : RunMetrics) (theta : ℚ)
      (max_iters max_policy_iters max_eval_iters : ℕ),
      ((solve_value_iteration env metrics theta max_iters).2.discount_factor
          = some env.gamma ∧
        (solve_value_iteration env metrics theta max_iters).2.convergence_threshold
          = some theta ∧
        (solve_value_iteration env metrics theta max_iters).2.step_reward
          = some env.step_reward ∧
        (solve_value_iteration env metrics theta max_iters).2.goal_reward
          = some env.goal_reward ∧
        (solve_value_iteration env metrics theta max_iters).2.wall_penalty
          = some env.wall_reward) ∧
      (solve_value_iteration env metrics theta max_iters).2.final_convergence_error
        = some (viLoop env theta max_iters 0 (fun _ => 0) 0 []).2.1 ∧
      ((solve_policy_iteration env metrics theta
            max_policy_iters max_eval_iters).2.discount_factor
          = some env.gamma ∧
        (solve_policy_iteration env metrics theta
            max_policy_iters max_eval_iters).2.convergence_threshold
          = some theta ∧
        (solve_policy_iteration env metrics theta
            max_policy_iters max_eval_iters).2.step_reward
          = some env.step_reward ∧
        (solve_policy_iteration env metrics theta
            max_policy_iters max_eval_iters).2.goal_reward
          = some env.goal_reward ∧
        (solve_policy_iteration env metrics theta
            max_policy_iters max_eval_iters).2.wall_penalty
          = some env.wall_reward) ∧
      ((∀ j, j < max_policy_iters →
          ¬ piStableAt env theta max_eval_iters (fun _ => Action.R) j) →
        (solve_policy_iteration env metrics theta
            max_policy_iters max_eval_iters).2.final_convergence_error
          = metrics.final_convergence_error) ∧
      (∀ j, j < max_policy_iters →
        (∀ i, i < j →
          ¬ piStableAt env theta max_eval_iters (fun _ => Action.R) i) →
        piStableAt env theta max_eval_iters (fun _ => Action.R) j →
        (solve_policy_iteration env metrics theta
            max_policy_iters max_eval_iters).2.final_convergence_error
          = some (policy_evaluation env
              (piIter env theta max_eval_iters j (fun _ => Action.R)) theta
              max_eval_iters).2.1 ∧
        (solve_policy_iteration env metrics theta
            max_policy_iters max_eval_iters).2.policy_iteration_steps
          = some (j + 1)) := by
  intro env metrics theta max_iters max_policy_iters max_eval_iters
  obtain ⟨hp1, hp2, hp3, hp4, hp5⟩ :=
    piLoop_params env theta max_eval_iters max_policy_iters 0
      (fun _ => Action.R) 0 0 []
      { metrics with
        discount_factor := some env.gamma
        convergence_threshold := some theta
        step_reward := some env.step_reward
        goal_reward := some env.goal_reward
        wall_penalty := some env.wall_reward }
  obtain ⟨he1, he2⟩ :=
    piLoop_error env theta max_eval_iters max_policy_iters 0
      (fun _ => Action.R) 0 0 []
      { metrics with
        discount_factor := some env.gamma
        convergence_threshold := some theta
        step_reward := some env.step_reward
        goal_reward := some env.goal_reward
        wall_penalty := some env.wall_reward }
  refine ⟨⟨rfl, rfl, rfl, rfl, rfl⟩, rfl, ⟨hp1, hp2, hp3, hp4, hp5⟩, ?_, ?_⟩
  · intro hnone
    show (piLoop env theta max_eval_iters max_policy_iters 0
        (fun _ => Action.R) 0 0 []
        { metrics with
          discount_factor := some env.gamma
          convergence_threshold := some theta
          step_reward := some env.step_reward
          goal_reward := some env.goal_reward
          wall_penalty := some env.wall_reward }).2.1.final_convergence_error
      = metrics.final_convergence_error
    rw [he1 hnone]
  · intro j hj hmin hstable
    obtain ⟨hx1, hx2⟩ := he2 j hj hmin hstable
    constructor
    · show (piLoop env theta max_eval_iters max_policy_iters 0
          (fun _ => Action.R) 0 0 []
          { metrics with
            discount_factor := some env.gamma
            convergence_threshold := some theta
            step_reward := some env.step_reward
            goal_reward := some env.goal_reward
            wall_penalty := some env.wall_reward }).2.1.final_convergence_error
        = some (policy_evaluation env
            (piIter env theta max_eval_iters j (fun _ => Action.R)) theta
            max_eval_iters).2.1
      exact hx1
    · show (piLoop env theta max_eval_iters max_policy_iters 0
          (fun _ => Action.R) 0 0 []
          { metrics with
            discount_factor := some env.gamma
            convergence_threshold := some theta
            step_reward := some env.step_reward
            goal_reward := some env.goal_reward
            wall_penalty := some env.wall_reward }).2.1.policy_iteration_steps
        = some (j + 1)
      rw [hx2]
      congr 1
      omega

set_option maxRecDepth 8000 in
/-- Witness for C8 on the all-walls 2×2 maze with `max_eval_iters = 1`:
with `max_policy_iters = 1` no round is stable and the error field
keeps its entry value `none`; with `max_policy_iters = 2` round `1` is
the first stable round, and the field receives its evaluation delta
with `policy_iteration_steps = 2`. -/
theorem mdp_metrics_recording_witness :
    ((solve_policy_iteration { maze := ⟨2, 2, fun _ => 15, (0, 0), (1, 1)⟩ } {}
        (1/1000000) 1 1).2.final_convergence_error
      = ({} : RunMetrics).final_convergence_error) ∧
    (solve_policy_iteration { maze := ⟨2, 2, fun _ => 15, (0, 0), (1, 1)⟩ } {}
        (1/1000000) 2 1).2.final_convergence_error
      = some (policy_evaluation { maze := ⟨2, 2, fun _ => 15, (0, 0), (1, 1)⟩ }
          (piIter { maze := ⟨2, 2, fun _ => 15, (0, 0), (1, 1)⟩ } (1/1000000) 1 1
            (fun _ => Action.R)) (1/1000000) 1).2.1 ∧
    (solve_policy_iteration { maze := ⟨2, 2, fun _ => 15, (0, 0), (1, 1)⟩ } {}
        (1/1000000) 2 1).2.policy_iteration_steps = some 2 := by
  have hs0 : ¬ piStableAt { maze := ⟨2, 2, fun _ => 15, (0, 0), (1, 1)⟩ }
      (1/1000000) 1 (fun _ => Action.R) 0 := by
    with_unfolding_all decide
  have hs1 : piStableAt { maze := ⟨2, 2, fun _ => 15, (0, 0), (1, 1)⟩ }
      (1/1000000) 1 (fun _ => Action.R) 1 := by
    with_unfolding_all decide
  refine ⟨?_, ?_⟩
  · refine (mdp_metrics_recording { maze := ⟨2, 2, fun _ => 15, (0, 0), (1, 1)⟩ }
      {} (1/1000000) 0 1 1).2.2.2.1 ?_
    intro j hj
    have hj0 : j = 0 := by omega
    rw [hj0]
    exact hs0
  · refine (mdp_metrics_recording { maze := ⟨2, 2, fun _ => 15, (0, 0), (1, 1)⟩ }
      {} (1/1000000) 0 2 1).2.2.2.2 1 (by omega) ?_ hs1
    intro i hi
    have hi0 : i = 0 := by omega
    rw [hi0]
    exact hs0

/-! ### BFS shortest-path lemmas -/

theorem hasDist_unique {rows cols : ℤ} {w : Coord → ℕ} {start p : Coord}
    {d1 d2 : ℕ} (h1 : hasDist rows cols w start p d1)
    (h2 : hasDist rows cols w start p d2) : d1 = d2 :=
  Nat.le_antisymm (h1.2 d2 h2.1) (h2.2 d1 h1.1)

theorem hasDist_start {rows cols : ℤ} {w : Coord → ℕ} {start : Coord} :
    hasDist rows cols w start start 0 :=
  ⟨rfl, fun k _ => Nat.zero_le k⟩

theorem hasDist_start_eq {rows cols : ℤ} {w : Coord → ℕ} {start : Coord} {d : ℕ}
    (h : hasDist rows cols w start start d) : d = 0 :=
  hasDist_unique h hasDist_start

/-- Every open-adjacent successor of `s` is listed by `env.neighbors s`. -/
theorem openAdj_mem_neighbors {env : MazeEnv} {s q : Coord}
    (h : openAdj env.maze.rows env.maze.cols env.maze.walls s q) :
    q ∈ env.neighbors s := by
  obtain ⟨d, hd, heq, hw, hb1, hb2, hb3, hb4⟩ := h
  subst heq
  simp only [DIRS, List.mem_cons, List.not_mem_nil, or_false] at hd
  simp only [MazeEnv.neighbors, List.mem_append]
  rcases hd with rfl | rfl | rfl | rfl
  · dsimp only at hw hb1 hb2 hb3 hb4
    refine Or.inl (Or.inl (Or.inl ?_))
    rw [if_pos ⟨fun hcon => hcon hw, by omega⟩]
    rw [List.mem_singleton, Prod.ext_iff]
    dsimp only
    omega
  · dsimp only at hw hb1 hb2 hb3 hb4
    refine Or.inl (Or.inl (Or.inr ?_))
    rw [if_pos ⟨fun hcon => hcon hw, by omega⟩]
    rw [List.mem_singleton, Prod.ext_iff]
    dsimp only
    omega
  · dsimp only at hw hb1 hb2 hb3 hb4
    refine Or.inl (Or.inr ?_)
    rw [if_pos ⟨fun hcon => hcon hw, by omega⟩]
    rw [List.mem_singleton, Prod.ext_iff]
    dsimp only
    omega
  · dsimp only at hw hb1 hb2 hb3 hb4
    refine Or.inr ?_
    rw [if_pos ⟨fun hcon => hcon hw, by omega⟩]
    rw [List.mem_singleton, Prod.ext_iff]
    dsimp only
    omega

/-- A node at distance `dp` sits atop a parent chain of `dp + 1`
distinct visited nodes. -/
theorem parents_chain_card {rows cols : ℤ} {w : Coord → ℕ} {start : Coord}
    {visited : Finset Coord} {parents : Coord → Option (Option Coord)}
    (hpar : ∀ p ∈ visited, p ≠ start → ∃ pr k, parents p = some (some pr) ∧
      pr ∈ visited ∧ hasDist rows cols w start pr k ∧
      hasDist rows cols w start p (k + 1)) :
    ∀ (dp : ℕ) (p : Coord), hasDist rows cols w start p dp → p ∈ visited →
      ∃ S : Finset Coord, S ⊆ visited ∧ S.card = dp + 1 ∧
        ∀ x ∈ S, ∃ k ≤ dp, hasDist rows cols w start x k := by
  intro dp
  induction dp with
  | zero =>
    intro p hdist hvis
    refine ⟨{p}, Finset.singleton_subset_iff.mpr hvis, Finset.card_singleton p, ?_⟩
    intro x hx
    rcases Finset.mem_singleton.mp hx with rfl
    exact ⟨0, le_refl 0, hdist⟩
  | succ dp ih =>
    intro p hdist hvis
    have hps : p ≠ start := by
      intro he
      subst he
      exact absurd (hasDist_start_eq hdist) (Nat.succ_ne_zero dp)
    obtain ⟨pr, k, hparp, hprvis, hprd, hpd⟩ := hpar p hvis hps
    have hk : k = dp := by
      have := hasDist_unique hpd hdist
      omega
    rw [hk] at hprd
    obtain ⟨S, hsub, hcard, hS⟩ := ih pr hprd hprvis
    have hpS : p ∉ S := by
      intro hin
      obtain ⟨k2, hk2, hd2⟩ := hS p hin
      have := hasDist_unique hd2 hdist
      omega
    refine ⟨insert p S, Finset.insert_subset hvis hsub,
      by rw [Finset.card_insert_of_not_mem hpS, hcard], ?_⟩
    intro x hx
    rcases Finset.mem_insert.mp hx with rfl | hx
    · exact ⟨dp + 1, le_refl _, hdist⟩
    · obtain ⟨k2, hk2, hd2⟩ := hS x hx
      exact ⟨k2, by omega, hd2⟩

/-- Running the `reconstruct_path` loop from a visited node at
distance `dp`, with fuel beyond `dp + 2`, prepends a chain of
`dp + 1` nodes starting at `start`. -/
theorem reconstructPathAux_run {rows cols : ℤ} {w : Coord → ℕ} {start : Coord}
    {visited : Finset Coord} {parents : Coord → Option (Option Coord)}
    (hstart_par : parents start = some none)
    (hpar : ∀ p ∈ visited, p ≠ start → ∃ pr k, parents p = some (some pr) ∧
      pr ∈ visited ∧ hasDist rows cols w start pr k ∧
      hasDist rows cols w start p (k + 1)) :
    ∀ (dp : ℕ) (p : Coord) (out : List Coord) (fuel : ℕ),
      hasDist rows cols w start p dp → p ∈ visited → dp + 2 ≤ fuel →
      ∃ chain : List Coord,
        reconstructPathAux parents fuel (some p) out = some (chain ++ out) ∧
        chain.length = dp + 1 ∧ chain.head? = some start := by
  intro dp
  induction dp with
  | zero =>
    intro p out fuel hdist hvis hfuel
    have hsp : start = p := hdist.1
    subst hsp
    obtain ⟨f1, rfl⟩ : ∃ f1, fuel = f1 + 1 := ⟨fuel - 1, by omega⟩
    obtain ⟨f2, rfl⟩ : ∃ f2, f1 = f2 + 1 := ⟨f1 - 1, by omega⟩
    refine ⟨[start], ?_, rfl, rfl⟩
    have step1 : reconstructPathAux parents (f2 + 1 + 1) (some start) out
        = reconstructPathAux parents (f2 + 1) (parents start).join (start :: out) :=
      rfl
    rw [step1, hstart_par]
    rfl
  | succ dp ih =>
    intro p out fuel hdist hvis hfuel
    have hps : p ≠ start := by
      intro he
      subst he
      exact absurd (hasDist_start_eq hdist) (Nat.succ_ne_zero dp)
    obtain ⟨pr, k, hparp, hprvis, hprd, hpd⟩ := hpar p hvis hps
    have hk : k = dp := by
      have := hasDist_unique hpd hdist
      omega
    rw [hk] at hprd
    obtain ⟨f1, rfl⟩ : ∃ f1, fuel = f1 + 1 := ⟨fuel - 1, by omega⟩
    have step1 : reconstructPathAux parents (f1 + 1) (some p) out
        = reconstructPathAux parents f1 (parents p).join (p :: out) := rfl
    obtain ⟨chain, hrun, hlen, hhead⟩ := ih pr (p :: out) f1 hprd hprvis (by omega)
    refine ⟨chain ++ [p], ?_, ?_, ?_⟩
    · rw [step1, hparp]
      show reconstructPathAux parents f1 (some pr) (p :: out)
        = some ((chain ++ [p]) ++ out)
      rw [hrun, List.append_assoc]
      rfl
    · simp [hlen]
    · rcases chain with _ | ⟨c, cs⟩
      · simp at hlen
      · simpa using hhead

/-- `reconstruct_path` on a visited goal, with the parent invariant
and fuel beyond `dg + 2`, returns a path of `dg + 1` nodes. -/
theorem reconstruct_path_spec {rows cols : ℤ} {w : Coord → ℕ} {start : Coord}
    {visited : Finset Coord} {parents : Coord → Option (Option Coord)}
    {goal : Coord} {dg fuel : ℕ}
    (hstart_par : parents start = some none)
    (hpar : ∀ p ∈ visited, p ≠ start → ∃ pr k, parents p = some (some pr) ∧
      pr ∈ visited ∧ hasDist rows cols w start pr k ∧
      hasDist rows cols w start p (k + 1))
    (hgoalvis : goal ∈ visited) (hdg : hasDist rows cols w start goal dg)
    (hfuel : dg + 2 ≤ fuel) :
    ∃ path, reconstruct_path parents start goal fuel = some path ∧
      path.length = dg + 1 := by
  have hne : ¬ (parents goal).isNone = true := by
    by_cases hgs : goal = start
    · subst hgs
      rw [hstart_par]
      simp
    · obtain ⟨pr, k, hparp, -⟩ := hpar goal hgoalvis hgs
      rw [hparp]
      simp
  obtain ⟨chain, hrun, hlen, hhead⟩ :=
    reconstructPathAux_run hstart_par hpar dg goal [] fuel hdg hgoalvis hfuel
  rw [List.append_nil] at hrun
  rcases chain with _ | ⟨c, cs⟩
  · simp at hlen
  · have hc : start = c := by
      have := hhead
      simp only [List.head?_cons, Option.some.injEq] at this
      exact this.symm
    subst hc
    refine ⟨start :: cs, ?_, by simpa using hlen⟩
    unfold reconstruct_path
    rw [if_neg hne, hrun]
    show some (if start = start then start :: cs else []) = some (start :: cs)
    rw [if_pos rfl]

/-- Full invariant of one BFS expansion of a node `s` at distance `A`:
visited grows only by fresh nodes at distance `A + 1`, which are
appended to the queue and get `s` as parent; old parent entries, the
trace and the measure `|q| + |cells \ visited|` are preserved. -/
theorem bfsExpand_inv {env : MazeEnv} {s : Coord} {A : ℕ}
    (hs_cells : s ∈ cellsF env.maze.rows env.maze.cols)
    (hsd : hasDist env.maze.rows env.maze.cols env.maze.walls env.maze.start s A) :
    ∀ (lst : List Coord) (st : BfsState) (m : RunMetrics),
      (∀ nb ∈ lst, nb ∈ cellsF env.maze.rows env.maze.cols ∧
        openAdj env.maze.rows env.maze.cols env.maze.walls s nb) →
      (∀ p ∈ st.visited, p ∈ cellsF env.maze.rows env.maze.cols) →
      (∀ p k, ReachN env.maze.rows env.maze.cols env.maze.walls k
        env.maze.start p → k ≤ A → p ∈ st.visited) →
      (∀ p ∈ st.visited, p ∈ (bfsExpand s lst st m).1.visited) ∧
      (∀ p ∈ (bfsExpand s lst st m).1.visited, p ∈ st.visited ∨
        hasDist env.maze.rows env.maze.cols env.maze.walls env.maze.start
          p (A + 1)) ∧
      (∀ nb ∈ lst, nb ∈ (bfsExpand s lst st m).1.visited) ∧
      (∀ p ∈ (bfsExpand s lst st m).1.visited,
        p ∈ cellsF env.maze.rows env.maze.cols) ∧
      (∃ fr, (bfsExpand s lst st m).1.q = st.q ++ fr ∧
        ∀ p ∈ fr, p ∈ (bfsExpand s lst st m).1.visited ∧
          hasDist env.maze.rows env.maze.cols env.maze.walls env.maze.start
            p (A + 1)) ∧
      (∀ p ∈ st.visited, (bfsExpand s lst st m).1.parents p = st.parents p) ∧
      (∀ p ∈ (bfsExpand s lst st m).1.visited, p ∉ st.visited →
        (bfsExpand s lst st m).1.parents p = some (some s)) ∧
      (bfsExpand s lst st m).1.visited_order = st.visited_order ∧
      (∀ p ∈ (bfsExpand s lst st m).1.visited, p ∉ st.visited →
        p ∈ (bfsExpand s lst st m).1.q) ∧
      ((bfsExpand s lst st m).1.q.length +
        (cellsF env.maze.rows env.maze.cols \
          (bfsExpand s lst st m).1.visited).card
        = st.q.length +
          (cellsF env.maze.rows env.maze.cols \ st.visited).card) := by
  intro lst
  induction lst with
  | nil =>
    intro st m _ hvc _
    exact ⟨fun p hp => hp, fun p hp => Or.inl hp, fun nb hnb => absurd hnb
        (List.not_mem_nil _), hvc,
      ⟨[], by simp [bfsExpand], fun p hp => absurd hp (List.not_mem_nil _)⟩,
      fun p _ => rfl, fun p hp hp2 => absurd hp hp2, rfl,
      fun p hp hp2 => absurd hp hp2, rfl⟩
  | cons nb rest ih =>
    intro st m hnb hvc hI7
    by_cases hmem : nb ∈ st.visited
    · simp only [bfsExpand]
      rw [if_pos hmem]
      obtain ⟨c1, c2, c3, c4, c5, c6, c7, c8, c9, c10⟩ :=
        ih st { m with states_generated := m.states_generated + 1 }
          (fun x hx => hnb x (List.mem_cons_of_mem _ hx)) hvc hI7
      refine ⟨c1, c2, ?_, c4, c5, c6, c7, c8, c9, c10⟩
      intro x hx
      rcases List.mem_cons.mp hx with rfl | hx
      · exact c1 x hmem
      · exact c3 x hx
    · simp only [bfsExpand]
      rw [if_neg hmem]
      have hnb1 := hnb nb (List.mem_cons_self _ _)
      have hnd : hasDist env.maze.rows env.maze.cols env.maze.walls
          env.maze.start nb (A + 1) := by
        constructor
        · exact ⟨s, hs_cells, hsd.1, hnb1.2⟩
        · intro k hk
          by_contra hlt
          push_neg at hlt
          exact hmem (hI7 nb k hk (by omega))
      obtain ⟨c1, c2, c3, c4, c5, c6, c7, c8, c9, c10⟩ :=
        ih { st with
              visited := insert nb st.visited
              parents := Function.update st.parents nb (some (some s))
              q := st.q ++ [nb] }
          { m with states_generated := m.states_generated + 1 }
          (fun x hx => hnb x (List.mem_cons_of_mem _ hx))
          (by
            intro p hp
            dsimp only at hp
            rcases Finset.mem_insert.mp hp with rfl | hp
            · exact hnb1.1
            · exact hvc p hp)
          (fun p k hr hk => Finset.mem_insert_of_mem (hI7 p k hr hk))
      refine ⟨?_, ?_, ?_, c4, ?_, ?_, ?_, c8, ?_, ?_⟩
      · intro p hp
        exact c1 p (Finset.mem_insert_of_mem hp)
      · intro p hp
        rcases c2 p hp with hp2 | hp2
        · replace hp2 : p ∈ insert nb st.visited := hp2
          rcases Finset.mem_insert.mp hp2 with rfl | hp3
          · exact Or.inr hnd
          · exact Or.inl hp3
        · exact Or.inr hp2
      · intro x hx
        rcases List.mem_cons.mp hx with rfl | hx
        · exact c1 x (Finset.mem_insert_self _ _)
        · exact c3 x hx
      · obtain ⟨fr, hfr, hfrv⟩ := c5
        refine ⟨nb :: fr, ?_, ?_⟩
        · rw [hfr]
          show (st.q ++ [nb]) ++ fr = st.q ++ nb :: fr
          rw [List.append_assoc]
          rfl
        · intro p hp
          rcases List.mem_cons.mp hp with rfl | hp
          · exact ⟨c1 p (Finset.mem_insert_self _ _), hnd⟩
          · exact hfrv p hp
      · intro p hp
        rw [c6 p (Finset.mem_insert_of_mem hp)]
        show Function.update st.parents nb (some (some s)) p = st.parents p
        rw [Function.update_apply,
          if_neg (show ¬ p = nb from fun he => hmem (he ▸ hp))]
      · intro p hp hp2
        by_cases hpn : p = nb
        · subst hpn
          rw [c6 p (Finset.mem_insert_self _ _)]
          show Function.update st.parents p (some (some s)) p = some (some s)
          rw [Function.update_same]
        · refine c7 p hp ?_
          intro hcon
          replace hcon : p ∈ insert nb st.visited := hcon
          rcases Finset.mem_insert.mp hcon with rfl | hcon
          · exact hpn rfl
          · exact hp2 hcon
      · intro p hp hp2
        obtain ⟨fr, hfr, -⟩ := c5
        by_cases hpn : p = nb
        · subst hpn
          rw [hfr]
          exact List.mem_append.mpr (Or.inl (List.mem_append.mpr
            (Or.inr (List.mem_singleton.mpr rfl))))
        · refine c9 p hp ?_
          intro hcon
          replace hcon : p ∈ insert nb st.visited := hcon
          rcases Finset.mem_insert.mp hcon with rfl | hcon
          · exact hpn rfl
          · exact hp2 hcon
      · rw [c10]
        have hnbc : nb ∈ cellsF env.maze.rows env.maze.cols \ st.visited :=
          Finset.mem_sdiff.mpr ⟨hnb1.1, hmem⟩
        have hcard : (cellsF env.maze.rows env.maze.cols \
              insert nb st.visited).card + 1
            = (cellsF env.maze.rows env.maze.cols \ st.visited).card := by
          rw [Finset.sdiff_insert, Finset.card_erase_add_one hnbc]
        dsimp only
        simp only [List.length_append, List.length_cons, List.length_nil]
        omega

/-- The BFS loop under the breadth-first invariant: if the goal lies
at shortest distance `dgoal`, the loop terminates at the first pop of
the goal with a path of exactly `dgoal + 1` nodes. -/
theorem bfsLoop_success {env : MazeEnv} {dgoal : ℕ}
    (hgd : hasDist env.maze.rows env.maze.cols env.maze.walls env.maze.start
      env.maze.goal dgoal) :
    ∀ (fuel : ℕ) (st : BfsState) (m : RunMetrics) (a : ℕ),
      (∀ p ∈ st.q, p ∈ st.visited) →
      (∀ p ∈ st.visited, p ∈ cellsF env.maze.rows env.maze.cols) →
      env.maze.start ∈ st.visited →
      (∃ qa qb, st.q = qa ++ qb ∧
        (∀ p ∈ qa, hasDist env.maze.rows env.maze.cols env.maze.walls
          env.maze.start p a) ∧
        (∀ p ∈ qb, hasDist env.maze.rows env.maze.cols env.maze.walls
          env.maze.start p (a + 1))) →
      (∀ p ∈ st.visited, ∃ d2, d2 ≤ a + 1 ∧
        hasDist env.maze.rows env.maze.cols env.maze.walls
          env.maze.start p d2) →
      (∀ p ∈ st.visited, p ∉ st.q → ∀ q2,
        openAdj env.maze.rows env.maze.cols env.maze.walls p q2 →
        q2 ∈ st.visited) →
      (∀ p k, ReachN env.maze.rows env.maze.cols env.maze.walls k
        env.maze.start p → k ≤ a → p ∈ st.visited) →
      (env.maze.goal ∉ st.visited ∨ env.maze.goal ∈ st.q) →
      env.maze.goal ∉ st.visited_order →
      st.parents env.maze.start = some none →
      (∀ p ∈ st.visited, p ≠ env.maze.start → ∃ pr k,
        st.parents p = some (some pr) ∧ pr ∈ st.visited ∧
        hasDist env.maze.rows env.maze.cols env.maze.walls env.maze.start pr k ∧
        hasDist env.maze.rows env.maze.cols env.maze.walls env.maze.start
          p (k + 1)) →
      st.q.length +
        (cellsF env.maze.rows env.maze.cols \ st.visited).card < fuel →
      ∃ res m' st', bfsLoop env fuel st m = some (res, m', st') ∧
        res.path.length = dgoal + 1 ∧
        m'.solved = true ∧
        m'.solution_path_length = dgoal ∧
        res.visited_order.count env.maze.goal
          = st.visited_order.count env.maze.goal + 1 ∧
        res.visited_order.getLast? = some env.maze.goal := by
  intro fuel
  induction fuel with
  | zero =>
    intro st m a _ _ _ _ _ _ _ _ _ _ _ hlt
    exact absurd hlt (Nat.not_lt_zero _)
  | succ fuel ih =>
    intro st m a hI1 hI2 hI3 hI4 hI5 hI6 hI7 hI8 hI9 hI10a hI10b hlt
    rcases hqe : st.q with _ | ⟨s, rest⟩
    · exfalso
      have hproc : ∀ p ∈ st.visited, ∀ q2,
          openAdj env.maze.rows env.maze.cols env.maze.walls p q2 →
          q2 ∈ st.visited := by
        intro p hp q2 hq2
        exact hI6 p hp (by rw [hqe]; exact List.not_mem_nil _) q2 hq2
      have hcl : ∀ (n : ℕ) (p : Coord),
          ReachN env.maze.rows env.maze.cols env.maze.walls n
            env.maze.start p → p ∈ st.visited := by
        intro n
        induction n with
        | zero =>
          intro p hp
          have hsp : env.maze.start = p := hp
          exact hsp ▸ hI3
        | succ n ihn =>
          intro p hp
          obtain ⟨c, hcc, hrc, hadj⟩ := hp
          exact hproc c (ihn c hrc) p hadj
      have hgoalvis := hcl dgoal env.maze.goal hgd.1
      rcases hI8 with h | h
      · exact h hgoalvis
      · rw [hqe] at h
        exact List.not_mem_nil _ h
    · have hsv : s ∈ st.visited :=
        hI1 s (by rw [hqe]; exact List.mem_cons_self _ _)
      obtain ⟨A, ta, tb, hrest, hta, htb, hsd, hI5A, hI7A⟩ :
          ∃ A ta tb, rest = ta ++ tb ∧
            (∀ p ∈ ta, hasDist env.maze.rows env.maze.cols env.maze.walls
              env.maze.start p A) ∧
            (∀ p ∈ tb, hasDist env.maze.rows env.maze.cols env.maze.walls
              env.maze.start p (A + 1)) ∧
            hasDist env.maze.rows env.maze.cols env.maze.walls
              env.maze.start s A ∧
            (∀ p ∈ st.visited, ∃ d2, d2 ≤ A + 1 ∧
              hasDist env.maze.rows env.maze.cols env.maze.walls
                env.maze.start p d2) ∧
            (∀ p k, ReachN env.maze.rows env.maze.cols env.maze.walls k
              env.maze.start p → k ≤ A → p ∈ st.visited) := by
        obtain ⟨qa, qb, hq, hqa, hqb⟩ := hI4
        rw [hqe] at hq
        rcases qa with _ | ⟨s', qa'⟩
        · rw [List.nil_append] at hq
          have hI7' : ∀ p k, ReachN env.maze.rows env.maze.cols env.maze.walls k
              env.maze.start p → k ≤ a + 1 → p ∈ st.visited := by
            intro p k hr hk
            rcases Nat.lt_or_ge k (a + 1) with hk2 | hk2
            · exact hI7 p k hr (by omega)
            · have hke : k = a + 1 := by omega
              subst hke
              obtain ⟨c, hcc, hrc, hadj⟩ := hr
              have hcv : c ∈ st.visited := hI7 c a hrc (le_refl a)
              have hcq : c ∉ st.q := by
                intro hcq
                rw [hqe, hq] at hcq
                have := (hqb c hcq).2 a hrc
                omega
              exact hI6 c hcv hcq p hadj
          refine ⟨a + 1, rest, [], by simp, ?_, ?_, ?_, ?_, hI7'⟩
          · intro p hp
            exact hqb p (by rw [← hq]; exact List.mem_cons_of_mem _ hp)
          · intro p hp
            exact absurd hp (List.not_mem_nil _)
          · exact hqb s (by rw [← hq]; exact List.mem_cons_self _ _)
          · intro p hp
            obtain ⟨d2, hd2, hdd⟩ := hI5 p hp
            exact ⟨d2, by omega, hdd⟩
        · rw [List.cons_append] at hq
          injection hq with hs' hrest'
          refine ⟨a, qa', qb, hrest', ?_, hqb, ?_, hI5, hI7⟩
          · intro p hp
            exact hqa p (List.mem_cons_of_mem _ hp)
          · rw [hs']
            exact hqa s' (List.mem_cons_self _ _)
      by_cases hsg : s = env.maze.goal
      · have hgoalsv : env.maze.goal ∈ st.visited := hsg ▸ hsv
        have hAd : A = dgoal := hasDist_unique (hsg ▸ hsd) hgd
        obtain ⟨S, hsub, hcard, -⟩ :=
          parents_chain_card hI10b dgoal env.maze.goal hgd hgoalsv
        have hcardle : dgoal + 1 ≤ st.visited.card := by
          rw [← hcard]
          exact Finset.card_le_card hsub
        obtain ⟨path, hpath, hplen⟩ := reconstruct_path_spec hI10a hI10b
          hgoalsv hgd (show dgoal + 2 ≤ st.visited.card + 1 by omega)
        simp only [bfsLoop, hqe]
        rw [if_pos hsg, hpath]
        refine ⟨_, _, _, rfl, hplen, rfl, ?_, ?_, ?_⟩
        · show path.length - 1 = dgoal
          omega
        · show (st.visited_order ++ [s]).count env.maze.goal
            = st.visited_order.count env.maze.goal + 1
          rw [List.count_append, hsg]
          simp
        · show (st.visited_order ++ [s]).getLast? = some env.maze.goal
          rw [hsg]
          simp
      · have hscell := hI2 s hsv
        obtain ⟨c1, c2, c3, c4, c5, c6, c7, c8, c9, c10⟩ :=
          bfsExpand_inv hscell hsd (env.neighbors s)
            { st with q := rest, visited_order := st.visited_order ++ [s] }
            { m with states_expanded := m.states_expanded + 1 }
            (fun nb h => mem_neighbors_spec hscell h) hI2 hI7A
        obtain ⟨fr, hfrq, hfrv⟩ := c5
        simp only [bfsLoop, hqe]
        rw [if_neg hsg]
        revert c1 c2 c3 c4 c6 c7 c8 c9 c10 hfrq hfrv
        generalize bfsExpand s (env.neighbors s)
            { st with q := rest, visited_order := st.visited_order ++ [s] }
            { m with states_expanded := m.states_expanded + 1 } = E
        intro c1 c2 c3 c4 c6 c7 c8 c9 c10 hfrq hfrv
        have hI1' : ∀ p ∈ E.1.q, p ∈ E.1.visited := by
          intro p hp
          rw [hfrq] at hp
          rcases List.mem_append.mp hp with hp | hp
          · replace hp : p ∈ rest := hp
            exact c1 p (hI1 p (by rw [hqe]; exact List.mem_cons_of_mem _ hp))
          · exact (hfrv p hp).1
        have hI4' : ∃ qa qb, E.1.q = qa ++ qb ∧
            (∀ p ∈ qa, hasDist env.maze.rows env.maze.cols env.maze.walls
              env.maze.start p A) ∧
            (∀ p ∈ qb, hasDist env.maze.rows env.maze.cols env.maze.walls
              env.maze.start p (A + 1)) := by
          refine ⟨ta, tb ++ fr, ?_, hta, ?_⟩
          · rw [hfrq]
            show rest ++ fr = ta ++ (tb ++ fr)
            rw [hrest, List.append_assoc]
          · intro p hp
            rcases List.mem_append.mp hp with hp | hp
            · exact htb p hp
            · exact (hfrv p hp).2
        have hI5' : ∀ p ∈ E.1.visited, ∃ d2, d2 ≤ A + 1 ∧
            hasDist env.maze.rows env.maze.cols env.maze.walls
              env.maze.start p d2 := by
          intro p hp
          rcases c2 p hp with hp2 | hp2
          · exact hI5A p hp2
          · exact ⟨A + 1, le_refl _, hp2⟩
        have hI6' : ∀ p ∈ E.1.visited, p ∉ E.1.q → ∀ q2,
            openAdj env.maze.rows env.maze.cols env.maze.walls p q2 →
            q2 ∈ E.1.visited := by
          intro p hp hpq q2 hq2
          by_cases hpold : p ∈ st.visited
          · by_cases hps : p = s
            · subst hps
              exact c3 q2 (openAdj_mem_neighbors hq2)
            · have hpnotq : p ∉ st.q := by
                rw [hqe]
                intro hcon
                rcases List.mem_cons.mp hcon with rfl | hcon
                · exact hps rfl
                · refine hpq ?_
                  rw [hfrq]
                  exact List.mem_append.mpr (Or.inl hcon)
              exact c1 q2 (hI6 p hpold hpnotq q2 hq2)
          · exact absurd (c9 p hp hpold) hpq
        have hI8' : env.maze.goal ∉ E.1.visited ∨ env.maze.goal ∈ E.1.q := by
          by_cases hgv : env.maze.goal ∈ E.1.visited
          · refine Or.inr ?_
            by_cases hgold : env.maze.goal ∈ st.visited
            · rcases hI8 with h | h
              · exact absurd hgold h
              · rw [hqe] at h
                rcases List.mem_cons.mp h with he | h
                · exact absurd he.symm hsg
                · rw [hfrq]
                  exact List.mem_append.mpr (Or.inl h)
            · exact c9 _ hgv hgold
          · exact Or.inl hgv
        have hI9' : env.maze.goal ∉ E.1.visited_order := by
          rw [c8]
          show env.maze.goal ∉ st.visited_order ++ [s]
          intro hcon
          rcases List.mem_append.mp hcon with h | h
          · exact hI9 h
          · exact hsg (List.mem_singleton.mp h).symm
        have hI10a' : E.1.parents env.maze.start = some none := by
          rw [c6 _ hI3]
          exact hI10a
        have hI10b' : ∀ p ∈ E.1.visited, p ≠ env.maze.start → ∃ pr k,
            E.1.parents p = some (some pr) ∧ pr ∈ E.1.visited ∧
            hasDist env.maze.rows env.maze.cols env.maze.walls
              env.maze.start pr k ∧
            hasDist env.maze.rows env.maze.cols env.maze.walls
              env.maze.start p (k + 1) := by
          intro p hp hpstart
          by_cases hpold : p ∈ st.visited
          · obtain ⟨pr, k, hpr1, hpr2, hpr3, hpr4⟩ := hI10b p hpold hpstart
            exact ⟨pr, k, by rw [c6 p hpold]; exact hpr1, c1 pr hpr2, hpr3, hpr4⟩
          · have hdp : hasDist env.maze.rows env.maze.cols env.maze.walls
                env.maze.start p (A + 1) := by
              rcases c2 p hp with h | h
              · exact absurd h hpold
              · exact h
            exact ⟨s, A, c7 p hp hpold, c1 s hsv, hsd, hdp⟩
        have hlt' : E.1.q.length +
            (cellsF env.maze.rows env.maze.cols \ E.1.visited).card < fuel := by
          rw [c10]
          have hlen : st.q.length = rest.length + 1 := by rw [hqe]; rfl
          dsimp only
          omega
        obtain ⟨res, m', st', hrun, hlen2, hsol, hspl, hcount, hlast⟩ :=
          ih E.1 (E.2.record_frontier E.1.q.length) A hI1' c4 (c1 _ hI3)
            hI4' hI5' hI6' (fun p k hr hk => c1 p (hI7A p k hr hk))
            hI8' hI9' hI10a' hI10b' hlt'
        refine ⟨res, m', st', hrun, hlen2, hsol, hspl, ?_, hlast⟩
        rw [hcount, c8]
        show (st.visited_order ++ [s]).count env.maze.goal + 1
          = st.visited_order.count env.maze.goal + 1
        rw [List.count_append]
        have h0 : List.count env.maze.goal [s] = 0 :=
          List.count_eq_zero.mpr (fun hcon =>
            hsg (List.mem_singleton.mp hcon).symm)
        omega

/-- **C2.** On every maze produced by `generate_maze` (with in-grid
start), if `d` is the true shortest-path edge count from start to goal
in the open-cell graph, then `solve_bfs` succeeds with a path of
`d + 1` nodes (edge count `len(path) - 1 = d`, also recorded in
`solution_path_length`), and BFS stops at the first expansion that
pops the goal: the goal is popped exactly once, as the last expansion
of the run. -/
theorem bfs_shortest_path :
    ∀ (rows cols : ℤ) (choose : ℕ → ℕ) (start : Coord) (goal : Option Coord)
      (mz : Maze) (metrics : RunMetrics) (d : ℕ),
      generate_maze rows cols choose start goal = some mz →
      mz.start ∈ cellsF mz.rows mz.cols →
      ReachN mz.rows mz.cols mz.walls d mz.start mz.goal →
      (∀ k, k < d → ¬ ReachN mz.rows mz.cols mz.walls k mz.start mz.goal) →
      ∃ res m' st', solve_bfs { maze := mz } metrics = some (res, m', st') ∧
        res.path.length = d + 1 ∧
        m'.solved = true ∧
        m'.solution_path_length = d ∧
        res.visited_order.count mz.goal = 1 ∧
        res.visited_order.getLast? = some mz.goal := by
  intro rows cols choose start goal mz metrics d hgen hstart hreach hmin
  have hgd : hasDist mz.rows mz.cols mz.walls mz.start mz.goal d :=
    ⟨hreach, fun k hk => le_of_not_lt (fun hlt => hmin k hlt hk)⟩
  have hcard1 : (cellsF mz.rows mz.cols \ ({mz.start} : Finset Coord)).card
      = (cellsF mz.rows mz.cols).card - 1 := by
    rw [Finset.card_sdiff (Finset.singleton_subset_iff.mpr hstart),
      Finset.card_singleton]
  have hcard2 : 0 < (cellsF mz.rows mz.cols).card :=
    Finset.card_pos.mpr ⟨_, hstart⟩
  simp only [solve_bfs]
  obtain ⟨res, m', st', hrun, h1, h2, h3, h4, h5⟩ :=
    @bfsLoop_success { maze := mz } d hgd
      ((cellsF mz.rows mz.cols).card + 2)
      { q := [mz.start]
        visited := {mz.start}
        parents := Function.update (fun _ => none) mz.start (some none)
        visited_order := [] }
      (metrics.record_frontier 1) 0
      (by
        intro p hp
        replace hp : p ∈ [mz.start] := hp
        rcases List.mem_singleton.mp hp with rfl
        exact Finset.mem_singleton_self _)
      (by
        intro p hp
        replace hp : p ∈ ({mz.start} : Finset Coord) := hp
        rcases Finset.mem_singleton.mp hp with rfl
        exact hstart)
      (Finset.mem_singleton_self _)
      ⟨[mz.start], [], by simp,
        (by
          intro p hp
          rcases List.mem_singleton.mp hp with rfl
          exact hasDist_start),
        fun p hp => absurd hp (List.not_mem_nil _)⟩
      (by
        intro p hp
        replace hp : p ∈ ({mz.start} : Finset Coord) := hp
        rcases Finset.mem_singleton.mp hp with rfl
        exact ⟨0, by omega, hasDist_start⟩)
      (by
        intro p hp hpq q2 hq2
        replace hp : p ∈ ({mz.start} : Finset Coord) := hp
        rcases Finset.mem_singleton.mp hp with rfl
        exact absurd (List.mem_singleton.mpr rfl) hpq)
      (by
        intro p k hr hk
        have hk0 : k = 0 := Nat.le_zero.mp hk
        subst hk0
        have hsp : mz.start = p := hr
        rw [← hsp]
        exact Finset.mem_singleton_self _)
      (by
        by_cases hgs : mz.goal = mz.start
        · refine Or.inr ?_
          rw [hgs]
          exact List.mem_singleton.mpr rfl
        · refine Or.inl ?_
          intro hcon
          replace hcon : mz.goal ∈ ({mz.start} : Finset Coord) := hcon
          exact hgs (Finset.mem_singleton.mp hcon))
      (List.not_mem_nil _)
      (by
        show Function.update (fun _ => none) mz.start (some none) mz.start
          = some none
        rw [Function.update_same])
      (by
        intro p hp hps
        replace hp : p ∈ ({mz.start} : Finset Coord) := hp
        exact absurd (Finset.mem_singleton.mp hp) hps)
      (by
        show ([mz.start] : List Coord).length +
          (cellsF mz.rows mz.cols \ {mz.start}).card <
          (cellsF mz.rows mz.cols).card + 2
        simp only [List.length_cons, List.length_nil]
        omega)
  refine ⟨res, m', st', hrun, h1, h2, h3, ?_, h5⟩
  rw [h4]
  simp

/-- Witness for C2 on the 2×2 maze generated with the constant-zero
RNG oracle: the shortest start-goal distance is 2, and the BFS path
has 3 nodes. -/
theorem bfs_shortest_path_witness :
    ∃ res m' st' mz,
      generate_maze 2 2 (fun _ => 0) (0, 0) none = some mz ∧
      solve_bfs { maze := mz } {} = some (res, m', st') ∧
      res.path.length = 2 + 1 ∧ m'.solved = true ∧
      m'.solution_path_length = 2 ∧
      res.visited_order.count mz.goal = 1 ∧
      res.visited_order.getLast? = some mz.goal := by
  rcases hgen : generate_maze 2 2 (fun _ => 0) (0, 0) none with _ | mz
  · have hsome : (generate_maze 2 2 (fun _ => 0) (0, 0) none).isSome = true := by
      rfl
    rw [hgen] at hsome
    simp at hsome
  · have hp : (generate_maze 2 2 (fun _ => 0) (0, 0) none).map
        (fun (z : Maze) => (decide (z.start ∈ cellsF z.rows z.cols) &&
          decide (ReachN z.rows z.cols z.walls 2 z.start z.goal) &&
          decide (¬ ReachN z.rows z.cols z.walls 0 z.start z.goal) &&
          decide (¬ ReachN z.rows z.cols z.walls 1 z.start z.goal)))
        = some true := by decide
    rw [hgen] at hp
    simp only [Option.map_some'] at hp
    have hp2 := Option.some.inj hp
    rw [Bool.and_eq_true, Bool.and_eq_true, Bool.and_eq_true] at hp2
    obtain ⟨⟨⟨hb1, hb2⟩, hb3⟩, hb4⟩ := hp2
    have hmin : ∀ k, k < 2 → ¬ ReachN mz.rows mz.cols mz.walls k
        mz.start mz.goal := by
      intro k hk
      rcases k with _ | _ | k
      · exact of_decide_eq_true hb3
      · exact of_decide_eq_true hb4
      · omega
    obtain ⟨res, m', st', hrun, ha, hb, hc, hd, he⟩ :=
      bfs_shortest_path 2 2 (fun _ => 0) (0, 0) none mz {} 2 hgen
        (of_decide_eq_true hb1) (of_decide_eq_true hb2) hmin
    exact ⟨res, m', st', mz, rfl, hrun, ha, hb, hc, hd, he⟩

end MazeAI
